import Mathlib

/-! TaskScheduler: a lazy, memoising task-graph evaluator.

Shallow embedding of `lib/scheduler.h` (class `TTaskScheduler`) and a
verification of its documented behaviour.

Modelling decisions.

* All task results and arguments live in one value type `α` (the C++ code is a
  template over result types and erases them behind `void*`).
* A callable is a function into `Option α`; `none` stands for a thrown
  exception.  Side effects of callables are observed through the list of
  `Call` records every operation returns.
* `std::unique_ptr<BaseTask>` is `Option (BaseTask α)`; a reset pointer is
  `none`.  Dereferencing a reset pointer is undefined behaviour in C++ and is
  reported here as `Failure.nullDereference`.
* `nextTaskId` is a `size_t`.  It is incremented once per `push_back`, so it
  could only wrap after the vector holds `2^64` pointers, which `push_back`
  cannot reach; it is modelled as a natural number.
* `getResult`, `FutureResult::get`, `DeferredArgument::resolve` and `execute`
  are mutually recursive and do not terminate on cyclic graphs.  The embedding
  bounds the nesting depth of `getResult` by a fuel argument and reports
  `Failure.fuelExhausted` when the bound is hit.
* C++ leaves the order in which the two arguments of a call are evaluated
  unspecified, so `TaskWithTwoArgs::execute` takes the order as a parameter.
* The template argument `T` of `getResult<T>` only selects the type of the
  final `*static_cast<T*>(...)`.  Where it matters, `getResultAs` adds that
  read on top of `getResult`, with `typeOf` giving the type a value was
  stored with.  Reading the stored object through a pointer to another type
  is undefined behaviour in C++ and is reported as `Failure.typeConfusion`.
-/

namespace TaskScheduler

/-- Ways in which a call into the scheduler ends without a value. -/
inductive Failure where
  /-- `throw std::out_of_range("Bad task ID")`. -/
  | outOfRange
  /-- An exception escaping from a user callable. -/
  | callableThrew
  /-- Member access through a reset `unique_ptr` (undefined behaviour). -/
  | nullDereference
  /-- Read of a `result` member that was never assigned. -/
  | indeterminateResult
  /-- The recursion bound of the model was reached: the call has not returned. -/
  | fuelExhausted
  /-- Read of a result object through a pointer to another type (undefined
  behaviour). -/
  | typeConfusion
  deriving DecidableEq

/-- One invocation of a task's callable: which task, and whether it returned
normally (`true`) or threw (`false`). -/
structure Call where
  task : Nat
  returned : Bool
  deriving DecidableEq

/-- Evaluation order of the two argument expressions in
`taskFunction(firstArgument.resolve(), secondArgument.resolve())`. -/
inductive ArgOrder where
  | leftToRight
  | rightToLeft
  deriving DecidableEq

/-- `FutureResult<T>`: a task identifier (the scheduler pointer is implicit). -/
structure FutureResult where
  taskId : Nat
  deriving DecidableEq

/-- `DeferredArgument<T>`: an immediate value (`isFutureValue = false`) or a
future reference (`isFutureValue = true`). -/
inductive DeferredArgument (α : Type) where
  | value (v : α)
  | futureValue (f : FutureResult)

/-- The three concrete task classes with their callable and bound arguments. -/
inductive TaskKind (α : Type) where
  | TaskWithoutArgs (taskFunction : Unit → Option α)
  | TaskWithOneArg (taskFunction : α → Option α) (argument : DeferredArgument α)
  | TaskWithTwoArgs (taskFunction : α → α → Option α)
      (firstArgument secondArgument : DeferredArgument α)

/-- `BaseTask` together with the members of its concrete subclass. -/
structure BaseTask (α : Type) where
  kind : TaskKind α
  isExecuted : Bool
  result : Option α

/-- `TTaskScheduler`: the task vector and the identifier counter. -/
structure TTaskScheduler (α : Type) where
  taskList : List (Option (BaseTask α))
  nextTaskId : Nat

/-- Result of running a piece of scheduler code: how it ended, the scheduler
afterwards, and the callable invocations it made, oldest first. -/
structure Step (α β : Type) where
  outcome : Except Failure β
  sched : TTaskScheduler α
  calls : List Call

/-- Sequencing: an error (exception) skips the continuation. -/
def Step.andThen {α β γ : Type} (r : Step α β) (k : β → TTaskScheduler α → Step α γ) :
    Step α γ :=
  match r.outcome with
  | .error e => ⟨.error e, r.sched, r.calls⟩
  | .ok v => ⟨(k v r.sched).outcome, (k v r.sched).sched, r.calls ++ (k v r.sched).calls⟩

/-- A freshly constructed scheduler. -/
def TTaskScheduler.fresh {α : Type} : TTaskScheduler α := ⟨[], 0⟩

/-- The slot `taskList[id]`, when `id` is in range. -/
def TTaskScheduler.slot {α : Type} (s : TTaskScheduler α) (id : Nat) : Option (Option (BaseTask α)) :=
  s.taskList[id]?

/-- `DeferredArgument::resolve` (with `FutureResult::get` inlined); `getRes` is
the scheduler's `getResult`. -/
def DeferredArgument.resolve {α : Type} (getRes : TTaskScheduler α → Nat → Step α α)
    (s : TTaskScheduler α) : DeferredArgument α → Step α α
  | .value v => ⟨.ok v, s, []⟩
  | .futureValue f => getRes s f.taskId

/-- The tail of every `execute`: `result = taskFunction(...); isExecuted = true;`
on the task object stored at `id`, where `out` is what the callable produced. -/
def BaseTask.finish {α : Type} (t : BaseTask α) (s : TTaskScheduler α) (id : Nat)
    (out : Option α) : Step α Unit :=
  match out with
  | none => ⟨.error .callableThrew, s, [⟨id, false⟩]⟩
  | some r =>
    ⟨.ok (), { s with taskList := s.taskList.set id (some ⟨t.kind, true, some r⟩) },
      [⟨id, true⟩]⟩

/-- `TaskWithoutArgs::execute`. -/
def TaskWithoutArgs.execute {α : Type} (t : BaseTask α) (s : TTaskScheduler α) (id : Nat)
    (taskFunction : Unit → Option α) : Step α Unit :=
  if !t.isExecuted then
    t.finish s id (taskFunction ())
  else ⟨.ok (), s, []⟩

/-- `TaskWithOneArg::execute`. -/
def TaskWithOneArg.execute {α : Type} (getRes : TTaskScheduler α → Nat → Step α α)
    (t : BaseTask α) (s : TTaskScheduler α) (id : Nat)
    (taskFunction : α → Option α) (argument : DeferredArgument α) : Step α Unit :=
  if !t.isExecuted then
    (argument.resolve getRes s).andThen fun v s1 =>
      t.finish s1 id (taskFunction v)
  else ⟨.ok (), s, []⟩

/-- `TaskWithTwoArgs::execute`. -/
def TaskWithTwoArgs.execute {α : Type} (getRes : TTaskScheduler α → Nat → Step α α)
    (ord : ArgOrder) (t : BaseTask α) (s : TTaskScheduler α) (id : Nat)
    (taskFunction : α → α → Option α) (firstArgument secondArgument : DeferredArgument α) :
    Step α Unit :=
  if !t.isExecuted then
    match ord with
    | .leftToRight =>
      (firstArgument.resolve getRes s).andThen fun v1 s1 =>
        (secondArgument.resolve getRes s1).andThen fun v2 s2 =>
          t.finish s2 id (taskFunction v1 v2)
    | .rightToLeft =>
      (secondArgument.resolve getRes s).andThen fun v2 s1 =>
        (firstArgument.resolve getRes s1).andThen fun v1 s2 =>
          t.finish s2 id (taskFunction v1 v2)
  else ⟨.ok (), s, []⟩

/-- The virtual call `task->execute(scheduler)` on the task stored at `id`. -/
def BaseTask.execute {α : Type} (getRes : TTaskScheduler α → Nat → Step α α)
    (ord : ArgOrder) (t : BaseTask α) (s : TTaskScheduler α) (id : Nat) : Step α Unit :=
  match t.kind with
  | .TaskWithoutArgs f => TaskWithoutArgs.execute t s id f
  | .TaskWithOneArg f a => TaskWithOneArg.execute getRes t s id f a
  | .TaskWithTwoArgs f a1 a2 => TaskWithTwoArgs.execute getRes ord t s id f a1 a2

/-- The last line of `getResult`:
`return *static_cast<T*>(taskList[id]->getRawResult());`. -/
def readResult {α : Type} (s : TTaskScheduler α) (id : Nat) : Step α α :=
  match s.slot id with
  | some (some t) =>
    match t.result with
    | some v => ⟨.ok v, s, []⟩
    | none => ⟨.error .indeterminateResult, s, []⟩
  | _ => ⟨.error .nullDereference, s, []⟩

/-- `TTaskScheduler::getResult`, with the nesting depth bounded by the first
natural-number argument. -/
def getResult {α : Type} (ord : ArgOrder) : Nat → TTaskScheduler α → Nat → Step α α
  | 0, s, _ => ⟨.error .fuelExhausted, s, []⟩
  | fuel + 1, s, id =>
    if id ≥ s.taskList.length then ⟨.error .outOfRange, s, []⟩
    else
      match s.slot id with
      | some (some t) =>
        (if !t.isExecuted then t.execute (getResult ord fuel) ord s id
          else ⟨.ok (), s, []⟩).andThen fun _ s1 => readResult s1 id
      | _ => ⟨.error .nullDereference, s, []⟩

/-- Body of the loop of `executeAll` for the vector position `i`. -/
def executeAllBody {α : Type} (ord : ArgOrder) (fuel : Nat) (s : TTaskScheduler α) (i : Nat) :
    Step α Unit :=
  match s.slot i with
  | some (some t) =>
    if !t.isExecuted then t.execute (getResult ord fuel) ord s i else ⟨.ok (), s, []⟩
  | _ => ⟨.ok (), s, []⟩

/-- The loop of `executeAll` over the remaining vector positions. -/
def executeAllLoop {α : Type} (ord : ArgOrder) (fuel : Nat) :
    List Nat → TTaskScheduler α → Step α Unit
  | [], s => ⟨.ok (), s, []⟩
  | i :: rest, s =>
    (executeAllBody ord fuel s i).andThen fun _ s1 => executeAllLoop ord fuel rest s1

/-- `TTaskScheduler::executeAll`. -/
def executeAll {α : Type} (ord : ArgOrder) (fuel : Nat) (s : TTaskScheduler α) : Step α Unit :=
  executeAllLoop ord fuel (List.range s.taskList.length) s

/-- The common body of every `add` overload once the task object is built:
`id = nextTaskId++; taskList.push_back(task); return id;`. -/
def addTask {α : Type} (s : TTaskScheduler α) (k : TaskKind α) : Nat × TTaskScheduler α :=
  (s.nextTaskId, ⟨s.taskList ++ [some ⟨k, false, none⟩], s.nextTaskId + 1⟩)

/-- `add(Func)`. -/
def add {α : Type} (s : TTaskScheduler α) (function : Unit → Option α) :
    Nat × TTaskScheduler α :=
  addTask s (.TaskWithoutArgs function)

/-- `add(Func, Arg)` and `add(Func, FutureResult<Arg>)`: the overload chosen
decides the constructor of the deferred argument. -/
def addOneArg {α : Type} (s : TTaskScheduler α) (function : α → Option α)
    (argument : DeferredArgument α) : Nat × TTaskScheduler α :=
  addTask s (.TaskWithOneArg function argument)

/-- The four `add(Func, _, _)` overloads. -/
def addTwoArgs {α : Type} (s : TTaskScheduler α) (function : α → α → Option α)
    (argument1 argument2 : DeferredArgument α) : Nat × TTaskScheduler α :=
  addTask s (.TaskWithTwoArgs function argument1 argument2)

/-- `add(Ret (Class::*)(Arg) const, Class, Arg)` and
`add(Ret (Class::*)(Arg) const, Class, FutureResult<Arg>)`: the object is
captured by the lambda. -/
def addMethod {α : Type} (s : TTaskScheduler α) (method : α → α → Option α) (obj : α)
    (arg : DeferredArgument α) : Nat × TTaskScheduler α :=
  addOneArg s (fun a => method obj a) arg

/-- `add(Ret (Class::*)(Arg) const, FutureResult<Class>, Arg)` and
`add(Ret (Class::*)(Arg) const, FutureResult<Class>, FutureResult<Arg>)`. -/
def addMethodOnFuture {α : Type} (s : TTaskScheduler α) (method : α → α → Option α)
    (obj : FutureResult) (arg : DeferredArgument α) : Nat × TTaskScheduler α :=
  addTwoArgs s (fun o a => method o a) (.futureValue obj) arg

/-- `TTaskScheduler::clear`. -/
def clear {α : Type} (_s : TTaskScheduler α) : TTaskScheduler α := ⟨[], 0⟩

/-- The test `taskList[id] != nullptr` (the pointer converted to `bool`). -/
def TTaskScheduler.nonNull {α : Type} (s : TTaskScheduler α) (id : Nat) : Bool :=
  match s.slot id with
  | some (some _) => true
  | _ => false

/-- `TTaskScheduler::hasTask`. -/
def hasTask {α : Type} (s : TTaskScheduler α) (id : Nat) : Bool :=
  decide (id < s.taskList.length) && s.nonNull id

/-- `TTaskScheduler::removeTask`. -/
def removeTask {α : Type} (s : TTaskScheduler α) (id : Nat) :
    Except Failure Unit × TTaskScheduler α :=
  if decide (id ≥ s.taskList.length) || !s.nonNull id then
    (.error .outOfRange, s)
  else
    (.ok (), { s with taskList := s.taskList.set id none })

/-- `TTaskScheduler::getFutureResult`. -/
def getFutureResult {α : Type} (_s : TTaskScheduler α) (id : Nat) : FutureResult := ⟨id⟩

/-- The diamond of the test `Branching`: B = 3, L = B + 1, R = B - 1, S = L + R. -/
def diamond : TTaskScheduler Int :=
  let s0 : TTaskScheduler Int := TTaskScheduler.fresh
  let b := add s0 (fun _ => some 3)
  let l := addOneArg b.2 (fun v => some (v + 1)) (.futureValue (getFutureResult b.2 b.1))
  let r := addOneArg l.2 (fun v => some (v - 1)) (.futureValue (getFutureResult l.2 b.1))
  let t := addTwoArgs r.2 (fun x y => some (x + y)) (.futureValue (getFutureResult r.2 l.1))
    (.futureValue (getFutureResult r.2 r.1))
  t.2

/-! ## Sequences of calls made by a client -/

/-- One call of the public interface.  The five `add` constructors are the
groups of `add` overloads. -/
inductive Op (α : Type) where
  | add (function : Unit → Option α)
  | addOneArg (function : α → Option α) (argument : DeferredArgument α)
  | addTwoArgs (function : α → α → Option α) (argument1 argument2 : DeferredArgument α)
  | addMethod (method : α → α → Option α) (obj : α) (arg : DeferredArgument α)
  | addMethodOnFuture (method : α → α → Option α) (obj : FutureResult)
      (arg : DeferredArgument α)
  | getFutureResult (id : Nat)
  | getResult (id : Nat)
  | executeAll
  | removeTask (id : Nat)
  | hasTask (id : Nat)
  | clear

/-- What a call hands back to the client. -/
inductive Ret (α : Type) where
  | identifier (id : Nat)
  | future (f : FutureResult)
  | value (v : α)
  | bool (b : Bool)
  | done
  | failed (e : Failure)

/-- Is the call one of the `add` overloads? -/
def Op.isAdd {α : Type} : Op α → Bool
  | .add _ => true
  | .addOneArg _ _ => true
  | .addTwoArgs _ _ _ => true
  | .addMethod _ _ _ => true
  | .addMethodOnFuture _ _ _ => true
  | _ => false

/-- Is the call `clear`? -/
def Op.isClear {α : Type} : Op α → Bool
  | .clear => true
  | _ => false

/-- Is the call `getFutureResult`? -/
def Op.isGetFutureResult {α : Type} : Op α → Bool
  | .getFutureResult _ => true
  | _ => false

/-- A failure after which the client cannot go on: undefined behaviour, or a
call that has not returned.  The two exceptions can be caught. -/
def Failure.fatal : Failure → Bool
  | .outOfRange => false
  | .callableThrew => false
  | .nullDereference => true
  | .indeterminateResult => true
  | .fuelExhausted => true
  | .typeConfusion => true

/-- Does the returned value end the client's run? -/
def Ret.fatal {α : Type} : Ret α → Bool
  | .failed e => e.fatal
  | _ => false

/-- Package the result of an `add` overload. -/
def ofAdd {α : Type} (p : Nat × TTaskScheduler α) : Ret α × TTaskScheduler α × List Call :=
  (.identifier p.1, p.2, [])

/-- Package the result of `getResult`. -/
def ofGetResult {α : Type} (r : Step α α) : Ret α × TTaskScheduler α × List Call :=
  match r.outcome with
  | .ok v => (.value v, r.sched, r.calls)
  | .error e => (.failed e, r.sched, r.calls)

/-- Package the result of `executeAll`. -/
def ofExecuteAll {α : Type} (r : Step α Unit) : Ret α × TTaskScheduler α × List Call :=
  match r.outcome with
  | .ok _ => (.done, r.sched, r.calls)
  | .error e => (.failed e, r.sched, r.calls)

/-- Package the result of `removeTask`. -/
def ofRemoveTask {α : Type} (p : Except Failure Unit × TTaskScheduler α) :
    Ret α × TTaskScheduler α × List Call :=
  match p.1 with
  | .ok _ => (.done, p.2, [])
  | .error e => (.failed e, p.2, [])

/-- Perform one call on the scheduler. -/
def runOp {α : Type} (ord : ArgOrder) (fuel : Nat) (s : TTaskScheduler α) :
    Op α → Ret α × TTaskScheduler α × List Call
  | .add f => ofAdd (add s f)
  | .addOneArg f a => ofAdd (addOneArg s f a)
  | .addTwoArgs f a1 a2 => ofAdd (addTwoArgs s f a1 a2)
  | .addMethod m o a => ofAdd (addMethod s m o a)
  | .addMethodOnFuture m o a => ofAdd (addMethodOnFuture s m o a)
  | .getFutureResult id => (.future (getFutureResult s id), s, [])
  | .getResult id => ofGetResult (getResult ord fuel s id)
  | .executeAll => ofExecuteAll (executeAll ord fuel s)
  | .removeTask id => ofRemoveTask (removeTask s id)
  | .hasTask id => (.bool (hasTask s id), s, [])
  | .clear => (.done, clear s, [])

/-- A client's run so far: the scheduler, the calls made with what each
returned, and the callable invocations, all oldest first. -/
structure Run (α : Type) where
  sched : TTaskScheduler α
  events : List (Op α × Ret α)
  calls : List Call

/-- The run of a client that has just constructed its scheduler. -/
def Run.start {α : Type} : Run α := ⟨TTaskScheduler.fresh, [], []⟩

/-- Extend a run by one call. -/
def Run.step {α : Type} (ord : ArgOrder) (fuel : Nat) (r : Run α) (op : Op α) : Run α :=
  ⟨(runOp ord fuel r.sched op).2.1, r.events ++ [(op, (runOp ord fuel r.sched op).1)],
    r.calls ++ (runOp ord fuel r.sched op).2.2⟩

/-- Extend a run by a sequence of calls; the run ends early at a fatal failure. -/
def runOps {α : Type} (ord : ArgOrder) (fuel : Nat) : List (Op α) → Run α → Run α
  | [], r => r
  | op :: rest, r =>
    if (runOp ord fuel r.sched op).1.fatal then r.step ord fuel op
    else runOps ord fuel rest (r.step ord fuel op)

/-- The identifiers returned by the `add` calls of a run, oldest first. -/
def addReturns {α : Type} : List (Op α × Ret α) → List Nat
  | [] => []
  | (op, .identifier id) :: rest =>
    if op.isAdd then id :: addReturns rest else addReturns rest
  | _ :: rest => addReturns rest

/-- The effect of one event on the set of identifiers that were issued since
the last `clear` and not removed since. -/
def liveStep {α : Type} (live : Nat → Bool) : Op α × Ret α → Nat → Bool
  | (.clear, _) => fun _ => false
  | (.removeTask id, .done) => fun i => live i && !decide (i = id)
  | (op, .identifier id) => fun i => if op.isAdd then live i || decide (i = id) else live i
  | _ => live

/-- Was `id` returned by an `add` since the last `clear` (or since
construction) and not removed since?  Computed from the events of a run. -/
def live {α : Type} (events : List (Op α × Ret α)) (id : Nat) : Bool :=
  events.foldl liveStep (fun _ => false) id

/-! ## Uniform view of the three `execute` bodies -/

/-- The bound arguments of a task in the order in which `execute` resolves them. -/
def TaskKind.args {α : Type} (ord : ArgOrder) : TaskKind α → List (DeferredArgument α)
  | .TaskWithoutArgs _ => []
  | .TaskWithOneArg _ a => [a]
  | .TaskWithTwoArgs _ a1 a2 =>
    match ord with
    | .leftToRight => [a1, a2]
    | .rightToLeft => [a2, a1]

/-- The callable of a task applied to the argument values, given in the order
in which they were resolved. -/
def TaskKind.call {α : Type} (ord : ArgOrder) : TaskKind α → List α → Option α
  | .TaskWithoutArgs f, [] => f ()
  | .TaskWithOneArg f _, [v] => f v
  | .TaskWithTwoArgs f _ _, [v, w] =>
    match ord with
    | .leftToRight => f v w
    | .rightToLeft => f w v
  | _, _ => none

/-- Resolve a list of deferred arguments one after the other. -/
def resolveAll {α : Type} (getRes : TTaskScheduler α → Nat → Step α α) :
    TTaskScheduler α → List (DeferredArgument α) → Step α (List α)
  | s, [] => ⟨.ok [], s, []⟩
  | s, a :: rest =>
    (a.resolve getRes s).andThen fun v s1 =>
      (resolveAll getRes s1 rest).andThen fun vs s2 => ⟨.ok (v :: vs), s2, []⟩

/-- The task stored at `id` exists and has not been executed. -/
def Pending {α : Type} (s : TTaskScheduler α) (id : Nat) : Prop :=
  ∃ t, s.slot id = some (some t) ∧ t.isExecuted = false

/-- The task stored at `id` exists and has been executed. -/
def Executed {α : Type} (s : TTaskScheduler α) (id : Nat) : Prop :=
  ∃ t, s.slot id = some (some t) ∧ t.isExecuted = true

/-- The scheduler `s2` arises from `s1` by executing pending tasks: same
vector length and counter, and every slot is either untouched or went from a
pending task to the same task marked executed with a stored result. -/
structure Ext {α : Type} (s1 s2 : TTaskScheduler α) : Prop where
  len : s2.taskList.length = s1.taskList.length
  next : s2.nextTaskId = s1.nextTaskId
  slots : ∀ i, s2.slot i = s1.slot i ∨
    ∃ t r, s1.slot i = some (some t) ∧ t.isExecuted = false ∧
      s2.slot i = some (some ⟨t.kind, true, some r⟩)

/-! ## Predicates and reference semantics used in the statements -/

/-- Along every run the counter equals the number of slots, and `hasTask`
agrees with the bookkeeping of issued and removed identifiers. -/
def Tracked {α : Type} (r : Run α) : Prop :=
  r.sched.nextTaskId = r.sched.taskList.length ∧
  ∀ id, hasTask r.sched id = live r.events id

/-- No callable has been invoked and every registered task is still pending. -/
def Untouched {α : Type} (r : Run α) : Prop :=
  r.calls = [] ∧ ∀ i t, r.sched.slot i = some (some t) → t.isExecuted = false ∧ t.result = none

/-- The identifiers returned so far are `0, 1, ..., nextTaskId - 1` in order. -/
def Counted {α : Type} (r : Run α) : Prop :=
  addReturns r.events = List.range r.sched.nextTaskId

/-- Resolving the argument cannot change the scheduler: it is an immediate
value or a future reference to an executed task. -/
def Settled {α : Type} (s : TTaskScheduler α) : DeferredArgument α → Prop
  | .value _ => True
  | .futureValue f => Executed s f.taskId

/-- Task `b` is pending and the first of its arguments, in evaluation order,
that is not settled is a future reference to `j`. -/
def WaitsOn {α : Type} (ord : ArgOrder) (s : TTaskScheduler α) (b j : Nat) : Prop :=
  ∃ t pre post, s.slot b = some (some t) ∧ t.isExecuted = false ∧
    t.kind.args ord = pre ++ .futureValue ⟨j⟩ :: post ∧ ∀ a ∈ pre, Settled s a

/-- Every task of the set `B` waits on a task of `B` or on `x`: the tasks of
`B` are the callers, on the call stack, of a `getResult(x)` in progress. -/
def Blocked {α : Type} (ord : ArgOrder) (s : TTaskScheduler α) (B : Nat → Prop) (x : Nat) : Prop :=
  ∀ b, B b → ∃ j, WaitsOn ord s b j ∧ (B j ∨ j = x)

/-- What the invocations `c` made by a piece of execution from `s` to `s2`
satisfy: only tasks pending at the start are invoked, a task whose callable
returned is executed at the end, and no task is invoked again after its
callable has returned. -/
structure LogOK {α : Type} (s s2 : TTaskScheduler α) (c : List Call) : Prop where
  pending : ∀ e ∈ c, Pending s e.task
  executed : ∀ e ∈ c, e.returned = true → Executed s2 e.task
  norerun : c.Pairwise (fun e e2 => e.returned = true → e2.task ≠ e.task)

/-- The slot of `i` exists and does not hold a pending task: it was reset by
`removeTask` or its task has been executed. -/
def Done {α : Type} (s : TTaskScheduler α) (i : Nat) : Prop :=
  s.slot i = some none ∨ Executed s i

/-- Invariant of a run without `clear`: every task whose callable has returned
is no longer pending, and no task was invoked again after its callable had
returned. -/
def RunLog {α : Type} (r : Run α) : Prop :=
  (∀ e ∈ r.calls, e.returned = true → Done r.sched e.task) ∧
  r.calls.Pairwise (fun e e2 => e.returned = true → e2.task ≠ e.task)

/-- The task identifier a deferred argument refers to, if any. -/
def DeferredArgument.reference {α : Type} : DeferredArgument α → List Nat
  | .value _ => []
  | .futureValue f => [f.taskId]

/-- The task identifiers the arguments of a task refer to: the edges of the
dependency graph leaving the task. -/
def TaskKind.references {α : Type} : TaskKind α → List Nat
  | .TaskWithoutArgs _ => []
  | .TaskWithOneArg _ a => a.reference
  | .TaskWithTwoArgs _ a1 a2 => a1.reference ++ a2.reference

/-- The callable of a task applied to its arguments, each argument valued by
`val`; undefined when an argument has no value or the callable throws. -/
def TaskKind.eval {α : Type} (k : TaskKind α) (val : DeferredArgument α → Option α) : Option α :=
  match k with
  | .TaskWithoutArgs f => f ()
  | .TaskWithOneArg f a => (val a).bind f
  | .TaskWithTwoArgs f a1 a2 => (val a1).bind fun v1 => (val a2).bind fun v2 => f v1 v2

/-- The value of an argument read from the caches of `s`: the stored value of
an immediate argument, the stored result of an executed referenced task. -/
def cachedValue {α : Type} (s : TTaskScheduler α) : DeferredArgument α → Option α
  | .value v => some v
  | .futureValue f =>
    match s.slot f.taskId with
    | some (some t) => if t.isExecuted then t.result else none
    | _ => none

/-- The value an argument resolves to when demanded in `s`: the stored value
of an immediate argument, the value `getResult` returns for a future
reference. -/
def demandValue {α : Type} (ord : ArgOrder) (fuel : Nat) (s : TTaskScheduler α) :
    DeferredArgument α → Option α
  | .value v => some v
  | .futureValue f =>
    match (getResult ord fuel s f.taskId).outcome with
    | .ok v => some v
    | .error _ => none

/-- Cache-free reference value of task `id`: its callable applied to the
reference values of its arguments, unfolded to the given depth. -/
def denote {α : Type} (s : TTaskScheduler α) : Nat → Nat → Option α
  | 0, _ => none
  | n + 1, id =>
    match s.slot id with
    | some (some t) =>
      t.kind.eval fun a =>
        match a with
        | .value v => some v
        | .futureValue f => denote s n f.taskId
    | _ => none

/-- The argument valuation used by `denote` at depth `n`. -/
def denoteArg {α : Type} (s : TTaskScheduler α) (n : Nat) : DeferredArgument α → Option α
  | .value v => some v
  | .futureValue f => denote s n f.taskId

/-- The dependency graph is acyclic: some ranking of the identifiers decreases
along every future reference of a stored task. -/
def Acyclic {α : Type} (s : TTaskScheduler α) : Prop :=
  ∃ rank : Nat → Nat, ∀ i t j, s.slot i = some (some t) → j ∈ t.kind.references →
    rank j < rank i

/-- Every future reference of a stored task names a task that has not been
removed. -/
def ValidRefs {α : Type} (s : TTaskScheduler α) : Prop :=
  ∀ i t j, s.slot i = some (some t) → j ∈ t.kind.references → hasTask s j = true

/-- The callable never throws, whatever its arguments. -/
def TaskKind.neverThrows {α : Type} : TaskKind α → Prop
  | .TaskWithoutArgs f => f () ≠ none
  | .TaskWithOneArg f _ => ∀ v, f v ≠ none
  | .TaskWithTwoArgs f _ _ => ∀ v w, f v w ≠ none

/-- No callable of a stored task fails. -/
def NoFail {α : Type} (s : TTaskScheduler α) : Prop :=
  ∀ i t, s.slot i = some (some t) → t.kind.neverThrows

/-- Memoisation invariant: an executed task holds a result, its references
are in range, and, when none of the referenced tasks has been removed, the
result is the task's callable applied to the cached values of its arguments. -/
def Coherent {α : Type} (s : TTaskScheduler α) : Prop :=
  ∀ i t, s.slot i = some (some t) → t.isExecuted = true →
    (∀ j ∈ t.kind.references, j < s.taskList.length) ∧
    ∃ r, t.result = some r ∧
      ((∀ j ∈ t.kind.references, hasTask s j = true) → t.kind.eval (cachedValue s) = some r)

/-- The reference value of an argument: a future reference is valued by
`denote` at a depth just above the rank of the referenced task. -/
def refValue {α : Type} (s : TTaskScheduler α) (rank : Nat → Nat) : DeferredArgument α → Option α
  | .value v => some v
  | .futureValue f => denote s (rank f.taskId + 1) f.taskId

/-- Every executed task of `s2` caches the reference value computed in `s`. -/
def CacheSound {α : Type} (s s2 : TTaskScheduler α) (rank : Nat → Nat) : Prop :=
  ∀ i t, s2.slot i = some (some t) → t.isExecuted = true →
    ∃ v, t.result = some v ∧ denote s (rank i + 1) i = some v

/-- The calls that build the diamond of the test `Branching`. -/
def diamondOps : List (Op Int) :=
  [.add (fun _ => some 3),
    .addOneArg (fun v => some (v + 1)) (.futureValue ⟨0⟩),
    .addOneArg (fun v => some (v - 1)) (.futureValue ⟨0⟩),
    .addTwoArgs (fun x y => some (x + y)) (.futureValue ⟨1⟩) (.futureValue ⟨2⟩)]

/-- A task that adds two numbers but whose callable throws, fed by a constant
and by its successor: identifiers 0, 1 and 2. -/
def throwingSink : TTaskScheduler Int :=
  (addTwoArgs (addOneArg (add TTaskScheduler.fresh (fun _ => some 1)).2
    (fun v => some (v + 1)) (.futureValue ⟨0⟩)).2
    (fun _ _ => none) (.futureValue ⟨0⟩) (.futureValue ⟨1⟩)).2

/-- The effect of one event on the list of identifiers returned by `add`
since the last `clear`. -/
def epochStep {α : Type} (issued : List Nat) : Op α × Ret α → List Nat
  | (.clear, _) => []
  | (op, .identifier id) => if op.isAdd then issued ++ [id] else issued
  | _ => issued

/-- The identifiers returned by the `add` calls of a run since its last
`clear` (or since construction), oldest first. -/
def issuedSinceClear {α : Type} (events : List (Op α × Ret α)) : List Nat :=
  events.foldl epochStep []

/-- The identifiers issued since the last `clear` are `0, ..., nextTaskId - 1`
in order, and the counter equals the number of slots. -/
def Epoch {α : Type} (r : Run α) : Prop :=
  issuedSinceClear r.events = List.range r.sched.nextTaskId ∧
  r.sched.nextTaskId = r.sched.taskList.length

/-- `getResult<T>`: the template argument `T` only selects the cast applied
in the last line, `*static_cast<T*>(taskList[id]->getRawResult())`; `typeOf`
gives the type a result was stored with.  The code makes no check: when `T`
is that type the stored result is returned, otherwise the stored object is
read through a pointer to another type, which is undefined behaviour. -/
def getResultAs {α τ : Type} [DecidableEq τ] (typeOf : α → τ) (T : τ) (ord : ArgOrder)
    (fuel : Nat) (s : TTaskScheduler α) (id : Nat) : Step α α :=
  (getResult ord fuel s id).andThen fun v s1 =>
    if typeOf v = T then ⟨.ok v, s1, []⟩ else ⟨.error .typeConfusion, s1, []⟩

/-- Result types used in the tests: `int` and `std::string`. -/
inductive ValueType where
  | int
  | text
  deriving DecidableEq

/-- Values of the result types `int` and `std::string`. -/
inductive Value where
  | int (n : Int)
  | text (s : String)
  deriving DecidableEq

/-- The type a value was stored with. -/
def Value.typeOf : Value → ValueType
  | .int _ => .int
  | .text _ => .text

/-- The dependency closure: `Reaches s x y` when `y` is `x` or is reached
from `x` through future-reference arguments of stored tasks. -/
inductive Reaches {α : Type} (s : TTaskScheduler α) : Nat → Nat → Prop where
  | refl (x : Nat) : Reaches s x x
  | step {x j y : Nat} (t : BaseTask α) : s.slot x = some (some t) → j ∈ t.kind.references →
      Reaches s j y → Reaches s x y

/-- Every task referenced by an executed task has itself been executed, unless
it was removed since. -/
def RefsDone {α : Type} (s : TTaskScheduler α) : Prop :=
  ∀ i t, s.slot i = some (some t) → t.isExecuted = true → ∀ j ∈ t.kind.references, Done s j

/-- Further facts about the invocations `c` made by a piece of execution from
`s` to `s2`, where `threw` says that it ended with the exception of a
callable: every task that went from pending to executed was invoked with
success; without such an exception every invocation returned; with it, the
throwing invocation is the last one, all earlier ones returned, and the
throwing task is pending at the end. -/
structure LogMore {α : Type} (s s2 : TTaskScheduler α) (threw : Prop) (c : List Call) :
    Prop where
  complete : ∀ i, Pending s i → Executed s2 i → (⟨i, true⟩ : Call) ∈ c
  clean : ¬ threw → ∀ e ∈ c, e.returned = true
  failed : threw → ∃ l D, c = l ++ [⟨D, false⟩] ∧ (∀ e ∈ l, e.returned = true) ∧ Pending s2 D

/-- Calling `getResult` on each identifier of the list for which `hasTask`
holds, in the order of the list, discarding the values. -/
def getResultEach {α : Type} (ord : ArgOrder) (fuel : Nat) :
    List Nat → TTaskScheduler α → Step α Unit
  | [], s => ⟨.ok (), s, []⟩
  | i :: rest, s =>
    (if hasTask s i then
        (getResult ord fuel s i).andThen fun _ s1 => (⟨.ok (), s1, []⟩ : Step α Unit)
      else ⟨.ok (), s, []⟩).andThen fun _ s1 => getResultEach ord fuel rest s1

/-- Every executed task holds a result. -/
def HasResults {α : Type} (s : TTaskScheduler α) : Prop :=
  ∀ i t, s.slot i = some (some t) → t.isExecuted = true → ∃ v, t.result = some v

/-- A task whose callable throws. -/
def throwingTask : TTaskScheduler Int :=
  (add TTaskScheduler.fresh (fun _ => none)).2

/-- The calls that register a constant (0), a task whose callable throws (1)
and a sum of the two (2). -/
def failingDependencyOps : List (Op Int) :=
  [.add (fun _ => some 1),
    .add (fun _ => none),
    .addTwoArgs (fun x y => some (x + y)) (.futureValue ⟨0⟩) (.futureValue ⟨1⟩)]

/-- A constant and a task whose callable throws on negative arguments only,
fed by the constant: identifiers 0 and 1. -/
def guardedDoubleOps : List (Op Int) :=
  [.add (fun _ => some 7),
    .addOneArg (fun v => if v < 0 then none else some (2 * v)) (.futureValue ⟨0⟩)]

section Basic

variable {α : Type}

theorem andThen_error {β γ : Type} (r : Step α β) (k : β → TTaskScheduler α → Step α γ)
    (e : Failure) (h : r.outcome = .error e) :
    r.andThen k = ⟨.error e, r.sched, r.calls⟩ := by
  simp [Step.andThen, h]

theorem andThen_ok {β γ : Type} (r : Step α β) (k : β → TTaskScheduler α → Step α γ)
    (v : β) (h : r.outcome = .ok v) :
    r.andThen k = ⟨(k v r.sched).outcome, (k v r.sched).sched, r.calls ++ (k v r.sched).calls⟩ := by
  simp [Step.andThen, h]

theorem execute_eq (getRes : TTaskScheduler α → Nat → Step α α) (ord : ArgOrder)
    (t : BaseTask α) (s : TTaskScheduler α) (id : Nat) :
    t.execute getRes ord s id =
      if t.isExecuted then ⟨.ok (), s, []⟩
      else (resolveAll getRes s (t.kind.args ord)).andThen fun vs s2 =>
        t.finish s2 id (t.kind.call ord vs) := by
  unfold BaseTask.execute
  cases hk : t.kind with
  | TaskWithoutArgs f =>
    cases hx : t.isExecuted <;>
      simp [TaskWithoutArgs.execute, hx, TaskKind.args, resolveAll, Step.andThen, TaskKind.call]
  | TaskWithOneArg f a =>
    cases hx : t.isExecuted
    · simp only [TaskWithOneArg.execute, hx, TaskKind.args, resolveAll]
      rcases h1 : a.resolve getRes s with ⟨o1, s1, c1⟩
      cases o1 <;> simp [Step.andThen, TaskKind.call]
    · simp [TaskWithOneArg.execute, hx]
  | TaskWithTwoArgs f a1 a2 =>
    cases hx : t.isExecuted
    · cases ord
      · simp only [TaskWithTwoArgs.execute, hx, TaskKind.args, resolveAll]
        rcases h1 : a1.resolve getRes s with ⟨o1, s1, c1⟩
        cases o1 with
        | error e => simp [Step.andThen]
        | ok v1 =>
          rcases h2 : a2.resolve getRes s1 with ⟨o2, s2, c2⟩
          cases o2 <;> simp [Step.andThen, h2, TaskKind.call]
      · simp only [TaskWithTwoArgs.execute, hx, TaskKind.args, resolveAll]
        rcases h1 : a2.resolve getRes s with ⟨o1, s1, c1⟩
        cases o1 with
        | error e => simp [Step.andThen]
        | ok v1 =>
          rcases h2 : a1.resolve getRes s1 with ⟨o2, s2, c2⟩
          cases o2 <;> simp [Step.andThen, h2, TaskKind.call]
    · simp [TaskWithTwoArgs.execute, hx]

end Basic

/-! ## Removal and presence queries -/

section Removal

variable {α : Type}

theorem slot_lt {s : TTaskScheduler α} {id : Nat} {o : Option (BaseTask α)}
    (h : s.slot id = some o) : id < s.taskList.length := by
  unfold TTaskScheduler.slot at h
  by_contra hc
  rw [List.getElem?_eq_none (Nat.le_of_not_lt hc)] at h
  cases h

theorem slot_none_iff {s : TTaskScheduler α} {id : Nat} :
    s.slot id = none ↔ s.taskList.length ≤ id := by
  unfold TTaskScheduler.slot
  exact List.getElem?_eq_none_iff

theorem hasTask_iff {s : TTaskScheduler α} {id : Nat} :
    hasTask s id = true ↔ ∃ t, s.slot id = some (some t) := by
  unfold hasTask TTaskScheduler.nonNull
  constructor
  · intro h
    rcases hs : s.slot id with _ | _ | t
    · simp [hs] at h
    · simp [hs] at h
    · exact ⟨t, rfl⟩
  · rintro ⟨t, ht⟩
    simp [ht, slot_lt ht]

theorem removeTask_ok_iff {s : TTaskScheduler α} {id : Nat} :
    (removeTask s id).1 = .ok () ↔ hasTask s id = true := by
  unfold removeTask hasTask
  by_cases h1 : id < s.taskList.length
  · have h1n : ¬ s.taskList.length ≤ id := by omega
    cases h2 : s.nonNull id <;> simp [h1, h1n, h2]
  · have h1n : s.taskList.length ≤ id := by omega
    simp [h1, h1n]

theorem removeTask_sched_of_ok {s : TTaskScheduler α} {id : Nat}
    (h : hasTask s id = true) :
    (removeTask s id).2 = { s with taskList := s.taskList.set id none } := by
  unfold hasTask at h
  simp only [Bool.and_eq_true, decide_eq_true_eq] at h
  have h1n : ¬ s.taskList.length ≤ id := by omega
  unfold removeTask
  simp [h1n, h.2]

theorem removeTask_of_not_hasTask {s : TTaskScheduler α} {id : Nat}
    (h : hasTask s id = false) : removeTask s id = (.error .outOfRange, s) := by
  unfold hasTask at h
  unfold removeTask
  by_cases h1 : id < s.taskList.length
  · simp only [h1, decide_True, Bool.true_and] at h
    simp [h]
  · have h1n : s.taskList.length ≤ id := by omega
    simp [h1n]

/-- C7: `removeTask(id)` throws `std::out_of_range` exactly when `id` is out of
range or its slot is already reset, that is exactly when `hasTask(id)` is
false; a failing `removeTask` leaves the scheduler as it was; and a second
`removeTask(id)` right after a successful one fails. -/
theorem removeTask_fails_iff_not_hasTask (s : TTaskScheduler α) (id : Nat) :
    ((removeTask s id).1 = .error .outOfRange ↔ hasTask s id = false) ∧
    ((removeTask s id).1 = .error .outOfRange ∨ (removeTask s id).1 = .ok ()) ∧
    (hasTask s id = false ↔ (id ≥ s.taskList.length ∨ s.slot id = some none)) ∧
    ((removeTask s id).1 = .error .outOfRange → (removeTask s id).2 = s) ∧
    ((removeTask s id).1 = .ok () →
      (removeTask (removeTask s id).2 id).1 = .error .outOfRange) := by
  have hcases : (removeTask s id).1 = .error .outOfRange ∨ (removeTask s id).1 = .ok () := by
    unfold removeTask
    split <;> simp
  have hiff : (removeTask s id).1 = .error .outOfRange ↔ hasTask s id = false := by
    constructor
    · intro h
      cases hh : hasTask s id
      · rfl
      · rw [removeTask_ok_iff.mpr hh] at h
        cases h
    · intro h
      rcases hcases with h1 | h1
      · exact h1
      · rw [removeTask_ok_iff.mp h1] at h
        cases h
  refine ⟨hiff, hcases, ?_, ?_, ?_⟩
  · constructor
    · intro h
      by_cases hlt : id < s.taskList.length
      · right
        rcases hs : s.slot id with _ | _ | t
        · exact absurd (slot_none_iff.mp hs) (by omega)
        · rfl
        · rw [hasTask_iff.mpr ⟨t, hs⟩] at h
          cases h
      · left
        omega
    · intro h
      cases hh : hasTask s id
      · rfl
      · obtain ⟨t, ht⟩ := hasTask_iff.mp hh
        rcases h with h | h
        · exact absurd (slot_lt ht) (by omega)
        · rw [ht] at h
          cases h
  · intro h
    unfold removeTask at h ⊢
    split
    · rfl
    · rename_i hc
      simp [hc] at h
  · intro h
    have hh := removeTask_ok_iff.mp h
    rw [removeTask_sched_of_ok hh]
    have hlt : id < s.taskList.length := by
      obtain ⟨t, ht⟩ := hasTask_iff.mp hh
      exact slot_lt ht
    unfold removeTask TTaskScheduler.nonNull TTaskScheduler.slot
    simp [hlt]

/-- C8: after a successful `removeTask(id)`, `hasTask(id)` is false, every
other slot and its `hasTask` answer are unchanged, and so are the number of
slots and the next identifier. -/
theorem removeTask_frame (s : TTaskScheduler α) (id : Nat)
    (h : (removeTask s id).1 = .ok ()) :
    hasTask (removeTask s id).2 id = false ∧
    (∀ j, j ≠ id → (removeTask s id).2.slot j = s.slot j ∧
      hasTask (removeTask s id).2 j = hasTask s j) ∧
    (removeTask s id).2.taskList.length = s.taskList.length ∧
    (removeTask s id).2.nextTaskId = s.nextTaskId := by
  have hh := removeTask_ok_iff.mp h
  have hlt : id < s.taskList.length := by
    obtain ⟨t, ht⟩ := hasTask_iff.mp hh
    exact slot_lt ht
  rw [removeTask_sched_of_ok hh]
  refine ⟨?_, ?_, ?_, rfl⟩
  · unfold hasTask TTaskScheduler.nonNull TTaskScheduler.slot
    simp [hlt]
  · intro j hj
    have hs : ({ s with taskList := s.taskList.set id none } : TTaskScheduler α).slot j
        = s.slot j := by
      unfold TTaskScheduler.slot
      simp [List.getElem?_set_ne (Ne.symm hj)]
    refine ⟨hs, ?_⟩
    unfold hasTask TTaskScheduler.nonNull
    rw [hs]
    simp
  · simp

/-- Witness for C8 on the diamond: removing the base task. -/
theorem removeTask_frame_witness :
    (removeTask diamond 0).1 = .ok () ∧
    hasTask (removeTask diamond 0).2 0 = false ∧
    (∀ j, j ≠ 0 → (removeTask diamond 0).2.slot j = diamond.slot j ∧
      hasTask (removeTask diamond 0).2 j = hasTask diamond j) ∧
    (removeTask diamond 0).2.taskList.length = diamond.taskList.length ∧
    (removeTask diamond 0).2.nextTaskId = diamond.nextTaskId :=
  ⟨by rfl, removeTask_frame diamond 0 (by rfl)⟩

end Removal

/-! ## Frame of execution: what `getResult` and `executeAll` may change -/

section Frame

variable {α : Type}

theorem Ext.refl (s : TTaskScheduler α) : Ext s s :=
  ⟨rfl, rfl, fun _ => Or.inl rfl⟩

theorem Ext.trans {s1 s2 s3 : TTaskScheduler α} (h12 : Ext s1 s2) (h23 : Ext s2 s3) :
    Ext s1 s3 := by
  refine ⟨h23.len.trans h12.len, h23.next.trans h12.next, fun i => ?_⟩
  rcases h23.slots i with h | ⟨t, r, ht, hp, h3⟩
  · rcases h12.slots i with h' | ⟨t, r, ht, hp, h2⟩
    · exact Or.inl (h.trans h')
    · exact Or.inr ⟨t, r, ht, hp, h.trans h2⟩
  · rcases h12.slots i with h' | ⟨t', r', ht', hp', h2⟩
    · exact Or.inr ⟨t, r, h'.symm.trans ht, hp, h3⟩
    · rw [h2] at ht
      cases ht
      cases hp

theorem Ext.hasTask {s1 s2 : TTaskScheduler α} (h : Ext s1 s2) (i : Nat) :
    hasTask s2 i = hasTask s1 i := by
  unfold TaskScheduler.hasTask TTaskScheduler.nonNull
  rw [h.len]
  rcases h.slots i with h' | ⟨t, r, ht, _, h2⟩
  · rw [h']
  · rw [ht, h2]

theorem Ext.executed {s1 s2 : TTaskScheduler α} (h : Ext s1 s2) {i : Nat} {t : BaseTask α}
    (ht : s1.slot i = some (some t)) (hx : t.isExecuted = true) :
    s2.slot i = some (some t) := by
  rcases h.slots i with h' | ⟨t', r, ht', hp, _⟩
  · exact h'.trans ht
  · rw [ht] at ht'
    cases ht'
    rw [hx] at hp
    cases hp

theorem Ext.null {s1 s2 : TTaskScheduler α} (h : Ext s1 s2) {i : Nat}
    (ht : s1.slot i = some none) : s2.slot i = some none := by
  rcases h.slots i with h' | ⟨t', r, ht', _, _⟩
  · exact h'.trans ht
  · rw [ht] at ht'
    cases ht'

theorem Ext.kind {s1 s2 : TTaskScheduler α} (h : Ext s1 s2) {i : Nat} {t : BaseTask α}
    (ht : s1.slot i = some (some t)) :
    ∃ t2, s2.slot i = some (some t2) ∧ t2.kind = t.kind := by
  rcases h.slots i with h' | ⟨t', r, ht', _, h2⟩
  · exact ⟨t, h'.trans ht, rfl⟩
  · rw [ht] at ht'
    cases ht'
    exact ⟨_, h2, rfl⟩

theorem slot_set_self {s : TTaskScheduler α} {id : Nat} (o : Option (BaseTask α))
    (h : id < s.taskList.length) :
    ({ s with taskList := s.taskList.set id o } : TTaskScheduler α).slot id = some o := by
  unfold TTaskScheduler.slot
  simp [h]

theorem slot_set_ne {s : TTaskScheduler α} {id j : Nat} (o : Option (BaseTask α))
    (h : j ≠ id) :
    ({ s with taskList := s.taskList.set id o } : TTaskScheduler α).slot j = s.slot j := by
  unfold TTaskScheduler.slot
  simp [List.getElem?_set_ne (Ne.symm h)]

theorem andThen_sched {β γ : Type} (r : Step α β) (k : β → TTaskScheduler α → Step α γ) :
    (∃ e, r.outcome = .error e ∧ r.andThen k = ⟨.error e, r.sched, r.calls⟩) ∨
    (∃ v, r.outcome = .ok v ∧
      r.andThen k = ⟨(k v r.sched).outcome, (k v r.sched).sched,
        r.calls ++ (k v r.sched).calls⟩) := by
  cases h : r.outcome with
  | error e => exact Or.inl ⟨e, rfl, andThen_error r k e h⟩
  | ok v => exact Or.inr ⟨v, rfl, andThen_ok r k v h⟩

theorem resolve_ext (getRes : TTaskScheduler α → Nat → Step α α)
    (hg : ∀ s j, Ext s (getRes s j).sched) (s : TTaskScheduler α) (a : DeferredArgument α) :
    Ext s (a.resolve getRes s).sched := by
  cases a with
  | value v => exact Ext.refl s
  | futureValue f => exact hg s f.taskId

theorem resolveAll_ext (getRes : TTaskScheduler α → Nat → Step α α)
    (hg : ∀ s j, Ext s (getRes s j).sched) (as : List (DeferredArgument α)) :
    ∀ s, Ext s (resolveAll getRes s as).sched := by
  induction as with
  | nil => intro s; exact Ext.refl s
  | cons a rest ih =>
    intro s
    have h1 := resolve_ext getRes hg s a
    simp only [resolveAll]
    rcases andThen_sched (a.resolve getRes s) _ with ⟨e, _, h⟩ | ⟨v, _, h⟩
    · rw [h]; exact h1
    · rw [h]
      have h2 := ih (a.resolve getRes s).sched
      rcases andThen_sched (resolveAll getRes (a.resolve getRes s).sched rest)
        (fun vs s2 => (⟨.ok (v :: vs), s2, []⟩ : Step α (List α))) with ⟨e, _, h'⟩ | ⟨vs, _, h'⟩
      · simp only [h']; exact h1.trans h2
      · simp only [h']; exact h1.trans h2

theorem finish_ext (t : BaseTask α) (s0 s : TTaskScheduler α) (id : Nat) (out : Option α)
    (h0 : Ext s0 s) (ht : s0.slot id = some (some t)) (hp : t.isExecuted = false) :
    Ext s0 (t.finish s id out).sched := by
  cases out with
  | none => exact h0
  | some r =>
    simp only [BaseTask.finish]
    have hlt : id < s.taskList.length := by
      rw [h0.len]; exact slot_lt ht
    refine ⟨by simp [h0.len], h0.next, fun i => ?_⟩
    by_cases hi : i = id
    · subst hi
      exact Or.inr ⟨t, r, ht, hp, slot_set_self _ hlt⟩
    · rw [slot_set_ne _ hi]
      exact h0.slots i

theorem execute_ext (getRes : TTaskScheduler α → Nat → Step α α)
    (hg : ∀ s j, Ext s (getRes s j).sched) (ord : ArgOrder) (t : BaseTask α)
    (s : TTaskScheduler α) (id : Nat) (ht : s.slot id = some (some t)) :
    Ext s (t.execute getRes ord s id).sched := by
  rw [execute_eq]
  cases hx : t.isExecuted with
  | true => exact Ext.refl s
  | false =>
    simp only [Bool.false_eq_true, if_false]
    have h1 := resolveAll_ext getRes hg (t.kind.args ord) s
    rcases andThen_sched (resolveAll getRes s (t.kind.args ord))
      (fun vs s2 => t.finish s2 id (t.kind.call ord vs)) with ⟨e, _, h⟩ | ⟨vs, _, h⟩
    · rw [h]; exact h1
    · rw [h]; exact finish_ext t s _ id _ h1 ht hx

theorem readResult_sched (s : TTaskScheduler α) (id : Nat) :
    (readResult s id).sched = s ∧ (readResult s id).calls = [] := by
  unfold readResult
  split
  · split <;> exact ⟨rfl, rfl⟩
  · exact ⟨rfl, rfl⟩

theorem getResult_ext (ord : ArgOrder) (fuel : Nat) :
    ∀ (s : TTaskScheduler α) (id : Nat), Ext s (getResult ord fuel s id).sched := by
  induction fuel with
  | zero => intro s id; exact Ext.refl s
  | succ n ih =>
    intro s id
    simp only [getResult]
    split
    · exact Ext.refl s
    · split
      · rename_i t ht
        have h1 : Ext s (if (!t.isExecuted) = true then t.execute (getResult ord n) ord s id
            else ⟨.ok (), s, []⟩).sched := by
          split
          · exact execute_ext _ ih ord t s id ht
          · exact Ext.refl s
        rcases andThen_sched (if (!t.isExecuted) = true then t.execute (getResult ord n) ord s id
            else ⟨.ok (), s, []⟩) (fun _ s1 => readResult s1 id) with ⟨e, _, h⟩ | ⟨v, _, h⟩
        · rw [h]; exact h1
        · rw [h]
          simp only [(readResult_sched _ id).1]
          exact h1
      · exact Ext.refl s

theorem executeAllBody_ext (ord : ArgOrder) (fuel : Nat) (s : TTaskScheduler α) (i : Nat) :
    Ext s (executeAllBody ord fuel s i).sched := by
  unfold executeAllBody
  split
  · rename_i t ht
    split
    · exact execute_ext _ (getResult_ext ord fuel) ord t s i ht
    · exact Ext.refl s
  · exact Ext.refl s

theorem executeAllLoop_ext (ord : ArgOrder) (fuel : Nat) (is : List Nat) :
    ∀ (s : TTaskScheduler α), Ext s (executeAllLoop ord fuel is s).sched := by
  induction is with
  | nil => intro s; exact Ext.refl s
  | cons i rest ih =>
    intro s
    simp only [executeAllLoop]
    have h1 := executeAllBody_ext ord fuel s i
    rcases andThen_sched (executeAllBody ord fuel s i)
      (fun _ s1 => executeAllLoop ord fuel rest s1) with ⟨e, _, h⟩ | ⟨v, _, h⟩
    · rw [h]; exact h1
    · rw [h]; exact h1.trans (ih _)

theorem executeAll_ext (ord : ArgOrder) (fuel : Nat) (s : TTaskScheduler α) :
    Ext s (executeAll ord fuel s).sched :=
  executeAllLoop_ext ord fuel _ s

end Frame

/-! ## Registration, identifiers and presence along a client's run -/

section Runs

variable {α : Type}

theorem runOps_invariant (ord : ArgOrder) (fuel : Nat) (P : Op α → Prop) (I : Run α → Prop)
    (hstep : ∀ r op, P op → I r → I (r.step ord fuel op)) :
    ∀ (ops : List (Op α)) (r : Run α), (∀ op ∈ ops, P op) → I r → I (runOps ord fuel ops r) := by
  intro ops
  induction ops with
  | nil => intro r _ hr; exact hr
  | cons op rest ih =>
    intro r hP hr
    have h1 := hstep r op (hP op (List.mem_cons_self _ _)) hr
    simp only [runOps]
    split
    · exact h1
    · exact ih _ (fun o ho => hP o (List.mem_cons_of_mem _ ho)) h1

theorem runOp_add_eq (ord : ArgOrder) (fuel : Nat) (s : TTaskScheduler α) (op : Op α)
    (h : op.isAdd = true) :
    ∃ k, runOp ord fuel s op =
      (.identifier s.nextTaskId,
        ⟨s.taskList ++ [some ⟨k, false, none⟩], s.nextTaskId + 1⟩, []) := by
  cases op <;> simp [Op.isAdd] at h
  · exact ⟨_, rfl⟩
  · exact ⟨_, rfl⟩
  · exact ⟨_, rfl⟩
  · exact ⟨_, rfl⟩
  · exact ⟨_, rfl⟩

theorem ofGetResult_cases (r : Step α α) :
    (ofGetResult r).2.1 = r.sched ∧ (ofGetResult r).2.2 = r.calls ∧
    ((∃ v, (ofGetResult r).1 = .value v) ∨ (∃ e, (ofGetResult r).1 = .failed e)) := by
  unfold ofGetResult
  cases r.outcome with
  | error e => exact ⟨rfl, rfl, Or.inr ⟨e, rfl⟩⟩
  | ok v => exact ⟨rfl, rfl, Or.inl ⟨v, rfl⟩⟩

theorem ofExecuteAll_cases (r : Step α Unit) :
    (ofExecuteAll r : Ret α × TTaskScheduler α × List Call).2.1 = r.sched ∧
    (ofExecuteAll r : Ret α × TTaskScheduler α × List Call).2.2 = r.calls ∧
    ((ofExecuteAll r : Ret α × TTaskScheduler α × List Call).1 = .done ∨
      (∃ e, (ofExecuteAll r : Ret α × TTaskScheduler α × List Call).1 = .failed e)) := by
  unfold ofExecuteAll
  cases r.outcome with
  | error e => exact ⟨rfl, rfl, Or.inr ⟨e, rfl⟩⟩
  | ok v => exact ⟨rfl, rfl, Or.inl rfl⟩

theorem runOp_removeTask (ord : ArgOrder) (fuel : Nat) (s : TTaskScheduler α) (id : Nat) :
    (hasTask s id = true ∧ runOp ord fuel s (.removeTask id) =
      (.done, { s with taskList := s.taskList.set id none }, [])) ∨
    (hasTask s id = false ∧ runOp ord fuel s (.removeTask id) =
      (.failed .outOfRange, s, [])) := by
  cases hh : hasTask s id
  · right
    refine ⟨rfl, ?_⟩
    rw [runOp, removeTask_of_not_hasTask hh]
    rfl
  · left
    refine ⟨rfl, ?_⟩
    have h1 := removeTask_ok_iff.mpr hh
    simp only [runOp, ofRemoveTask, h1]
    rw [removeTask_sched_of_ok hh]

theorem live_append (es : List (Op α × Ret α)) (e : Op α × Ret α) (id : Nat) :
    live (es ++ [e]) id = liveStep (live es) e id := by
  unfold live
  rw [List.foldl_append]
  rfl

theorem addReturns_append (es : List (Op α × Ret α)) (e : Op α × Ret α) :
    addReturns (es ++ [e]) = addReturns es ++ addReturns [e] := by
  induction es with
  | nil => simp [addReturns]
  | cons x rest ih =>
    obtain ⟨op, ret⟩ := x
    cases ret <;> simp only [List.cons_append, addReturns]
    · split <;> simp [ih]
    all_goals simpa using ih

theorem hasTask_push (s : TTaskScheduler α) (t : BaseTask α) (n : Nat) (id : Nat) :
    hasTask (⟨s.taskList ++ [some t], n⟩ : TTaskScheduler α) id =
      (hasTask s id || decide (id = s.taskList.length)) := by
  unfold hasTask TTaskScheduler.nonNull TTaskScheduler.slot
  simp only [List.length_append, List.length_singleton]
  rcases Nat.lt_trichotomy id s.taskList.length with h | h | h
  · rw [List.getElem?_append_left h]
    have h1 : id < s.taskList.length + 1 := by omega
    have h2 : id ≠ s.taskList.length := by omega
    simp [h, h1, h2]
  · subst h
    simp
  · have h1 : ¬ id < s.taskList.length + 1 := by omega
    have h2 : ¬ id < s.taskList.length := by omega
    have h3 : id ≠ s.taskList.length := by omega
    simp [h1, h2, h3]

theorem hasTask_reset (s : TTaskScheduler α) (id j : Nat) :
    hasTask ({ s with taskList := s.taskList.set id none } : TTaskScheduler α) j =
      (hasTask s j && !decide (j = id)) := by
  by_cases hj : j = id
  · subst hj
    unfold hasTask TTaskScheduler.nonNull TTaskScheduler.slot
    by_cases hlt : j < s.taskList.length
    · simp [hlt]
    · simp [hlt]
  · unfold hasTask TTaskScheduler.nonNull
    rw [slot_set_ne _ hj]
    simp [hj]

theorem tracked_step (ord : ArgOrder) (fuel : Nat) (r : Run α) (op : Op α) (h : Tracked r) :
    Tracked (r.step ord fuel op) := by
  obtain ⟨hn, hl⟩ := h
  by_cases hadd : op.isAdd = true
  · obtain ⟨k, hk⟩ := runOp_add_eq ord fuel r.sched op hadd
    refine ⟨?_, fun id => ?_⟩
    · simp [Run.step, hk, hn]
    · simp only [Run.step, hk, live_append]
      rw [hasTask_push, hl id, hn]
      cases op <;> simp [Op.isAdd] at hadd <;> simp [liveStep, Op.isAdd]
  · cases op with
    | add f => simp [Op.isAdd] at hadd
    | addOneArg f a => simp [Op.isAdd] at hadd
    | addTwoArgs f a b => simp [Op.isAdd] at hadd
    | addMethod m o a => simp [Op.isAdd] at hadd
    | addMethodOnFuture m o a => simp [Op.isAdd] at hadd
    | getFutureResult id =>
      refine ⟨hn, fun j => ?_⟩
      simp only [Run.step, runOp, live_append]
      exact hl j
    | getResult id =>
      have hc := ofGetResult_cases (getResult ord fuel r.sched id)
      have he := getResult_ext ord fuel r.sched id
      refine ⟨?_, fun j => ?_⟩
      · simp only [Run.step, runOp, hc.1, he.len, he.next]
        exact hn
      · simp only [Run.step, runOp, live_append, hc.1, he.hasTask]
        rw [hl j]
        rcases hc.2.2 with ⟨v, hv⟩ | ⟨e, hv⟩ <;> rw [hv] <;> rfl
    | executeAll =>
      have hc := ofExecuteAll_cases (α := α) (executeAll ord fuel r.sched)
      have he := executeAll_ext ord fuel r.sched
      refine ⟨?_, fun j => ?_⟩
      · simp only [Run.step, runOp, hc.1, he.len, he.next]
        exact hn
      · simp only [Run.step, runOp, live_append, hc.1, he.hasTask]
        rw [hl j]
        rcases hc.2.2 with hv | ⟨e, hv⟩ <;> rw [hv] <;> rfl
    | removeTask id =>
      rcases runOp_removeTask ord fuel r.sched id with ⟨_, h⟩ | ⟨_, h⟩
      · refine ⟨?_, fun j => ?_⟩
        · simp [Run.step, h, hn]
        · simp only [Run.step, h, live_append]
          rw [hasTask_reset, hl j]
          rfl
      · refine ⟨?_, fun j => ?_⟩
        · simp [Run.step, h, hn]
        · simp only [Run.step, h, live_append]
          rw [hl j]
          rfl
    | hasTask id =>
      refine ⟨hn, fun j => ?_⟩
      simp only [Run.step, runOp, live_append]
      exact hl j
    | clear =>
      refine ⟨rfl, fun j => ?_⟩
      simp only [Run.step, runOp, live_append]
      rfl

theorem tracked_start : Tracked (Run.start : Run α) :=
  ⟨rfl, fun _ => rfl⟩

theorem tracked_runOps (ord : ArgOrder) (fuel : Nat) (ops : List (Op α)) :
    Tracked (runOps ord fuel ops (Run.start : Run α)) :=
  runOps_invariant ord fuel (fun _ => True) Tracked
    (fun r op _ h => tracked_step ord fuel r op h) ops _ (fun _ _ => trivial) tracked_start

end Runs

section RunClaims

variable {α : Type}

theorem slot_push_lt (l : List (Option (BaseTask α))) (o : Option (BaseTask α)) (n i : Nat)
    (h : i < l.length) :
    (⟨l ++ [o], n⟩ : TTaskScheduler α).slot i = l[i]? := by
  unfold TTaskScheduler.slot
  exact List.getElem?_append_left h

theorem untouched_step (ord : ArgOrder) (fuel : Nat) (r : Run α) (op : Op α)
    (hop : op.isAdd = true ∨ op.isGetFutureResult = true) (h : Untouched r) :
    Untouched (r.step ord fuel op) := by
  obtain ⟨hc, hs⟩ := h
  rcases hop with hadd | hget
  · obtain ⟨k, hk⟩ := runOp_add_eq ord fuel r.sched op hadd
    refine ⟨by simp [Run.step, hk, hc], fun i t hi => ?_⟩
    simp only [Run.step, hk] at hi
    by_cases hlt : i < r.sched.taskList.length
    · rw [slot_push_lt _ _ _ _ hlt] at hi
      exact hs i t hi
    · unfold TTaskScheduler.slot at hi
      rw [List.getElem?_append_right (Nat.le_of_not_lt hlt)] at hi
      cases hsub : i - r.sched.taskList.length with
      | zero =>
        rw [hsub] at hi
        simp at hi
        subst hi
        exact ⟨rfl, rfl⟩
      | succ m =>
        rw [hsub] at hi
        simp at hi
  · cases op <;> simp [Op.isGetFutureResult] at hget
    exact ⟨by simp [Run.step, runOp, hc], fun i t hi => hs i t hi⟩

/-- C6: an `add` overload only appends one pending task: it returns no
callable invocation, the task list is the old one followed by a task with
`isExecuted = false` and no result, and all earlier slots are unchanged.
Hence after a run made only of `add` and `getFutureResult` calls no callable
has been invoked and every task is still pending. -/
theorem add_runs_no_callable (ord : ArgOrder) (fuel : Nat) (s : TTaskScheduler α) (op : Op α)
    (hadd : op.isAdd = true) (ops : List (Op α))
    (hops : ∀ o ∈ ops, o.isAdd = true ∨ o.isGetFutureResult = true) :
    (∃ k, (runOp ord fuel s op).2.1.taskList = s.taskList ++ [some ⟨k, false, none⟩]) ∧
    (runOp ord fuel s op).2.2 = [] ∧
    (∀ i, i < s.taskList.length → (runOp ord fuel s op).2.1.slot i = s.slot i) ∧
    (runOps ord fuel ops Run.start).calls = [] ∧
    (∀ i t, (runOps ord fuel ops Run.start).sched.slot i = some (some t) →
      t.isExecuted = false ∧ t.result = none) := by
  obtain ⟨k, hk⟩ := runOp_add_eq ord fuel s op hadd
  have hrun : Untouched (runOps ord fuel ops (Run.start : Run α)) :=
    runOps_invariant ord fuel (fun o => o.isAdd = true ∨ o.isGetFutureResult = true) Untouched
      (fun r o ho h => untouched_step ord fuel r o ho h) ops _ hops
      ⟨rfl, fun i t hi => by simp [Run.start, TTaskScheduler.fresh, TTaskScheduler.slot] at hi⟩
  refine ⟨⟨k, by rw [hk]⟩, by rw [hk], fun i hi => ?_, hrun.1, hrun.2⟩
  rw [hk]
  exact slot_push_lt _ _ _ _ hi

/-- Witness for C6: registering the diamond's sink on top of the diamond, and
a run that registers two tasks and takes a future reference. -/
theorem add_runs_no_callable_witness :
    (∃ k, (runOp .leftToRight 3 diamond
        (.addTwoArgs (fun x y => some (x + y)) (.futureValue ⟨1⟩) (.value 5))).2.1.taskList
      = diamond.taskList ++ [some ⟨k, false, none⟩]) ∧
    (runOp .leftToRight 3 diamond
        (.addTwoArgs (fun x y => some (x + y)) (.futureValue ⟨1⟩) (.value 5))).2.2 = [] ∧
    (∀ i, i < diamond.taskList.length →
      (runOp .leftToRight 3 diamond
        (.addTwoArgs (fun x y => some (x + y)) (.futureValue ⟨1⟩) (.value 5))).2.1.slot i
        = diamond.slot i) ∧
    (runOps .leftToRight 3
      [.add (fun _ => some (1 : Int)), .getFutureResult 0,
        .addOneArg (fun v => some (v + 1)) (.futureValue ⟨0⟩)] Run.start).calls = [] ∧
    (∀ i t, (runOps .leftToRight 3
      [.add (fun _ => some (1 : Int)), .getFutureResult 0,
        .addOneArg (fun v => some (v + 1)) (.futureValue ⟨0⟩)] Run.start).sched.slot i
        = some (some t) → t.isExecuted = false ∧ t.result = none) :=
  add_runs_no_callable .leftToRight 3 diamond
    (.addTwoArgs (fun x y => some (x + y)) (.futureValue ⟨1⟩) (.value 5)) rfl
    [.add (fun _ => some (1 : Int)), .getFutureResult 0,
      .addOneArg (fun v => some (v + 1)) (.futureValue ⟨0⟩)]
    (by simp [Op.isAdd, Op.isGetFutureResult])

/-- C9: in every state reached from a fresh scheduler by calls of the public
interface, `hasTask(id)` is true exactly when `id` was returned by an `add`
since the last `clear` (or since construction) and was not removed since;
`hasTask` returns a boolean, leaves the scheduler unchanged and invokes
nothing; and the identifier returned by an `add` satisfies `hasTask` right
after the call. -/
theorem hasTask_iff_issued_and_not_removed (ord : ArgOrder) (fuel : Nat) (ops : List (Op α))
    (id : Nat) (op : Op α) (hadd : op.isAdd = true) :
    hasTask (runOps ord fuel ops Run.start).sched id
      = live (runOps ord fuel ops Run.start).events id ∧
    runOp ord fuel (runOps ord fuel ops Run.start).sched (.hasTask id)
      = (.bool (hasTask (runOps ord fuel ops Run.start).sched id),
          (runOps ord fuel ops Run.start).sched, []) ∧
    ∃ n, (runOp ord fuel (runOps ord fuel ops Run.start).sched op).1 = .identifier n ∧
      hasTask (runOp ord fuel (runOps ord fuel ops Run.start).sched op).2.1 n = true := by
  have ht := tracked_runOps ord fuel ops (α := α)
  refine ⟨ht.2 id, rfl, ?_⟩
  obtain ⟨k, hk⟩ := runOp_add_eq ord fuel (runOps ord fuel ops Run.start).sched op hadd
  refine ⟨_, by rw [hk], ?_⟩
  rw [hk]
  simp only
  rw [hasTask_push, ht.1]
  simp

/-- Witness for C9: after registering two tasks and removing the first, the
first identifier is gone, and a further `add` yields a present identifier. -/
theorem hasTask_iff_issued_and_not_removed_witness :
    hasTask (runOps .leftToRight 3
        [.add (fun _ => some (42 : Int)), .addOneArg (fun x => some (x * 2)) (.value 21),
          .removeTask 0] Run.start).sched 0
      = live (runOps .leftToRight 3
        [.add (fun _ => some (42 : Int)), .addOneArg (fun x => some (x * 2)) (.value 21),
          .removeTask 0] Run.start).events 0 ∧
    runOp .leftToRight 3 (runOps .leftToRight 3
        [.add (fun _ => some (42 : Int)), .addOneArg (fun x => some (x * 2)) (.value 21),
          .removeTask 0] Run.start).sched (.hasTask 0)
      = (.bool (hasTask (runOps .leftToRight 3
        [.add (fun _ => some (42 : Int)), .addOneArg (fun x => some (x * 2)) (.value 21),
          .removeTask 0] Run.start).sched 0),
          (runOps .leftToRight 3
        [.add (fun _ => some (42 : Int)), .addOneArg (fun x => some (x * 2)) (.value 21),
          .removeTask 0] Run.start).sched, []) ∧
    ∃ n, (runOp .leftToRight 3 (runOps .leftToRight 3
        [.add (fun _ => some (42 : Int)), .addOneArg (fun x => some (x * 2)) (.value 21),
          .removeTask 0] Run.start).sched (.add (fun _ => some 7))).1 = .identifier n ∧
      hasTask (runOp .leftToRight 3 (runOps .leftToRight 3
        [.add (fun _ => some (42 : Int)), .addOneArg (fun x => some (x * 2)) (.value 21),
          .removeTask 0] Run.start).sched (.add (fun _ => some 7))).2.1 n = true :=
  hasTask_iff_issued_and_not_removed .leftToRight 3
    [.add (fun _ => some (42 : Int)), .addOneArg (fun x => some (x * 2)) (.value 21),
      .removeTask 0] 0 (.add (fun _ => some 7)) rfl

theorem counted_step (ord : ArgOrder) (fuel : Nat) (r : Run α) (op : Op α)
    (hop : op.isClear = false) (h : Counted r) : Counted (r.step ord fuel op) := by
  unfold Counted at h ⊢
  by_cases hadd : op.isAdd = true
  · obtain ⟨k, hk⟩ := runOp_add_eq ord fuel r.sched op hadd
    simp only [Run.step, hk, addReturns_append, h, addReturns, hadd, if_true]
    rw [List.range_succ]
  · cases op with
    | add f => simp [Op.isAdd] at hadd
    | addOneArg f a => simp [Op.isAdd] at hadd
    | addTwoArgs f a b => simp [Op.isAdd] at hadd
    | addMethod m o a => simp [Op.isAdd] at hadd
    | addMethodOnFuture m o a => simp [Op.isAdd] at hadd
    | getFutureResult id =>
      simp only [Run.step, runOp, addReturns_append, h, addReturns, List.append_nil]
    | getResult id =>
      have hc := ofGetResult_cases (getResult ord fuel r.sched id)
      have he := getResult_ext ord fuel r.sched id
      simp only [Run.step, runOp, addReturns_append, h, hc.1, he.next]
      rcases hc.2.2 with ⟨v, hv⟩ | ⟨e, hv⟩ <;> rw [hv] <;> simp [addReturns]
    | executeAll =>
      have hc := ofExecuteAll_cases (α := α) (executeAll ord fuel r.sched)
      have he := executeAll_ext ord fuel r.sched
      simp only [Run.step, runOp, addReturns_append, h, hc.1, he.next]
      rcases hc.2.2 with hv | ⟨e, hv⟩ <;> rw [hv] <;> simp [addReturns]
    | removeTask id =>
      rcases runOp_removeTask ord fuel r.sched id with ⟨_, h'⟩ | ⟨_, h'⟩ <;>
        simp [Run.step, h', addReturns_append, h, addReturns]
    | hasTask id =>
      simp only [Run.step, runOp, addReturns_append, h, addReturns, List.append_nil]
    | clear => simp [Op.isClear] at hop

/-- C10: from a freshly constructed scheduler, along every run without
`clear`, the `add` calls return `0, 1, 2, ...` in this order (the k-th `add`
returns `k - 1`), whatever other calls, removals included, come in between;
in particular no identifier is returned twice. -/
theorem add_returns_consecutive (ord : ArgOrder) (fuel : Nat) (ops : List (Op α))
    (hops : ∀ op ∈ ops, op.isClear = false) :
    addReturns (runOps ord fuel ops Run.start).events
      = List.range (addReturns (runOps ord fuel ops Run.start).events).length ∧
    (addReturns (runOps ord fuel ops Run.start).events).Nodup := by
  have h : Counted (runOps ord fuel ops (Run.start : Run α)) :=
    runOps_invariant ord fuel (fun o => o.isClear = false) Counted
      (fun r o ho h => counted_step ord fuel r o ho h) ops _ hops rfl
  unfold Counted at h
  constructor
  · rw [h, List.length_range]
  · rw [h]
    exact List.nodup_range _

/-- Witness for C10: two registrations, a removal of identifier 0, a demand
and a third registration; the identifiers returned are 0, 1, 2. -/
theorem add_returns_consecutive_witness :
    (∀ op ∈ ([.add (fun _ => some (42 : Int)), .addOneArg (fun x => some (x * 2)) (.value 21),
        .removeTask 0, .getResult 1, .add (fun _ => some 7)] : List (Op Int)),
      op.isClear = false) ∧
    addReturns (runOps .leftToRight 3
        [.add (fun _ => some (42 : Int)), .addOneArg (fun x => some (x * 2)) (.value 21),
          .removeTask 0, .getResult 1, .add (fun _ => some 7)] Run.start).events
      = List.range (addReturns (runOps .leftToRight 3
        [.add (fun _ => some (42 : Int)), .addOneArg (fun x => some (x * 2)) (.value 21),
          .removeTask 0, .getResult 1, .add (fun _ => some 7)] Run.start).events).length ∧
    (addReturns (runOps .leftToRight 3
        [.add (fun _ => some (42 : Int)), .addOneArg (fun x => some (x * 2)) (.value 21),
          .removeTask 0, .getResult 1, .add (fun _ => some 7)] Run.start).events).Nodup :=
  ⟨by simp [Op.isClear],
    add_returns_consecutive .leftToRight 3
      [.add (fun _ => some (42 : Int)), .addOneArg (fun x => some (x * 2)) (.value 21),
        .removeTask 0, .getResult 1, .add (fun _ => some 7)] (by simp [Op.isClear])⟩

end RunClaims

/-! ## Memoisation: a result, once obtained, is served from the cache -/

section Memo

variable {α : Type}

theorem finish_ok (t : BaseTask α) (s : TTaskScheduler α) (id : Nat) (out : Option α) (u : Unit)
    (h : (t.finish s id out).outcome = .ok u) :
    ∃ r, out = some r ∧
      t.finish s id out =
        ⟨.ok (), { s with taskList := s.taskList.set id (some ⟨t.kind, true, some r⟩) },
          [⟨id, true⟩]⟩ := by
  cases out with
  | none => simp [BaseTask.finish] at h
  | some r => exact ⟨r, rfl, rfl⟩

theorem execute_ok_slot (getRes : TTaskScheduler α → Nat → Step α α)
    (hg : ∀ s j, Ext s (getRes s j).sched) (ord : ArgOrder) (t : BaseTask α)
    (s : TTaskScheduler α) (id : Nat) (ht : s.slot id = some (some t))
    (hp : t.isExecuted = false) (u : Unit)
    (h : (t.execute getRes ord s id).outcome = .ok u) :
    ∃ r, (t.execute getRes ord s id).sched.slot id = some (some ⟨t.kind, true, some r⟩) := by
  rw [execute_eq] at h ⊢
  simp only [hp, Bool.false_eq_true, if_false] at h ⊢
  have h1 := resolveAll_ext getRes hg (t.kind.args ord) s
  rcases andThen_sched (resolveAll getRes s (t.kind.args ord))
    (fun vs s2 => t.finish s2 id (t.kind.call ord vs)) with ⟨e, _, h'⟩ | ⟨vs, _, h'⟩
  · rw [h'] at h
    cases h
  · rw [h'] at h ⊢
    simp only at h
    obtain ⟨r, _, hf⟩ := finish_ok t _ id _ u h
    refine ⟨r, ?_⟩
    simp only [hf]
    apply slot_set_self
    rw [h1.len]
    exact slot_lt ht

theorem getResult_succ_of_task (ord : ArgOrder) (n : Nat) (s : TTaskScheduler α) (id : Nat)
    (t : BaseTask α) (ht : s.slot id = some (some t)) :
    getResult ord (n + 1) s id =
      (if (!t.isExecuted) = true then t.execute (getResult ord n) ord s id
        else ⟨.ok (), s, []⟩).andThen fun _ s1 => readResult s1 id := by
  have hlt : ¬ id ≥ s.taskList.length := Nat.not_le.mpr (slot_lt ht)
  simp only [getResult, hlt, if_false, ht]

theorem getResult_succ_of_null (ord : ArgOrder) (n : Nat) (s : TTaskScheduler α) (id : Nat)
    (ht : s.slot id = some none) :
    getResult ord (n + 1) s id = ⟨.error .nullDereference, s, []⟩ := by
  have hlt : ¬ id ≥ s.taskList.length := Nat.not_le.mpr (slot_lt ht)
  simp only [getResult, hlt, if_false, ht]

theorem getResult_succ_of_range (ord : ArgOrder) (n : Nat) (s : TTaskScheduler α) (id : Nat)
    (ht : s.slot id = none) :
    getResult ord (n + 1) s id = ⟨.error .outOfRange, s, []⟩ := by
  have hlt : id ≥ s.taskList.length := slot_none_iff.mp ht
  simp only [getResult, hlt, if_true]

theorem readResult_ok (s1 : TTaskScheduler α) (id : Nat) (v : α)
    (hr : (readResult s1 id).outcome = .ok v) :
    ∃ t1, s1.slot id = some (some t1) ∧ t1.result = some v := by
  unfold readResult at hr
  split at hr
  · rename_i t1 ht1
    split at hr
    · rename_i w hw
      cases hr
      exact ⟨t1, ht1, hw⟩
    · cases hr
  · cases hr

theorem getResult_ok_cached (ord : ArgOrder) (fuel : Nat) (s : TTaskScheduler α) (id : Nat)
    (v : α) (h : (getResult ord fuel s id).outcome = .ok v) :
    ∃ t, (getResult ord fuel s id).sched.slot id = some (some t) ∧ t.isExecuted = true ∧
      t.result = some v := by
  cases fuel with
  | zero => simp [getResult] at h
  | succ n =>
    rcases hs : s.slot id with _ | _ | t
    · rw [getResult_succ_of_range ord n s id hs] at h
      cases h
    · rw [getResult_succ_of_null ord n s id hs] at h
      cases h
    · rw [getResult_succ_of_task ord n s id t hs] at h ⊢
      rcases andThen_sched (if (!t.isExecuted) = true then
          t.execute (getResult ord n) ord s id else ⟨.ok (), s, []⟩)
        (fun _ s1 => readResult s1 id) with ⟨e, _, h'⟩ | ⟨u, hu, h'⟩
      · rw [h'] at h
        cases h
      · rw [h'] at h ⊢
        simp only [(readResult_sched _ id).1] at h ⊢
        obtain ⟨t1, ht1, hv⟩ := readResult_ok _ id v h
        refine ⟨t1, ht1, ?_, hv⟩
        cases hx : t.isExecuted with
        | true =>
          simp only [hx, Bool.not_true, Bool.false_eq_true, if_false] at ht1
          rw [hs] at ht1
          cases ht1
          exact hx
        | false =>
          simp only [hx, Bool.not_false, if_true] at ht1 hu
          obtain ⟨r, hr⟩ := execute_ok_slot _ (getResult_ext ord n) ord t s id hs hx u hu
          rw [hr] at ht1
          cases ht1
          rfl

theorem getResult_of_cached (ord : ArgOrder) (fuel : Nat) (s : TTaskScheduler α) (id : Nat)
    (t : BaseTask α) (v : α) (ht : s.slot id = some (some t)) (hx : t.isExecuted = true)
    (hv : t.result = some v) :
    getResult ord (fuel + 1) s id = ⟨.ok v, s, []⟩ := by
  have hlt : ¬ id ≥ s.taskList.length := Nat.not_le.mpr (slot_lt ht)
  simp [getResult, hlt, ht, hx, Step.andThen, readResult, hv]

/-- C5: when `getResult(id)` has returned a value, a `getResult(id)` issued
right afterwards returns the same value, invokes no callable and leaves the
scheduler exactly as it was. -/
theorem getResult_twice (ord : ArgOrder) (fuel : Nat) (s : TTaskScheduler α) (id : Nat) (v : α)
    (h : (getResult ord fuel s id).outcome = .ok v) (fuel2 : Nat) (hfuel : 0 < fuel2) :
    getResult ord fuel2 (getResult ord fuel s id).sched id
      = ⟨.ok v, (getResult ord fuel s id).sched, []⟩ := by
  obtain ⟨t, ht, hx, hv⟩ := getResult_ok_cached ord fuel s id v h
  obtain ⟨n, rfl⟩ : ∃ n, fuel2 = n + 1 := ⟨fuel2 - 1, by omega⟩
  exact getResult_of_cached ord n _ id t v ht hx hv

/-- Witness for C5 on the diamond's sink. -/
theorem getResult_twice_witness :
    (getResult .leftToRight 3 diamond 3).outcome = .ok 6 ∧
    getResult .leftToRight 3 (getResult .leftToRight 3 diamond 3).sched 3
      = ⟨.ok 6, (getResult .leftToRight 3 diamond 3).sched, []⟩ :=
  ⟨by rfl, getResult_twice .leftToRight 3 diamond 3 6 (by rfl) 3 (by decide)⟩

/-- C3 (the code at the failing input): after `removeTask(0)` on the diamond,
`getResult(0)` and `getResult(1)` (task 1 takes a future reference to task 0)
do not throw `std::out_of_range`: both dereference the reset pointer. -/
theorem getResult_removed_dereferences_null (ord : ArgOrder) (fuel : Nat) :
    (getResult ord (fuel + 1) (removeTask diamond 0).2 0).outcome = .error .nullDereference ∧
    (getResult ord (fuel + 2) (removeTask diamond 0).2 1).outcome = .error .nullDereference ∧
    hasTask (removeTask diamond 0).2 0 = false ∧
    (removeTask (removeTask diamond 0).2 0).1 = .error .outOfRange := by
  refine ⟨by rfl, by rfl, by rfl, by rfl⟩

end Memo

/-! ## A task being executed is not executed again underneath itself -/

section Stack

variable {α : Type}

theorem Ext.executed_of {s1 s2 : TTaskScheduler α} (h : Ext s1 s2) {i : Nat}
    (hx : Executed s1 i) : Executed s2 i := by
  obtain ⟨t, ht, hx⟩ := hx
  exact ⟨t, h.executed ht hx, hx⟩

theorem Ext.settled {s1 s2 : TTaskScheduler α} (h : Ext s1 s2) {a : DeferredArgument α}
    (ha : Settled s1 a) : Settled s2 a := by
  cases a with
  | value v => trivial
  | futureValue f => exact h.executed_of ha

theorem waitsOn_of_ext {ord : ArgOrder} {s1 s2 : TTaskScheduler α} {b j : Nat} (h : Ext s1 s2)
    (hb : s2.slot b = s1.slot b) (hw : WaitsOn ord s1 b j) : WaitsOn ord s2 b j := by
  obtain ⟨t, pre, post, ht, hp, hargs, hset⟩ := hw
  exact ⟨t, pre, post, hb.trans ht, hp, hargs, fun a ha => h.settled (hset a ha)⟩

theorem blocked_of_ext {ord : ArgOrder} {s1 s2 : TTaskScheduler α} {B : Nat → Prop} {x : Nat}
    (h : Ext s1 s2) (hb : ∀ b, B b → s2.slot b = s1.slot b) (hB : Blocked ord s1 B x) :
    Blocked ord s2 B x := by
  intro b hbB
  obtain ⟨j, hw, hj⟩ := hB b hbB
  exact ⟨j, waitsOn_of_ext h (hb b hbB) hw, hj⟩

theorem getResult_of_executed (ord : ArgOrder) (n : Nat) (s : TTaskScheduler α) (j : Nat)
    (h : Executed s j) :
    (getResult ord n s j).sched = s ∧ (getResult ord n s j).calls = [] := by
  obtain ⟨t, ht, hx⟩ := h
  cases n with
  | zero => exact ⟨rfl, rfl⟩
  | succ m =>
    rw [getResult_succ_of_task ord m s j t ht]
    simp only [hx, Bool.not_true, Bool.false_eq_true, if_false, Step.andThen]
    exact ⟨(readResult_sched s j).1, by simp [(readResult_sched s j).2]⟩

theorem resolve_of_settled (ord : ArgOrder) (n : Nat) (s : TTaskScheduler α)
    (a : DeferredArgument α) (h : Settled s a) :
    (a.resolve (getResult ord n) s).sched = s ∧ (a.resolve (getResult ord n) s).calls = [] := by
  cases a with
  | value v => exact ⟨rfl, rfl⟩
  | futureValue f => exact getResult_of_executed ord n s f.taskId h

/-- Resolution that reaches, after settled arguments only, a reference whose
`getResult` fails without effect, fails without effect. -/
theorem resolveAll_stuck (ord : ArgOrder) (n : Nat) (s : TTaskScheduler α) (j : Nat)
    (post : List (DeferredArgument α))
    (hj : (getResult ord n s j).sched = s ∧ (getResult ord n s j).calls = [] ∧
      ∀ v, (getResult ord n s j).outcome ≠ .ok v) :
    ∀ pre : List (DeferredArgument α), (∀ a ∈ pre, Settled s a) →
      ∃ e, resolveAll (getResult ord n) s (pre ++ .futureValue ⟨j⟩ :: post) = ⟨.error e, s, []⟩ := by
  intro pre
  induction pre with
  | nil =>
    intro _
    simp only [List.nil_append, resolveAll, DeferredArgument.resolve]
    rcases andThen_sched (getResult ord n s j)
      (fun v s1 => (resolveAll (getResult ord n) s1 post).andThen
        fun vs s2 => (⟨.ok (v :: vs), s2, []⟩ : Step α (List α))) with ⟨e, _, h⟩ | ⟨v, hv, _⟩
    · exact ⟨e, by rw [h, hj.1, hj.2.1]⟩
    · exact absurd hv (hj.2.2 v)
  | cons a rest ih =>
    intro hset
    obtain ⟨e, he⟩ := ih (fun b hb => hset b (List.mem_cons_of_mem _ hb))
    have ha := resolve_of_settled ord n s a (hset a (List.mem_cons_self _ _))
    simp only [List.cons_append, resolveAll, List.append_eq]
    rcases andThen_sched (a.resolve (getResult ord n) s)
      (fun v s1 => (resolveAll (getResult ord n) s1 (rest ++ .futureValue ⟨j⟩ :: post)).andThen
        fun vs s2 => (⟨.ok (v :: vs), s2, []⟩ : Step α (List α))) with ⟨e1, _, h⟩ | ⟨v, _, h⟩
    · exact ⟨e1, by rw [h, ha.1, ha.2]⟩
    · refine ⟨e, ?_⟩
      rw [h, ha.1, ha.2, he]
      simp [Step.andThen]

/-- The shape of `getResult` on a pending task. -/
theorem getResult_succ_of_pending (ord : ArgOrder) (n : Nat) (s : TTaskScheduler α) (id : Nat)
    (t : BaseTask α) (ht : s.slot id = some (some t)) (hp : t.isExecuted = false) :
    getResult ord (n + 1) s id =
      ((resolveAll (getResult ord n) s (t.kind.args ord)).andThen fun vs s2 =>
        t.finish s2 id (t.kind.call ord vs)).andThen fun _ s1 => readResult s1 id := by
  rw [getResult_succ_of_task ord n s id t ht, execute_eq]
  simp [hp]

end Stack

section Stack2

variable {α : Type}

/-- The three ways in which `getResult` on a pending task ends, in terms of the
resolution of its arguments. -/
theorem getResult_pending_cases (ord : ArgOrder) (n : Nat) (s : TTaskScheduler α) (id : Nat)
    (t : BaseTask α) (ht : s.slot id = some (some t)) (hp : t.isExecuted = false) :
    (∃ e, (resolveAll (getResult ord n) s (t.kind.args ord)).outcome = .error e ∧
      getResult ord (n + 1) s id =
        ⟨.error e, (resolveAll (getResult ord n) s (t.kind.args ord)).sched,
          (resolveAll (getResult ord n) s (t.kind.args ord)).calls⟩) ∨
    (∃ vs, (resolveAll (getResult ord n) s (t.kind.args ord)).outcome = .ok vs ∧
      t.kind.call ord vs = none ∧
      getResult ord (n + 1) s id =
        ⟨.error .callableThrew, (resolveAll (getResult ord n) s (t.kind.args ord)).sched,
          (resolveAll (getResult ord n) s (t.kind.args ord)).calls ++ [⟨id, false⟩]⟩) ∨
    (∃ vs r, (resolveAll (getResult ord n) s (t.kind.args ord)).outcome = .ok vs ∧
      t.kind.call ord vs = some r ∧
      getResult ord (n + 1) s id =
        ⟨.ok r,
          { (resolveAll (getResult ord n) s (t.kind.args ord)).sched with
            taskList := (resolveAll (getResult ord n) s (t.kind.args ord)).sched.taskList.set id
              (some ⟨t.kind, true, some r⟩) },
          (resolveAll (getResult ord n) s (t.kind.args ord)).calls ++ [⟨id, true⟩]⟩) := by
  rw [getResult_succ_of_pending ord n s id t ht hp]
  have hext := resolveAll_ext (getResult ord n) (getResult_ext ord n) (t.kind.args ord) s
  cases ho : (resolveAll (getResult ord n) s (t.kind.args ord)).outcome with
  | error e =>
    left
    refine ⟨e, rfl, ?_⟩
    simp [Step.andThen, ho]
  | ok vs =>
    right
    cases hc : t.kind.call ord vs with
    | none =>
      left
      refine ⟨vs, rfl, hc, ?_⟩
      simp [Step.andThen, ho, hc, BaseTask.finish]
    | some r =>
      right
      refine ⟨vs, r, rfl, hc, ?_⟩
      have hlt : id < (resolveAll (getResult ord n) s (t.kind.args ord)).sched.taskList.length := by
        rw [hext.len]
        exact slot_lt ht
      have hread := slot_set_self (s := (resolveAll (getResult ord n) s (t.kind.args ord)).sched)
        (some ⟨t.kind, true, some r⟩) hlt
      simp [Step.andThen, ho, hc, BaseTask.finish, readResult, hread]

theorem andThen_pure {β γ : Type} (r : Step α β) (f : β → γ) :
    (r.andThen fun v s2 => (⟨.ok (f v), s2, []⟩ : Step α γ)).sched = r.sched ∧
    (r.andThen fun v s2 => (⟨.ok (f v), s2, []⟩ : Step α γ)).calls = r.calls := by
  cases h : r.outcome <;> simp [Step.andThen, h]

/-- While the arguments of a pending task `x` with callers `B` are resolved,
neither `x` nor any caller is touched or invoked. -/
theorem resolveAll_blocked (ord : ArgOrder) (n : Nat)
    (ih : ∀ (s : TTaskScheduler α) (B : Nat → Prop) (x : Nat), Blocked ord s B x →
      ∀ b, B b → (getResult ord n s x).sched.slot b = s.slot b ∧
        ∀ e ∈ (getResult ord n s x).calls, e.task ≠ b)
    (B : Nat → Prop) (x : Nat) (t : BaseTask α) (hp : t.isExecuted = false) :
    ∀ (post pre : List (DeferredArgument α)) (s : TTaskScheduler α),
      t.kind.args ord = pre ++ post → s.slot x = some (some t) →
      (∀ a ∈ pre, Settled s a) → Blocked ord s B x →
      ∀ b, B b ∨ b = x →
        (resolveAll (getResult ord n) s post).sched.slot b = s.slot b ∧
        ∀ e ∈ (resolveAll (getResult ord n) s post).calls, e.task ≠ b := by
  intro post
  induction post with
  | nil =>
    intro pre s _ _ _ _ b _
    exact ⟨rfl, fun e he => by simp [resolveAll] at he⟩
  | cons a rest ihp =>
    intro pre s hargs hs hset hB
    have hext1 : Ext s (a.resolve (getResult ord n) s).sched :=
      resolve_ext _ (getResult_ext ord n) s a
    have key : (∀ b, B b ∨ b = x →
          (a.resolve (getResult ord n) s).sched.slot b = s.slot b ∧
          ∀ e ∈ (a.resolve (getResult ord n) s).calls, e.task ≠ b) ∧
        (∀ v, (a.resolve (getResult ord n) s).outcome = .ok v →
          Settled (a.resolve (getResult ord n) s).sched a) := by
      cases a with
      | value v =>
        exact ⟨fun b _ => ⟨rfl, fun e he => by simp [DeferredArgument.resolve] at he⟩,
          fun _ _ => trivial⟩
      | futureValue f =>
        constructor
        · apply ih s (fun b => B b ∨ b = x) f.taskId
          intro b hb
          rcases hb with hb | hb
          · obtain ⟨j, hw, hj⟩ := hB b hb
            exact ⟨j, hw, Or.inl hj⟩
          · subst hb
            exact ⟨f.taskId, ⟨t, pre, rest, hs, hp, hargs, hset⟩, Or.inr rfl⟩
        · intro v hv
          obtain ⟨t1, ht1, hx1, _⟩ := getResult_ok_cached ord n s f.taskId v hv
          exact ⟨t1, ht1, hx1⟩
    intro b hb
    simp only [resolveAll]
    rcases andThen_sched (a.resolve (getResult ord n) s)
      (fun v s1 => (resolveAll (getResult ord n) s1 rest).andThen
        fun vs s2 => (⟨.ok (v :: vs), s2, []⟩ : Step α (List α))) with ⟨e, _, h⟩ | ⟨v, hv, h⟩
    · rw [h]
      exact key.1 b hb
    · rw [h]
      simp only [(andThen_pure _ _).1, (andThen_pure _ _).2]
      have hrec := ihp (pre ++ [a]) (a.resolve (getResult ord n) s).sched
        (by rw [hargs]; simp)
        ((key.1 x (Or.inr rfl)).1.trans hs)
        (by
          intro c hc
          rcases List.mem_append.mp hc with hc | hc
          · exact hext1.settled (hset c hc)
          · rw [List.mem_singleton.mp hc]
            exact key.2 v hv)
        (blocked_of_ext hext1 (fun b hb => (key.1 b (Or.inl hb)).1) hB)
        b hb
      refine ⟨hrec.1.trans (key.1 b hb).1, fun e he => ?_⟩
      rcases List.mem_append.mp he with he | he
      · exact (key.1 b hb).2 e he
      · exact hrec.2 e he

/-- A `getResult(x)` issued while the tasks of `B` are on the call stack
neither touches nor invokes a task of `B`; and when `x` itself is on the stack
the call fails without any effect (in the C++ program it does not return). -/
theorem getResult_blocked (ord : ArgOrder) (n : Nat) :
    ∀ (s : TTaskScheduler α) (B : Nat → Prop) (x : Nat), Blocked ord s B x →
      (∀ b, B b → (getResult ord n s x).sched.slot b = s.slot b ∧
        ∀ e ∈ (getResult ord n s x).calls, e.task ≠ b) ∧
      (B x → (getResult ord n s x).sched = s ∧ (getResult ord n s x).calls = [] ∧
        ∀ v, (getResult ord n s x).outcome ≠ .ok v) := by
  induction n with
  | zero =>
    intro s B x _
    refine ⟨fun b _ => ⟨rfl, fun e he => by simp [getResult] at he⟩, fun _ => ⟨rfl, rfl, ?_⟩⟩
    intro v hv
    simp [getResult] at hv
  | succ n ih =>
    intro s B x hB
    rcases hs : s.slot x with _ | _ | t
    · rw [getResult_succ_of_range ord n s x hs]
      exact ⟨fun b _ => ⟨rfl, fun e he => by simp at he⟩,
        fun _ => ⟨rfl, rfl, fun v hv => by simp at hv⟩⟩
    · rw [getResult_succ_of_null ord n s x hs]
      exact ⟨fun b _ => ⟨rfl, fun e he => by simp at he⟩,
        fun _ => ⟨rfl, rfl, fun v hv => by simp at hv⟩⟩
    · cases hx : t.isExecuted with
      | true =>
        have h := getResult_of_executed ord (n + 1) s x ⟨t, hs, hx⟩
        refine ⟨fun b _ => ⟨by rw [h.1], fun e he => by rw [h.2] at he; simp at he⟩, ?_⟩
        intro hBx
        obtain ⟨j, ⟨t1, _, _, ht1, hp1, _, _⟩, _⟩ := hB x hBx
        rw [hs] at ht1
        cases ht1
        rw [hx] at hp1
        cases hp1
      | false =>
        by_cases hBx : B x
        · obtain ⟨j, ⟨t1, pre, post, ht1, hp1, hargs, hset⟩, hj⟩ := hB x hBx
          rw [hs] at ht1
          cases ht1
          have hBj : B j := by
            rcases hj with hj | hj
            · exact hj
            · rw [hj]; exact hBx
          have hBlj : Blocked ord s B j := by
            intro b hb
            obtain ⟨j1, hw, hj1⟩ := hB b hb
            refine ⟨j1, hw, Or.inl ?_⟩
            rcases hj1 with hj1 | hj1
            · exact hj1
            · rw [hj1]; exact hBx
          obtain ⟨e, he⟩ := resolveAll_stuck ord n s j post ((ih s B j hBlj).2 hBj) pre hset
          have hres : getResult ord (n + 1) s x = ⟨.error e, s, []⟩ := by
            rw [getResult_succ_of_pending ord n s x t hs hx, hargs, he]
            rfl
          rw [hres]
          exact ⟨fun b _ => ⟨rfl, fun e he => by simp at he⟩,
            fun _ => ⟨rfl, rfl, fun v hv => by simp at hv⟩⟩
        · refine ⟨?_, fun h => absurd h hBx⟩
          have hra := resolveAll_blocked ord n (fun s B x h => (ih s B x h).1) B x t hx
            (t.kind.args ord) [] s rfl hs (fun a ha => by simp at ha) hB
          intro b hb
          have hbx : b ≠ x := fun h => hBx (h ▸ hb)
          rcases getResult_pending_cases ord n s x t hs hx with
            ⟨e, _, h⟩ | ⟨vs, _, _, h⟩ | ⟨vs, r, _, _, h⟩
          · rw [h]
            exact hra b (Or.inl hb)
          · rw [h]
            refine ⟨(hra b (Or.inl hb)).1, fun e he => ?_⟩
            rcases List.mem_append.mp he with he | he
            · exact (hra b (Or.inl hb)).2 e he
            · rw [List.mem_singleton.mp he]
              exact fun h => hbx h.symm
          · rw [h]
            refine ⟨?_, fun e he => ?_⟩
            · simp only
              rw [slot_set_ne _ hbx]
              exact (hra b (Or.inl hb)).1
            · rcases List.mem_append.mp he with he | he
              · exact (hra b (Or.inl hb)).2 e he
              · rw [List.mem_singleton.mp he]
                exact fun h => hbx h.symm

/-- Resolving the arguments of a pending task leaves the task itself untouched
and does not invoke its callable. -/
theorem resolveAll_self (ord : ArgOrder) (n : Nat) (s : TTaskScheduler α) (x : Nat)
    (t : BaseTask α) (ht : s.slot x = some (some t)) (hp : t.isExecuted = false) :
    (resolveAll (getResult ord n) s (t.kind.args ord)).sched.slot x = some (some t) ∧
    ∀ e ∈ (resolveAll (getResult ord n) s (t.kind.args ord)).calls, e.task ≠ x := by
  have h := resolveAll_blocked ord n (fun s B x h => (getResult_blocked ord n s B x h).1)
    (fun _ => False) x t hp (t.kind.args ord) [] s rfl ht (fun a ha => by simp at ha)
    (fun b hb => absurd hb id) x (Or.inr rfl)
  exact ⟨h.1.trans ht, h.2⟩

end Stack2

/-! ## The invocation log of one call -/

section Log

variable {α : Type}

theorem Ext.pending_of {s1 s2 : TTaskScheduler α} (h : Ext s1 s2) {i : Nat}
    (hp : Pending s2 i) : Pending s1 i := by
  obtain ⟨t, ht, hp⟩ := hp
  rcases h.slots i with h1 | ⟨t1, r, _, _, h2⟩
  · exact ⟨t, h1.symm.trans ht, hp⟩
  · rw [h2] at ht
    cases ht
    cases hp

theorem not_pending_of_executed {s : TTaskScheduler α} {i : Nat} (hx : Executed s i)
    (hp : Pending s i) : False := by
  obtain ⟨t, ht, hx⟩ := hx
  obtain ⟨t1, ht1, hp⟩ := hp
  rw [ht] at ht1
  cases ht1
  rw [hx] at hp
  cases hp

theorem LogOK.nil (s s2 : TTaskScheduler α) : LogOK s s2 [] :=
  ⟨fun e he => by simp at he, fun e he => by simp at he, List.Pairwise.nil⟩

theorem LogOK.append {s s1 s2 : TTaskScheduler α} {c1 c2 : List Call}
    (h01 : Ext s s1) (h12 : Ext s1 s2) (h1 : LogOK s s1 c1) (h2 : LogOK s1 s2 c2) :
    LogOK s s2 (c1 ++ c2) := by
  refine ⟨fun e he => ?_, fun e he hr => ?_, ?_⟩
  · rcases List.mem_append.mp he with he | he
    · exact h1.pending e he
    · exact h01.pending_of (h2.pending e he)
  · rcases List.mem_append.mp he with he | he
    · exact h12.executed_of (h1.executed e he hr)
    · exact h2.executed e he hr
  · rw [List.pairwise_append]
    refine ⟨h1.norerun, h2.norerun, fun e he e2 he2 hr heq => ?_⟩
    have hx := h1.executed e he hr
    have hp := h2.pending e2 he2
    rw [heq] at hp
    exact not_pending_of_executed hx hp

theorem resolveAll_log (getRes : TTaskScheduler α → Nat → Step α α)
    (hg : ∀ s j, Ext s (getRes s j).sched)
    (hl : ∀ s j, LogOK s (getRes s j).sched (getRes s j).calls)
    (as : List (DeferredArgument α)) :
    ∀ s, LogOK s (resolveAll getRes s as).sched (resolveAll getRes s as).calls := by
  induction as with
  | nil => intro s; exact LogOK.nil s _
  | cons a rest ih =>
    intro s
    have h1 : LogOK s (a.resolve getRes s).sched (a.resolve getRes s).calls := by
      cases a with
      | value v => exact LogOK.nil s _
      | futureValue f => exact hl s f.taskId
    have hext1 := resolve_ext getRes hg s a
    simp only [resolveAll]
    rcases andThen_sched (a.resolve getRes s)
      (fun v s1 => (resolveAll getRes s1 rest).andThen
        fun vs s2 => (⟨.ok (v :: vs), s2, []⟩ : Step α (List α))) with ⟨e, _, h⟩ | ⟨v, _, h⟩
    · rw [h]; exact h1
    · rw [h]
      simp only [(andThen_pure _ _).1, (andThen_pure _ _).2]
      exact LogOK.append hext1 (resolveAll_ext getRes hg rest _) h1 (ih _)

theorem getResult_log (ord : ArgOrder) (n : Nat) :
    ∀ (s : TTaskScheduler α) (x : Nat),
      LogOK s (getResult ord n s x).sched (getResult ord n s x).calls := by
  induction n with
  | zero => intro s x; exact LogOK.nil s _
  | succ n ih =>
    intro s x
    rcases hs : s.slot x with _ | _ | t
    · rw [getResult_succ_of_range ord n s x hs]; exact LogOK.nil s _
    · rw [getResult_succ_of_null ord n s x hs]; exact LogOK.nil s _
    · cases hx : t.isExecuted with
      | true =>
        have h := getResult_of_executed ord (n + 1) s x ⟨t, hs, hx⟩
        rw [h.2]
        exact LogOK.nil s _
      | false =>
        have hra := resolveAll_log (getResult ord n) (getResult_ext ord n) ih (t.kind.args ord) s
        have hext := resolveAll_ext (getResult ord n) (getResult_ext ord n) (t.kind.args ord) s
        have hself := resolveAll_self ord n s x t hs hx
        rcases getResult_pending_cases ord n s x t hs hx with
          ⟨e, _, h⟩ | ⟨vs, _, _, h⟩ | ⟨vs, r, _, _, h⟩
        · rw [h]; exact hra
        · rw [h]
          refine LogOK.append hext (Ext.refl _) hra ⟨fun e he => ?_, fun e he hr => ?_, ?_⟩
          · rw [List.mem_singleton.mp he]
            exact ⟨t, hself.1, hx⟩
          · rw [List.mem_singleton.mp he] at hr
            cases hr
          · exact List.pairwise_singleton _ _
        · rw [h]
          have hlt : x < (resolveAll (getResult ord n) s (t.kind.args ord)).sched.taskList.length :=
            slot_lt hself.1
          have hfin : Ext (resolveAll (getResult ord n) s (t.kind.args ord)).sched
              { (resolveAll (getResult ord n) s (t.kind.args ord)).sched with
                taskList := (resolveAll (getResult ord n) s (t.kind.args ord)).sched.taskList.set x
                  (some ⟨t.kind, true, some r⟩) } :=
            finish_ext t _ _ x (some r) (Ext.refl _) hself.1 hx
          refine LogOK.append hext hfin hra ⟨fun e he => ?_, fun e he _ => ?_, ?_⟩
          · rw [List.mem_singleton.mp he]
            exact ⟨t, hself.1, hx⟩
          · rw [List.mem_singleton.mp he]
            exact ⟨_, slot_set_self _ hlt, rfl⟩
          · exact List.pairwise_singleton _ _

/-- On a pending task the loop body of `executeAll` does what `getResult` does,
except that it discards the value. -/
theorem executeAllBody_of_pending (ord : ArgOrder) (fuel : Nat) (s : TTaskScheduler α) (i : Nat)
    (t : BaseTask α) (ht : s.slot i = some (some t)) (hp : t.isExecuted = false) :
    (executeAllBody ord fuel s i).sched = (getResult ord (fuel + 1) s i).sched ∧
    (executeAllBody ord fuel s i).calls = (getResult ord (fuel + 1) s i).calls ∧
    ((executeAllBody ord fuel s i).outcome = .ok () ↔
      ∃ v, (getResult ord (fuel + 1) s i).outcome = .ok v) ∧
    (∀ e, (executeAllBody ord fuel s i).outcome = .error e ↔
      (getResult ord (fuel + 1) s i).outcome = .error e) := by
  have hb : executeAllBody ord fuel s i =
      (resolveAll (getResult ord fuel) s (t.kind.args ord)).andThen fun vs s2 =>
        t.finish s2 i (t.kind.call ord vs) := by
    unfold executeAllBody
    simp only [ht, hp, Bool.not_false, if_true]
    rw [execute_eq]
    simp [hp]
  rw [hb]
  rcases getResult_pending_cases ord fuel s i t ht hp with
    ⟨e, ho, h⟩ | ⟨vs, ho, hc, h⟩ | ⟨vs, r, ho, hc, h⟩
  · rw [h]
    simp [Step.andThen, ho]
  · rw [h]
    simp [Step.andThen, ho, hc, BaseTask.finish]
  · rw [h]
    simp [Step.andThen, ho, hc, BaseTask.finish]

theorem executeAllBody_of_not_pending (ord : ArgOrder) (fuel : Nat) (s : TTaskScheduler α)
    (i : Nat) (h : ¬ Pending s i) : executeAllBody ord fuel s i = ⟨.ok (), s, []⟩ := by
  unfold executeAllBody
  rcases hs : s.slot i with _ | _ | t
  · rfl
  · rfl
  · cases hx : t.isExecuted with
    | true => simp [hx]
    | false => exact absurd ⟨t, hs, hx⟩ h

theorem executeAllBody_log (ord : ArgOrder) (fuel : Nat) (s : TTaskScheduler α) (i : Nat) :
    LogOK s (executeAllBody ord fuel s i).sched (executeAllBody ord fuel s i).calls := by
  by_cases h : Pending s i
  · obtain ⟨t, ht, hp⟩ := h
    have hb := executeAllBody_of_pending ord fuel s i t ht hp
    rw [hb.1, hb.2.1]
    exact getResult_log ord (fuel + 1) s i
  · rw [executeAllBody_of_not_pending ord fuel s i h]
    exact LogOK.nil s _

theorem executeAllLoop_log (ord : ArgOrder) (fuel : Nat) (is : List Nat) :
    ∀ (s : TTaskScheduler α),
      LogOK s (executeAllLoop ord fuel is s).sched (executeAllLoop ord fuel is s).calls := by
  induction is with
  | nil => intro s; exact LogOK.nil s _
  | cons i rest ih =>
    intro s
    simp only [executeAllLoop]
    rcases andThen_sched (executeAllBody ord fuel s i)
      (fun _ s1 => executeAllLoop ord fuel rest s1) with ⟨e, _, h⟩ | ⟨v, _, h⟩
    · rw [h]; exact executeAllBody_log ord fuel s i
    · rw [h]
      exact LogOK.append (executeAllBody_ext ord fuel s i) (executeAllLoop_ext ord fuel rest _)
        (executeAllBody_log ord fuel s i) (ih _)

theorem executeAll_log (ord : ArgOrder) (fuel : Nat) (s : TTaskScheduler α) :
    LogOK s (executeAll ord fuel s).sched (executeAll ord fuel s).calls :=
  executeAllLoop_log ord fuel _ s

end Log

/-! ## At most one successful invocation per task; failures are not cached -/

section Once

variable {α : Type}

theorem Ext.done {s1 s2 : TTaskScheduler α} (h : Ext s1 s2) {i : Nat} (hd : Done s1 i) :
    Done s2 i := by
  rcases hd with hd | hd
  · exact Or.inl (h.null hd)
  · exact Or.inr (h.executed_of hd)

theorem not_pending_of_done {s : TTaskScheduler α} {i : Nat} (hd : Done s i)
    (hp : Pending s i) : False := by
  rcases hd with hd | hd
  · obtain ⟨t, ht, _⟩ := hp
    rw [hd] at ht
    cases ht
  · exact not_pending_of_executed hd hp

theorem done_push {s : TTaskScheduler α} {i : Nat} (o : Option (BaseTask α)) (n : Nat)
    (hd : Done s i) : Done (⟨s.taskList ++ [o], n⟩ : TTaskScheduler α) i := by
  have hlt : i < s.taskList.length := by
    rcases hd with hd | ⟨t, ht, _⟩
    · exact slot_lt hd
    · exact slot_lt ht
  have hs : (⟨s.taskList ++ [o], n⟩ : TTaskScheduler α).slot i = s.slot i :=
    slot_push_lt _ _ _ _ hlt
  rcases hd with hd | ⟨t, ht, hx⟩
  · exact Or.inl (hs.trans hd)
  · exact Or.inr ⟨t, hs.trans ht, hx⟩

theorem done_reset {s : TTaskScheduler α} {i : Nat} (id : Nat) (hd : Done s i) :
    Done ({ s with taskList := s.taskList.set id none } : TTaskScheduler α) i := by
  by_cases hi : i = id
  · subst hi
    have hlt : i < s.taskList.length := by
      rcases hd with hd | ⟨t, ht, _⟩
      · exact slot_lt hd
      · exact slot_lt ht
    exact Or.inl (slot_set_self none hlt)
  · rcases hd with hd | ⟨t, ht, hx⟩
    · exact Or.inl ((slot_set_ne none hi).trans hd)
    · exact Or.inr ⟨t, (slot_set_ne none hi).trans ht, hx⟩

/-- What one call other than `clear` does to the log and to finished tasks. -/
theorem runOp_log (ord : ArgOrder) (fuel : Nat) (s : TTaskScheduler α) (op : Op α)
    (hop : op.isClear = false) :
    LogOK s (runOp ord fuel s op).2.1 (runOp ord fuel s op).2.2 ∧
    ∀ i, Done s i → Done (runOp ord fuel s op).2.1 i := by
  by_cases hadd : op.isAdd = true
  · obtain ⟨k, hk⟩ := runOp_add_eq ord fuel s op hadd
    rw [hk]
    exact ⟨LogOK.nil s _, fun i hd => done_push _ _ hd⟩
  · cases op with
    | add f => simp [Op.isAdd] at hadd
    | addOneArg f a => simp [Op.isAdd] at hadd
    | addTwoArgs f a b => simp [Op.isAdd] at hadd
    | addMethod m o a => simp [Op.isAdd] at hadd
    | addMethodOnFuture m o a => simp [Op.isAdd] at hadd
    | getFutureResult id => exact ⟨LogOK.nil s _, fun i hd => hd⟩
    | getResult id =>
      have hc := ofGetResult_cases (getResult ord fuel s id)
      simp only [runOp, hc.1, hc.2.1]
      exact ⟨getResult_log ord fuel s id, fun i hd => (getResult_ext ord fuel s id).done hd⟩
    | executeAll =>
      have hc := ofExecuteAll_cases (α := α) (executeAll ord fuel s)
      simp only [runOp, hc.1, hc.2.1]
      exact ⟨executeAll_log ord fuel s, fun i hd => (executeAll_ext ord fuel s).done hd⟩
    | removeTask id =>
      rcases runOp_removeTask ord fuel s id with ⟨_, h⟩ | ⟨_, h⟩
      · rw [h]
        exact ⟨LogOK.nil s _, fun i hd => done_reset id hd⟩
      · rw [h]
        exact ⟨LogOK.nil s _, fun i hd => hd⟩
    | hasTask id => exact ⟨LogOK.nil s _, fun i hd => hd⟩
    | clear => simp [Op.isClear] at hop

theorem runLog_step (ord : ArgOrder) (fuel : Nat) (r : Run α) (op : Op α)
    (hop : op.isClear = false) (h : RunLog r) : RunLog (r.step ord fuel op) := by
  obtain ⟨hl, hd⟩ := runOp_log ord fuel r.sched op hop
  refine ⟨fun e he hr => ?_, ?_⟩
  · simp only [Run.step] at he ⊢
    rcases List.mem_append.mp he with he | he
    · exact hd _ (h.1 e he hr)
    · exact Or.inr (hl.executed e he hr)
  · simp only [Run.step]
    rw [List.pairwise_append]
    refine ⟨h.2, hl.norerun, fun e he e2 he2 hr heq => ?_⟩
    have h1 := h.1 e he hr
    have h2 := hl.pending e2 he2
    rw [heq] at h2
    exact not_pending_of_done h1 h2

/-- C2 (amended): along every run without `clear`, once the callable of a task
has returned normally it is never invoked again, so each callable returns at
most once; if no invocation threw, no task was invoked twice.  On the diamond,
`getResult` on the sink invokes the base exactly once. -/
theorem callable_returns_at_most_once (ord : ArgOrder) (fuel : Nat) (ops : List (Op α))
    (hops : ∀ op ∈ ops, op.isClear = false) :
    (runOps ord fuel ops Run.start).calls.Pairwise
      (fun e e2 => e.returned = true → e2.task ≠ e.task) ∧
    ((∀ e ∈ (runOps ord fuel ops Run.start).calls, e.returned = true) →
      ((runOps ord fuel ops Run.start).calls.map Call.task).Nodup) ∧
    ((getResult ord 3 diamond 3).calls.map Call.task).count 0 = 1 := by
  have h : RunLog (runOps ord fuel ops (Run.start : Run α)) :=
    runOps_invariant ord fuel (fun o => o.isClear = false) RunLog
      (fun r o ho h => runLog_step ord fuel r o ho h) ops _ hops
      ⟨fun e he => by simp [Run.start] at he, List.Pairwise.nil⟩
  refine ⟨h.2, fun hall => ?_, ?_⟩
  · rw [List.Nodup, List.pairwise_map]
    exact h.2.imp_of_mem (fun {e e2} he _ hr heq => hr (hall e he) heq.symm)
  · cases ord <;> decide

/-- Witness for C2: the diamond is registered, its sink is demanded twice and
then everything is executed. -/
theorem callable_returns_at_most_once_witness :
    (runOps .leftToRight 3
      [.add (fun _ => some (3 : Int)), .addOneArg (fun v => some (v + 1)) (.futureValue ⟨0⟩),
        .addOneArg (fun v => some (v - 1)) (.futureValue ⟨0⟩),
        .addTwoArgs (fun x y => some (x + y)) (.futureValue ⟨1⟩) (.futureValue ⟨2⟩),
        .getResult 3, .getResult 3, .executeAll] Run.start).calls.Pairwise
      (fun e e2 => e.returned = true → e2.task ≠ e.task) ∧
    ((∀ e ∈ (runOps .leftToRight 3
      [.add (fun _ => some (3 : Int)), .addOneArg (fun v => some (v + 1)) (.futureValue ⟨0⟩),
        .addOneArg (fun v => some (v - 1)) (.futureValue ⟨0⟩),
        .addTwoArgs (fun x y => some (x + y)) (.futureValue ⟨1⟩) (.futureValue ⟨2⟩),
        .getResult 3, .getResult 3, .executeAll] Run.start).calls, e.returned = true) →
      ((runOps .leftToRight 3
      [.add (fun _ => some (3 : Int)), .addOneArg (fun v => some (v + 1)) (.futureValue ⟨0⟩),
        .addOneArg (fun v => some (v - 1)) (.futureValue ⟨0⟩),
        .addTwoArgs (fun x y => some (x + y)) (.futureValue ⟨1⟩) (.futureValue ⟨2⟩),
        .getResult 3, .getResult 3, .executeAll] Run.start).calls.map Call.task).Nodup) ∧
    ((getResult .leftToRight 3 diamond 3).calls.map Call.task).count 0 = 1 :=
  callable_returns_at_most_once .leftToRight 3
    [.add (fun _ => some (3 : Int)), .addOneArg (fun v => some (v + 1)) (.futureValue ⟨0⟩),
      .addOneArg (fun v => some (v - 1)) (.futureValue ⟨0⟩),
      .addTwoArgs (fun x y => some (x + y)) (.futureValue ⟨1⟩) (.futureValue ⟨2⟩),
      .getResult 3, .getResult 3, .executeAll] (by simp [Op.isClear])

/-- C2 as stated fails: a task whose callable throws is registered and demanded
twice by `getResult`; with no `clear` in between its callable is invoked twice. -/
theorem throwing_callable_invoked_twice :
    ((runOps .leftToRight 1
      [.add (fun _ => (none : Option Int)), .getResult 0, .getResult 0]
      Run.start).calls.map Call.task).count 0 = 2 := by
  decide

end Once

section Retry

variable {α : Type}

theorem Ext.cached {s1 s2 : TTaskScheduler α} (h : Ext s1 s2) {i : Nat} {v : α}
    (hc : ∃ t, s1.slot i = some (some t) ∧ t.isExecuted = true ∧ t.result = some v) :
    ∃ t, s2.slot i = some (some t) ∧ t.isExecuted = true ∧ t.result = some v := by
  obtain ⟨t, ht, hx, hv⟩ := hc
  exact ⟨t, h.executed ht hx, hx, hv⟩

theorem resolveAll_ok_cons (getRes : TTaskScheduler α → Nat → Step α α)
    (s : TTaskScheduler α) (a : DeferredArgument α) (rest : List (DeferredArgument α))
    (vs : List α) (h : (resolveAll getRes s (a :: rest)).outcome = .ok vs) :
    ∃ v ws, vs = v :: ws ∧ (a.resolve getRes s).outcome = .ok v ∧
      (resolveAll getRes (a.resolve getRes s).sched rest).outcome = .ok ws ∧
      (resolveAll getRes s (a :: rest)).sched
        = (resolveAll getRes (a.resolve getRes s).sched rest).sched ∧
      (resolveAll getRes s (a :: rest)).calls
        = (a.resolve getRes s).calls ++
          (resolveAll getRes (a.resolve getRes s).sched rest).calls := by
  simp only [resolveAll] at h ⊢
  cases h1 : (a.resolve getRes s).outcome with
  | error e => simp [Step.andThen, h1] at h
  | ok v =>
    cases h2 : (resolveAll getRes (a.resolve getRes s).sched rest).outcome with
    | error e => simp [Step.andThen, h1, h2] at h
    | ok ws =>
      simp only [Step.andThen, h1, h2, Except.ok.injEq] at h
      refine ⟨v, ws, h.symm, rfl, rfl, ?_, ?_⟩ <;> simp [Step.andThen, h1, h2]

/-- Arguments that were resolved once are resolved again, from any later
state and with at least as much fuel, to the same values, out of the caches. -/
theorem resolveAll_again (ord : ArgOrder) (n m : Nat) (hm : n ≤ m)
    (as : List (DeferredArgument α)) :
    ∀ (s : TTaskScheduler α) (vs : List α),
      (resolveAll (getResult ord n) s as).outcome = .ok vs →
      ∀ s2, Ext (resolveAll (getResult ord n) s as).sched s2 →
        resolveAll (getResult ord m) s2 as = ⟨.ok vs, s2, []⟩ := by
  induction as with
  | nil =>
    intro s vs h s2 _
    simp only [resolveAll, Except.ok.injEq] at h ⊢
    rw [← h]
  | cons a rest ih =>
    intro s vs h s2 hext
    obtain ⟨v, ws, hvs, h1, h2, hsched, _⟩ := resolveAll_ok_cons _ s a rest vs h
    rw [hsched] at hext
    have hrest := ih _ ws h2 s2 hext
    have hmid : Ext (a.resolve (getResult ord n) s).sched s2 :=
      (resolveAll_ext _ (getResult_ext ord n) rest _).trans hext
    have ha : a.resolve (getResult ord m) s2 = ⟨.ok v, s2, []⟩ := by
      cases a with
      | value w =>
        simp only [DeferredArgument.resolve, Except.ok.injEq] at h1 ⊢
        rw [h1]
      | futureValue f =>
        simp only [DeferredArgument.resolve] at h1 hmid ⊢
        obtain ⟨t, ht, hx, hv⟩ := hmid.cached (getResult_ok_cached ord n s f.taskId v h1)
        cases m with
        | zero =>
          have hn : n = 0 := by omega
          subst hn
          simp [getResult] at h1
        | succ k => exact getResult_of_cached ord k s2 f.taskId t v ht hx hv
    simp only [resolveAll]
    rw [ha]
    simp only [Step.andThen]
    rw [hrest, hvs]
    rfl

/-- C4: if the callable of task `id` throws while `getResult(id)` runs, the
call ends with that exception, the task at `id` is exactly as before (still
pending, no result stored), and a further `getResult(id)` invokes the callable
again. -/
theorem callable_failure_not_cached (ord : ArgOrder) (fuel : Nat) (s : TTaskScheduler α)
    (id : Nat) (h : (⟨id, false⟩ : Call) ∈ (getResult ord fuel s id).calls) :
    (getResult ord fuel s id).outcome = .error .callableThrew ∧
    (∃ t, s.slot id = some (some t) ∧ t.isExecuted = false ∧
      (getResult ord fuel s id).sched.slot id = some (some t)) ∧
    (∀ fuel2, fuel ≤ fuel2 →
      getResult ord fuel2 (getResult ord fuel s id).sched id
        = ⟨.error .callableThrew, (getResult ord fuel s id).sched, [⟨id, false⟩]⟩) := by
  cases fuel with
  | zero => simp [getResult] at h
  | succ n =>
    rcases hs : s.slot id with _ | _ | t
    · rw [getResult_succ_of_range ord n s id hs] at h
      simp at h
    · rw [getResult_succ_of_null ord n s id hs] at h
      simp at h
    · cases hx : t.isExecuted with
      | true =>
        rw [(getResult_of_executed ord (n + 1) s id ⟨t, hs, hx⟩).2] at h
        simp at h
      | false =>
        have hself := resolveAll_self ord n s id t hs hx
        rcases getResult_pending_cases ord n s id t hs hx with
          ⟨e, _, hg⟩ | ⟨vs, ho, hc, hg⟩ | ⟨vs, r, _, _, hg⟩
        · rw [hg] at h
          exact absurd rfl (hself.2 _ h)
        · rw [hg]
          refine ⟨rfl, ⟨t, rfl, hx, hself.1⟩, fun fuel2 hf => ?_⟩
          obtain ⟨m, rfl⟩ : ∃ m, fuel2 = m + 1 := ⟨fuel2 - 1, by omega⟩
          have hagain := resolveAll_again ord n m (by omega) (t.kind.args ord) s vs ho _
            (Ext.refl _)
          rcases getResult_pending_cases ord m _ id t hself.1 hx with
            ⟨e, ho2, _⟩ | ⟨vs2, ho2, hc2, hg2⟩ | ⟨vs2, r2, ho2, hc2, _⟩
          · rw [hagain] at ho2
            cases ho2
          · rw [hg2, hagain]
            rfl
          · rw [hagain] at ho2
            cases ho2
            rw [hc] at hc2
            cases hc2
        · rw [hg] at h
          rcases List.mem_append.mp h with h | h
          · exact absurd rfl (hself.2 _ h)
          · simp at h

end Retry

/-! ## Values: what `getResult` returns on an acyclic graph -/

section Eval

variable {α : Type}

theorem eval_congr_all (k : TaskKind α) (val1 val2 : DeferredArgument α → Option α)
    (h : ∀ a, val1 a = val2 a) : k.eval val1 = k.eval val2 := by
  have : val1 = val2 := funext h
  rw [this]

theorem denote_succ (s : TTaskScheduler α) (n id : Nat) (t : BaseTask α)
    (ht : s.slot id = some (some t)) :
    denote s (n + 1) id = t.kind.eval (denoteArg s n) := by
  simp only [denote, ht]
  apply eval_congr_all
  intro a
  cases a <;> rfl

theorem eval_congr (ord : ArgOrder) (k : TaskKind α) (val1 val2 : DeferredArgument α → Option α)
    (h : ∀ a ∈ k.args ord, val1 a = val2 a) : k.eval val1 = k.eval val2 := by
  cases k with
  | TaskWithoutArgs f => rfl
  | TaskWithOneArg f a =>
    simp only [TaskKind.eval]
    rw [h a (by simp [TaskKind.args])]
  | TaskWithTwoArgs f a1 a2 =>
    simp only [TaskKind.eval]
    rw [h a1 (by cases ord <;> simp [TaskKind.args]),
      h a2 (by cases ord <;> simp [TaskKind.args])]

theorem eval_eq_call (ord : ArgOrder) (k : TaskKind α) (val : DeferredArgument α → Option α)
    (vs : List α) (h : List.Forall₂ (fun a v => val a = some v) (k.args ord) vs) :
    k.eval val = k.call ord vs := by
  cases k with
  | TaskWithoutArgs f =>
    simp only [TaskKind.args] at h
    cases h
    rfl
  | TaskWithOneArg f a =>
    simp only [TaskKind.args] at h
    cases h with
    | cons h1 h2 =>
      cases h2
      simp [TaskKind.eval, TaskKind.call, h1]
  | TaskWithTwoArgs f a1 a2 =>
    cases ord
    · simp only [TaskKind.args] at h
      cases h with
      | cons h1 h2 =>
        cases h2 with
        | cons h2 h3 =>
          cases h3
          simp [TaskKind.eval, TaskKind.call, h1, h2]
    · simp only [TaskKind.args] at h
      cases h with
      | cons h1 h2 =>
        cases h2 with
        | cons h2 h3 =>
          cases h3
          simp [TaskKind.eval, TaskKind.call, h1, h2]

theorem eval_some_args (ord : ArgOrder) (k : TaskKind α) (val : DeferredArgument α → Option α)
    (r : α) (h : k.eval val = some r) : ∀ a ∈ k.args ord, ∃ v, val a = some v := by
  cases k with
  | TaskWithoutArgs f => intro a ha; simp [TaskKind.args] at ha
  | TaskWithOneArg f a =>
    intro b hb
    simp only [TaskKind.args, List.mem_singleton] at hb
    subst hb
    simp only [TaskKind.eval] at h
    cases hv : val b with
    | none => simp [hv] at h
    | some v => exact ⟨v, rfl⟩
  | TaskWithTwoArgs f a1 a2 =>
    simp only [TaskKind.eval] at h
    cases hv1 : val a1 with
    | none => simp [hv1] at h
    | some v1 =>
      cases hv2 : val a2 with
      | none => simp [hv1, hv2] at h
      | some v2 =>
        intro b hb
        have hb2 : b = a1 ∨ b = a2 := by
          cases ord <;> simp [TaskKind.args] at hb <;> tauto
        rcases hb2 with hb2 | hb2 <;> subst hb2
        · exact ⟨v1, hv1⟩
        · exact ⟨v2, hv2⟩

theorem mem_references_of_mem_args (ord : ArgOrder) (k : TaskKind α) (f : FutureResult)
    (h : DeferredArgument.futureValue f ∈ k.args ord) : f.taskId ∈ k.references := by
  cases k with
  | TaskWithoutArgs g => simp [TaskKind.args] at h
  | TaskWithOneArg g a =>
    simp only [TaskKind.args, List.mem_singleton] at h
    subst h
    simp [TaskKind.references, DeferredArgument.reference]
  | TaskWithTwoArgs g a1 a2 =>
    have hb2 : DeferredArgument.futureValue f = a1 ∨ DeferredArgument.futureValue f = a2 := by
      cases ord <;> simp [TaskKind.args] at h <;> tauto
    rcases hb2 with hb2 | hb2 <;> subst hb2 <;>
      simp [TaskKind.references, DeferredArgument.reference]

theorem mem_args_of_mem_references (ord : ArgOrder) (k : TaskKind α) (j : Nat)
    (h : j ∈ k.references) : DeferredArgument.futureValue ⟨j⟩ ∈ k.args ord := by
  cases k with
  | TaskWithoutArgs g => simp [TaskKind.references] at h
  | TaskWithOneArg g a =>
    cases a with
    | value v => simp [TaskKind.references, DeferredArgument.reference] at h
    | futureValue f =>
      simp only [TaskKind.references, DeferredArgument.reference, List.mem_singleton] at h
      subst h
      simp [TaskKind.args]
  | TaskWithTwoArgs g a1 a2 =>
    simp only [TaskKind.references, List.mem_append] at h
    rcases h with h | h
    · cases a1 with
      | value v => simp [DeferredArgument.reference] at h
      | futureValue f =>
        simp only [DeferredArgument.reference, List.mem_singleton] at h
        subst h
        cases ord <;> simp [TaskKind.args]
    · cases a2 with
      | value v => simp [DeferredArgument.reference] at h
      | futureValue f =>
        simp only [DeferredArgument.reference, List.mem_singleton] at h
        subst h
        cases ord <;> simp [TaskKind.args]

theorem call_of_neverThrows (ord : ArgOrder) (k : TaskKind α) (vs : List α)
    (hk : k.neverThrows) (hlen : vs.length = (k.args ord).length) :
    ∃ r, k.call ord vs = some r := by
  cases k with
  | TaskWithoutArgs f =>
    simp only [TaskKind.args, List.length_nil, List.length_eq_zero] at hlen
    subst hlen
    simp only [TaskKind.call]
    exact Option.ne_none_iff_exists'.mp hk
  | TaskWithOneArg f a =>
    simp only [TaskKind.args, List.length_singleton] at hlen
    obtain ⟨v, rfl⟩ := List.length_eq_one.mp hlen
    simp only [TaskKind.call]
    exact Option.ne_none_iff_exists'.mp (hk v)
  | TaskWithTwoArgs f a1 a2 =>
    have hlen2 : vs.length = 2 := by cases ord <;> simpa [TaskKind.args] using hlen
    obtain ⟨v, w, rfl⟩ := List.length_eq_two.mp hlen2
    cases ord
    · simp only [TaskKind.call]
      exact Option.ne_none_iff_exists'.mp (hk v w)
    · simp only [TaskKind.call]
      exact Option.ne_none_iff_exists'.mp (hk w v)

end Eval

section Denote

variable {α : Type}

theorem denote_mono (s : TTaskScheduler α) (n : Nat) :
    ∀ (id m : Nat) (v : α), denote s n id = some v → n ≤ m → denote s m id = some v := by
  induction n with
  | zero => intro id m v h; simp [denote] at h
  | succ n ih =>
    intro id m v h hm
    obtain ⟨k, rfl⟩ : ∃ k, m = k + 1 := ⟨m - 1, by omega⟩
    rcases hs : s.slot id with _ | _ | t
    · simp [denote, hs] at h
    · simp [denote, hs] at h
    · rw [denote_succ s n id t hs] at h
      rw [denote_succ s k id t hs, ← h]
      apply eval_congr .leftToRight
      intro a ha
      obtain ⟨w, hw⟩ := eval_some_args .leftToRight t.kind _ v h a ha
      cases a with
      | value u => rfl
      | futureValue f =>
        simp only [denoteArg] at hw ⊢
        rw [hw]
        exact ih f.taskId k w hw (by omega)

theorem forall₂_of_forall (val : DeferredArgument α → Option α) (l : List (DeferredArgument α))
    (h : ∀ a ∈ l, ∃ v, val a = some v) :
    ∃ vs, List.Forall₂ (fun a v => val a = some v) l vs := by
  induction l with
  | nil => exact ⟨[], List.Forall₂.nil⟩
  | cons a rest ih =>
    obtain ⟨v, hv⟩ := h a (List.mem_cons_self _ _)
    obtain ⟨vs, hvs⟩ := ih (fun b hb => h b (List.mem_cons_of_mem _ hb))
    exact ⟨v :: vs, List.Forall₂.cons hv hvs⟩

theorem denote_defined (s : TTaskScheduler α) (rank : Nat → Nat)
    (hacy : ∀ i t j, s.slot i = some (some t) → j ∈ t.kind.references → rank j < rank i)
    (hval : ValidRefs s) (hnf : NoFail s) (n : Nat) :
    ∀ id, rank id < n → hasTask s id = true → ∃ v, denote s n id = some v := by
  induction n with
  | zero => intro id h; omega
  | succ n ih =>
    intro id hr hh
    obtain ⟨t, ht⟩ := hasTask_iff.mp hh
    rw [denote_succ s n id t ht]
    have hargs : ∀ a ∈ t.kind.args .leftToRight, ∃ v, denoteArg s n a = some v := by
      intro a ha
      cases a with
      | value u => exact ⟨u, rfl⟩
      | futureValue f =>
        have hmem := mem_references_of_mem_args .leftToRight t.kind f ha
        exact ih f.taskId (by have := hacy id t f.taskId ht hmem; omega)
          (hval id t f.taskId ht hmem)
    obtain ⟨vs, hvs⟩ := forall₂_of_forall _ _ hargs
    rw [eval_eq_call .leftToRight t.kind _ vs hvs]
    exact call_of_neverThrows .leftToRight t.kind vs (hnf id t ht) hvs.length_eq.symm

theorem eval_denoteArg_eq_refValue (s : TTaskScheduler α) (rank : Nat → Nat)
    (hacy : ∀ i t j, s.slot i = some (some t) → j ∈ t.kind.references → rank j < rank i)
    (hval : ValidRefs s) (hnf : NoFail s) (id : Nat) (t : BaseTask α)
    (ht : s.slot id = some (some t)) :
    t.kind.eval (denoteArg s (rank id)) = t.kind.eval (refValue s rank) := by
  apply eval_congr .leftToRight
  intro a ha
  cases a with
  | value u => rfl
  | futureValue f =>
    have hmem := mem_references_of_mem_args .leftToRight t.kind f ha
    have hlt := hacy id t f.taskId ht hmem
    obtain ⟨w, hw⟩ := denote_defined s rank hacy hval hnf (rank f.taskId + 1) f.taskId
      (by omega) (hval id t f.taskId ht hmem)
    simp only [denoteArg, refValue]
    rw [hw]
    exact denote_mono s _ f.taskId (rank id) w hw (by omega)

/-- On an acyclic graph with valid references and callables that do not fail,
resolving arguments whose references have rank below the fuel succeeds and
yields the reference values. -/
theorem resolveAll_denote (ord : ArgOrder) (s : TTaskScheduler α) (rank : Nat → Nat) (n : Nat)
    (ih : ∀ s2 id, Ext s s2 → CacheSound s s2 rank → hasTask s id = true → rank id < n →
      ∃ v, denote s (rank id + 1) id = some v ∧ (getResult ord n s2 id).outcome = .ok v ∧
        CacheSound s (getResult ord n s2 id).sched rank)
    (as : List (DeferredArgument α)) :
    (∀ f, DeferredArgument.futureValue f ∈ as → hasTask s f.taskId = true ∧ rank f.taskId < n) →
    ∀ s2, Ext s s2 → CacheSound s s2 rank →
      ∃ vs, (resolveAll (getResult ord n) s2 as).outcome = .ok vs ∧
        List.Forall₂ (fun a v => refValue s rank a = some v) as vs ∧
        CacheSound s (resolveAll (getResult ord n) s2 as).sched rank := by
  induction as with
  | nil =>
    intro _ s2 _ hc
    exact ⟨[], rfl, List.Forall₂.nil, hc⟩
  | cons a rest iha =>
    intro hrefs s2 hext hc
    have h1 : ∃ v, (a.resolve (getResult ord n) s2).outcome = .ok v ∧
        refValue s rank a = some v ∧
        CacheSound s (a.resolve (getResult ord n) s2).sched rank := by
      cases a with
      | value u => exact ⟨u, rfl, rfl, hc⟩
      | futureValue f =>
        obtain ⟨hh, hr⟩ := hrefs f (List.mem_cons_self _ _)
        obtain ⟨v, hd, ho, hc2⟩ := ih s2 f.taskId hext hc hh hr
        exact ⟨v, ho, hd, hc2⟩
    obtain ⟨v, ho, hv, hc1⟩ := h1
    have hext1 : Ext s (a.resolve (getResult ord n) s2).sched :=
      hext.trans (resolve_ext _ (getResult_ext ord n) s2 a)
    obtain ⟨vs, hos, hvs, hc2⟩ := iha (fun f hf => hrefs f (List.mem_cons_of_mem _ hf)) _
      hext1 hc1
    refine ⟨v :: vs, ?_, List.Forall₂.cons hv hvs, ?_⟩
    · simp [resolveAll, Step.andThen, ho, hos]
    · have : (resolveAll (getResult ord n) s2 (a :: rest)).sched
          = (resolveAll (getResult ord n) (a.resolve (getResult ord n) s2).sched rest).sched := by
        simp [resolveAll, Step.andThen, ho, hos]
      rw [this]
      exact hc2

/-- On an acyclic graph with valid references and callables that do not fail,
`getResult` with fuel above the rank of the task returns the reference value
and keeps the caches sound. -/
theorem getResult_denote (ord : ArgOrder) (s : TTaskScheduler α) (rank : Nat → Nat)
    (hacy : ∀ i t j, s.slot i = some (some t) → j ∈ t.kind.references → rank j < rank i)
    (hval : ValidRefs s) (hnf : NoFail s) (n : Nat) :
    ∀ s2 id, Ext s s2 → CacheSound s s2 rank → hasTask s id = true → rank id < n →
      ∃ v, denote s (rank id + 1) id = some v ∧ (getResult ord n s2 id).outcome = .ok v ∧
        CacheSound s (getResult ord n s2 id).sched rank := by
  induction n with
  | zero => intro s2 id _ _ _ h; omega
  | succ n ih =>
    intro s2 id hext hc hh hr
    obtain ⟨t, ht⟩ := hasTask_iff.mp hh
    obtain ⟨t2, ht2, hk⟩ := hext.kind ht
    cases hx : t2.isExecuted with
    | true =>
      obtain ⟨v, hv, hd⟩ := hc id t2 ht2 hx
      refine ⟨v, hd, ?_, ?_⟩
      · rw [getResult_of_cached ord n s2 id t2 v ht2 hx hv]
      · rw [getResult_of_cached ord n s2 id t2 v ht2 hx hv]
        exact hc
    | false =>
      have hrefs : ∀ f, DeferredArgument.futureValue f ∈ t2.kind.args ord →
          hasTask s f.taskId = true ∧ rank f.taskId < n := by
        intro f hf
        rw [hk] at hf
        have hmem := mem_references_of_mem_args ord t.kind f hf
        exact ⟨hval id t f.taskId ht hmem, by have := hacy id t f.taskId ht hmem; omega⟩
      obtain ⟨vs, hos, hvs, hcs⟩ := resolveAll_denote ord s rank n ih (t2.kind.args ord) hrefs
        s2 hext hc
      obtain ⟨r, hcall⟩ := call_of_neverThrows ord t2.kind vs (by rw [hk]; exact hnf id t ht)
        hvs.length_eq.symm
      have hden : denote s (rank id + 1) id = some r := by
        rw [denote_succ s (rank id) id t ht,
          eval_denoteArg_eq_refValue s rank hacy hval hnf id t ht, ← hk,
          eval_eq_call ord t2.kind _ vs hvs, hcall]
      rcases getResult_pending_cases ord n s2 id t2 ht2 hx with
        ⟨e, ho, _⟩ | ⟨vs2, ho, hc2, _⟩ | ⟨vs2, r2, ho, hc2, hg⟩
      · rw [hos] at ho
        cases ho
      · rw [hos] at ho
        cases ho
        rw [hcall] at hc2
        cases hc2
      · rw [hos] at ho
        cases ho
        rw [hcall] at hc2
        cases hc2
        refine ⟨r, hden, by rw [hg], ?_⟩
        rw [hg]
        intro i ti hi hxi
        simp only at hi
        by_cases hid : i = id
        · subst hid
          have hlt : i < (resolveAll (getResult ord n) s2 (t2.kind.args ord)).sched.taskList.length := by
            rw [(resolveAll_ext _ (getResult_ext ord n) _ s2).len]
            exact slot_lt ht2
          rw [slot_set_self _ hlt] at hi
          cases hi
          exact ⟨r, rfl, hden⟩
        · rw [slot_set_ne _ hid] at hi
          exact hcs i ti hi hxi

end Denote

section Value

variable {α : Type}

theorem cachedValue_future {s : TTaskScheduler α} {f : FutureResult} {w : α}
    (h : cachedValue s (.futureValue f) = some w) :
    ∃ t, s.slot f.taskId = some (some t) ∧ t.isExecuted = true ∧ t.result = some w := by
  simp only [cachedValue] at h
  rcases hs : s.slot f.taskId with _ | _ | t
  · simp [hs] at h
  · simp [hs] at h
  · simp only [hs] at h
    cases hx : t.isExecuted with
    | true =>
      rw [hx] at h
      exact ⟨t, rfl, hx, by simpa using h⟩
    | false => simp [hx] at h

theorem cachedValue_of_cached {s : TTaskScheduler α} {f : FutureResult} {w : α}
    (h : ∃ t, s.slot f.taskId = some (some t) ∧ t.isExecuted = true ∧ t.result = some w) :
    cachedValue s (.futureValue f) = some w := by
  obtain ⟨t, ht, hx, hw⟩ := h
  simp [cachedValue, ht, hx, hw]

theorem cacheSound_of_coherent (s : TTaskScheduler α) (rank : Nat → Nat)
    (hacy : ∀ i t j, s.slot i = some (some t) → j ∈ t.kind.references → rank j < rank i)
    (hval : ValidRefs s) (hcoh : Coherent s) : CacheSound s s rank := by
  have key : ∀ k i t, rank i < k → s.slot i = some (some t) → t.isExecuted = true →
      ∃ v, t.result = some v ∧ denote s (rank i + 1) i = some v := by
    intro k
    induction k with
    | zero => intro i t h; omega
    | succ k ih =>
      intro i t hr ht hx
      obtain ⟨_, r, hres, hev⟩ := hcoh i t ht hx
      have hev2 := hev (fun j hj => hval i t j ht hj)
      refine ⟨r, hres, ?_⟩
      rw [denote_succ s (rank i) i t ht, ← hev2]
      apply eval_congr .leftToRight
      intro a ha
      obtain ⟨w, hw⟩ := eval_some_args .leftToRight t.kind _ r hev2 a ha
      cases a with
      | value u => rfl
      | futureValue f =>
        have hmem := mem_references_of_mem_args .leftToRight t.kind f ha
        have hlt := hacy i t f.taskId ht hmem
        obtain ⟨tf, htf, hxf, hwf⟩ := cachedValue_future hw
        obtain ⟨v, hv, hd⟩ := ih f.taskId tf (by omega) htf hxf
        rw [hwf] at hv
        cases hv
        rw [hw]
        exact denote_mono s _ f.taskId (rank i) w hd (by omega)
  intro i t ht hx
  exact key (rank i + 1) i t (by omega) ht hx

/-- On a coherent scheduler whose graph is acyclic, whose references are valid
and whose callables do not fail, `getResult` on a stored task returns, for
every sufficient fuel, the task's callable applied to what its arguments
resolve to. -/
theorem getResult_value_of_coherent (ord : ArgOrder) (s : TTaskScheduler α) (id : Nat)
    (t : BaseTask α) (hacy : Acyclic s) (hval : ValidRefs s) (hnf : NoFail s)
    (hcoh : Coherent s) (ht : s.slot id = some (some t)) :
    ∃ fuel0, ∀ fuel, fuel0 ≤ fuel →
      ∃ r, (getResult ord fuel s id).outcome = .ok r ∧
        t.kind.eval (demandValue ord fuel s) = some r := by
  obtain ⟨rank, hrank⟩ := hacy
  have hcs := cacheSound_of_coherent s rank hrank hval hcoh
  refine ⟨rank id + 1, fun fuel hf => ?_⟩
  obtain ⟨v, hd, ho, _⟩ := getResult_denote ord s rank hrank hval hnf fuel s id (Ext.refl s) hcs
    (hasTask_iff.mpr ⟨t, ht⟩) (by omega)
  refine ⟨v, ho, ?_⟩
  rw [← hd, denote_succ s (rank id) id t ht,
    eval_denoteArg_eq_refValue s rank hrank hval hnf id t ht]
  apply eval_congr .leftToRight
  intro a ha
  cases a with
  | value u => rfl
  | futureValue f =>
    have hmem := mem_references_of_mem_args .leftToRight t.kind f ha
    have hlt := hrank id t f.taskId ht hmem
    obtain ⟨w, hdw, how, _⟩ := getResult_denote ord s rank hrank hval hnf fuel s f.taskId
      (Ext.refl s) hcs (hval id t f.taskId ht hmem) (by omega)
    simp only [demandValue, refValue, how, hdw]

end Value

/-! ## The memoisation invariant holds in every reachable state -/

section Reach

variable {α : Type}

theorem cachedValue_of_slots {s s2 : TTaskScheduler α}
    (h : ∀ j t, s.slot j = some (some t) → t.isExecuted = true → s2.slot j = some (some t))
    {a : DeferredArgument α} {v : α} (hv : cachedValue s a = some v) :
    cachedValue s2 a = some v := by
  cases a with
  | value u => exact hv
  | futureValue f =>
    obtain ⟨t, ht, hx, hw⟩ := cachedValue_future hv
    exact cachedValue_of_cached ⟨t, h _ t ht hx, hx, hw⟩

theorem eval_cachedValue_of_slots {s s2 : TTaskScheduler α}
    (h : ∀ j t, s.slot j = some (some t) → t.isExecuted = true → s2.slot j = some (some t))
    (k : TaskKind α) (r : α) (hr : k.eval (cachedValue s) = some r) :
    k.eval (cachedValue s2) = some r := by
  rw [← hr]
  apply eval_congr .leftToRight
  intro a ha
  obtain ⟨w, hw⟩ := eval_some_args .leftToRight k _ r hr a ha
  rw [hw]
  exact cachedValue_of_slots h hw

theorem coherent_fresh : Coherent (TTaskScheduler.fresh : TTaskScheduler α) := by
  intro i t ht
  simp [TTaskScheduler.fresh, TTaskScheduler.slot] at ht

theorem coherent_push (s : TTaskScheduler α) (k : TaskKind α) (n : Nat) (hc : Coherent s) :
    Coherent (⟨s.taskList ++ [some ⟨k, false, none⟩], n⟩ : TTaskScheduler α) := by
  intro i t ht hx
  have hlt : i < s.taskList.length := by
    by_contra hge
    unfold TTaskScheduler.slot at ht
    rw [List.getElem?_append_right (Nat.le_of_not_lt hge)] at ht
    cases hsub : i - s.taskList.length with
    | zero =>
      rw [hsub] at ht
      simp at ht
      subst ht
      cases hx
    | succ m =>
      rw [hsub] at ht
      simp at ht
  have hs : s.slot i = some (some t) := by
    rw [slot_push_lt s.taskList (some ⟨k, false, none⟩) n i hlt] at ht
    exact ht
  obtain ⟨hrange, r, hres, hev⟩ := hc i t hs hx
  refine ⟨fun j hj => ?_, r, hres, fun hall => ?_⟩
  · have := hrange j hj
    simp only [List.length_append, List.length_singleton]
    omega
  · have hall2 : ∀ j ∈ t.kind.references, hasTask s j = true := by
      intro j hj
      have h1 := hall j hj
      have h2 := hrange j hj
      have h3 := hasTask_push s ⟨k, false, none⟩ n j
      rw [h3] at h1
      have h4 : decide (j = s.taskList.length) = false := by
        simp only [decide_eq_false_iff_not]
        omega
      rw [h4] at h1
      simpa using h1
    apply eval_cachedValue_of_slots _ t.kind r (hev hall2)
    intro j tj htj _
    rw [slot_push_lt s.taskList _ n j (slot_lt htj)]
    exact htj

theorem forall₂_mem_left {β γ : Type} {R : β → γ → Prop} {l : List β} {m : List γ} {a : β}
    (ha : a ∈ l) (h : List.Forall₂ R l m) : ∃ b, b ∈ m ∧ R a b := by
  induction h with
  | nil => simp at ha
  | cons hr _ ih =>
    rcases List.mem_cons.mp ha with ha | ha
    · subst ha
      exact ⟨_, List.mem_cons_self _ _, hr⟩
    · obtain ⟨b, hb, hrb⟩ := ih ha
      exact ⟨b, List.mem_cons_of_mem _ hb, hrb⟩

theorem coherent_reset (s : TTaskScheduler α) (id : Nat) (hh : hasTask s id = true)
    (hc : Coherent s) :
    Coherent ({ s with taskList := s.taskList.set id none } : TTaskScheduler α) := by
  have hlt : id < s.taskList.length := by
    obtain ⟨t, ht⟩ := hasTask_iff.mp hh
    exact slot_lt ht
  intro i t ht hx
  have hi : i ≠ id := by
    intro h
    subst h
    rw [slot_set_self none hlt] at ht
    cases ht
  rw [slot_set_ne none hi] at ht
  obtain ⟨hrange, r, hres, hev⟩ := hc i t ht hx
  refine ⟨fun j hj => by simpa using hrange j hj, r, hres, fun hall => ?_⟩
  have hne : ∀ j ∈ t.kind.references, j ≠ id ∧ hasTask s j = true := by
    intro j hj
    have h1 := hall j hj
    rw [hasTask_reset] at h1
    simp only [Bool.and_eq_true, Bool.not_eq_true', decide_eq_false_iff_not] at h1
    exact ⟨h1.2, h1.1⟩
  have hev2 := hev (fun j hj => (hne j hj).2)
  rw [← hev2]
  apply eval_congr .leftToRight
  intro a ha
  cases a with
  | value u => rfl
  | futureValue f =>
    have hmem := mem_references_of_mem_args .leftToRight t.kind f ha
    simp only [cachedValue]
    rw [slot_set_ne none (hne f.taskId hmem).1]

theorem coherent_set (ord : ArgOrder) (s1 : TTaskScheduler α) (x : Nat) (t : BaseTask α)
    (vs : List α) (r : α) (hc : Coherent s1) (ht : s1.slot x = some (some t))
    (hp : t.isExecuted = false)
    (hvs : List.Forall₂ (fun a v => cachedValue s1 a = some v) (t.kind.args ord) vs)
    (hcall : t.kind.call ord vs = some r) :
    Coherent ({ s1 with taskList := s1.taskList.set x (some ⟨t.kind, true, some r⟩) } :
      TTaskScheduler α) := by
  have hlt : x < s1.taskList.length := slot_lt ht
  have hkeep : ∀ j tj, s1.slot j = some (some tj) → tj.isExecuted = true →
      ({ s1 with taskList := s1.taskList.set x (some ⟨t.kind, true, some r⟩) } :
        TTaskScheduler α).slot j = some (some tj) := by
    intro j tj htj hxj
    have hj : j ≠ x := by
      intro h
      subst h
      rw [ht] at htj
      cases htj
      rw [hp] at hxj
      cases hxj
    rw [slot_set_ne _ hj]
    exact htj
  have hext : Ext s1 ({ s1 with taskList := s1.taskList.set x (some ⟨t.kind, true, some r⟩) } :
      TTaskScheduler α) := finish_ext t s1 s1 x (some r) (Ext.refl s1) ht hp
  intro i ti hti hxi
  by_cases hi : i = x
  · rw [hi, slot_set_self _ hlt] at hti
    cases hti
    have hvs2 := hvs.imp (fun _ _ h => cachedValue_of_slots hkeep h)
    refine ⟨fun j hj => ?_, r, rfl, fun _ => ?_⟩
    · have hmem := mem_args_of_mem_references ord t.kind j hj
      obtain ⟨v, _, hv⟩ := forall₂_mem_left hmem hvs
      obtain ⟨tj, htj, _, _⟩ := cachedValue_future hv
      simpa using slot_lt htj
    · simp only
      rw [eval_eq_call ord t.kind _ vs hvs2]
      exact hcall
  · rw [slot_set_ne _ hi] at hti
    obtain ⟨hrange, ri, hres, hev⟩ := hc i ti hti hxi
    refine ⟨fun j hj => by simpa using hrange j hj, ri, hres, fun hall => ?_⟩
    apply eval_cachedValue_of_slots hkeep ti.kind ri
    apply hev
    intro j hj
    rw [← hext.hasTask j]
    exact hall j hj

end Reach

section Reach2

variable {α : Type}

theorem resolveAll_cachedValue (ord : ArgOrder) (n : Nat) (as : List (DeferredArgument α)) :
    ∀ (s : TTaskScheduler α) (vs : List α),
      (resolveAll (getResult ord n) s as).outcome = .ok vs →
      List.Forall₂ (fun a v => cachedValue (resolveAll (getResult ord n) s as).sched a = some v)
        as vs := by
  induction as with
  | nil =>
    intro s vs h
    simp only [resolveAll, Except.ok.injEq] at h
    rw [← h]
    exact List.Forall₂.nil
  | cons a rest ih =>
    intro s vs h
    obtain ⟨v, ws, hvs, h1, h2, hsched, _⟩ := resolveAll_ok_cons _ s a rest vs h
    rw [hvs, hsched]
    refine List.Forall₂.cons ?_ (ih _ ws h2)
    have hext := resolveAll_ext (getResult ord n) (getResult_ext ord n) rest
      (a.resolve (getResult ord n) s).sched
    cases a with
    | value u =>
      simp only [DeferredArgument.resolve, Except.ok.injEq] at h1
      simp [cachedValue, h1]
    | futureValue f =>
      simp only [DeferredArgument.resolve] at h1 hext ⊢
      exact cachedValue_of_cached (hext.cached (getResult_ok_cached ord n s f.taskId v h1))

theorem coherent_resolveAll (getRes : TTaskScheduler α → Nat → Step α α)
    (hg : ∀ s j, Coherent s → Coherent (getRes s j).sched) (as : List (DeferredArgument α)) :
    ∀ s, Coherent s → Coherent (resolveAll getRes s as).sched := by
  induction as with
  | nil => intro s hc; exact hc
  | cons a rest ih =>
    intro s hc
    have h1 : Coherent (a.resolve getRes s).sched := by
      cases a with
      | value u => exact hc
      | futureValue f => exact hg s f.taskId hc
    simp only [resolveAll]
    rcases andThen_sched (a.resolve getRes s)
      (fun v s1 => (resolveAll getRes s1 rest).andThen
        fun vs s2 => (⟨.ok (v :: vs), s2, []⟩ : Step α (List α))) with ⟨e, _, h⟩ | ⟨v, _, h⟩
    · rw [h]; exact h1
    · rw [h]
      simp only [(andThen_pure _ _).1]
      exact ih _ h1

theorem coherent_getResult (ord : ArgOrder) (n : Nat) :
    ∀ (s : TTaskScheduler α) (x : Nat), Coherent s → Coherent (getResult ord n s x).sched := by
  induction n with
  | zero => intro s x hc; exact hc
  | succ n ih =>
    intro s x hc
    rcases hs : s.slot x with _ | _ | t
    · rw [getResult_succ_of_range ord n s x hs]; exact hc
    · rw [getResult_succ_of_null ord n s x hs]; exact hc
    · cases hx : t.isExecuted with
      | true =>
        rw [(getResult_of_executed ord (n + 1) s x ⟨t, hs, hx⟩).1]
        exact hc
      | false =>
        have hra := coherent_resolveAll (getResult ord n) ih (t.kind.args ord) s hc
        have hself := resolveAll_self ord n s x t hs hx
        rcases getResult_pending_cases ord n s x t hs hx with
          ⟨e, _, h⟩ | ⟨vs, _, _, h⟩ | ⟨vs, r, ho, hcall, h⟩
        · rw [h]; exact hra
        · rw [h]; exact hra
        · rw [h]
          exact coherent_set ord _ x t vs r hra hself.1 hx
            (resolveAll_cachedValue ord n (t.kind.args ord) s vs ho) hcall

theorem coherent_executeAllBody (ord : ArgOrder) (fuel : Nat) (s : TTaskScheduler α) (i : Nat)
    (hc : Coherent s) : Coherent (executeAllBody ord fuel s i).sched := by
  by_cases h : Pending s i
  · obtain ⟨t, ht, hp⟩ := h
    rw [(executeAllBody_of_pending ord fuel s i t ht hp).1]
    exact coherent_getResult ord (fuel + 1) s i hc
  · rw [executeAllBody_of_not_pending ord fuel s i h]
    exact hc

theorem coherent_executeAllLoop (ord : ArgOrder) (fuel : Nat) (is : List Nat) :
    ∀ (s : TTaskScheduler α), Coherent s → Coherent (executeAllLoop ord fuel is s).sched := by
  induction is with
  | nil => intro s hc; exact hc
  | cons i rest ih =>
    intro s hc
    simp only [executeAllLoop]
    rcases andThen_sched (executeAllBody ord fuel s i)
      (fun _ s1 => executeAllLoop ord fuel rest s1) with ⟨e, _, h⟩ | ⟨v, _, h⟩
    · rw [h]; exact coherent_executeAllBody ord fuel s i hc
    · rw [h]; exact ih _ (coherent_executeAllBody ord fuel s i hc)

theorem coherent_runOp (ord : ArgOrder) (fuel : Nat) (s : TTaskScheduler α) (op : Op α)
    (hc : Coherent s) : Coherent (runOp ord fuel s op).2.1 := by
  by_cases hadd : op.isAdd = true
  · obtain ⟨k, hk⟩ := runOp_add_eq ord fuel s op hadd
    rw [hk]
    exact coherent_push s k _ hc
  · cases op with
    | add f => simp [Op.isAdd] at hadd
    | addOneArg f a => simp [Op.isAdd] at hadd
    | addTwoArgs f a b => simp [Op.isAdd] at hadd
    | addMethod m o a => simp [Op.isAdd] at hadd
    | addMethodOnFuture m o a => simp [Op.isAdd] at hadd
    | getFutureResult id => exact hc
    | getResult id =>
      simp only [runOp, (ofGetResult_cases (getResult ord fuel s id)).1]
      exact coherent_getResult ord fuel s id hc
    | executeAll =>
      simp only [runOp, (ofExecuteAll_cases (α := α) (executeAll ord fuel s)).1]
      exact coherent_executeAllLoop ord fuel _ s hc
    | removeTask id =>
      rcases runOp_removeTask ord fuel s id with ⟨hh, h⟩ | ⟨_, h⟩
      · rw [h]
        exact coherent_reset s id hh hc
      · rw [h]
        exact hc
    | hasTask id => exact hc
    | clear => exact coherent_fresh

/-- Every state a client can reach from a fresh scheduler is coherent. -/
theorem coherent_runOps (ord : ArgOrder) (fuel : Nat) (ops : List (Op α)) :
    Coherent (runOps ord fuel ops (Run.start : Run α)).sched :=
  runOps_invariant ord fuel (fun _ => True) (fun r => Coherent r.sched)
    (fun r op _ h => coherent_runOp ord fuel r.sched op h) ops _ (fun _ _ => trivial)
    coherent_fresh

end Reach2

section DiamondFacts

theorem diamondOps_sched (ord : ArgOrder) (fuel : Nat) :
    (runOps ord fuel diamondOps Run.start).sched = diamond := rfl

theorem diamond_slot_cases (i : Nat) (t : BaseTask Int) (h : diamond.slot i = some (some t)) :
    (i = 0 ∧ t.kind.references = []) ∨ (i = 1 ∧ t.kind.references = [0]) ∨
    (i = 2 ∧ t.kind.references = [0]) ∨ (i = 3 ∧ t.kind.references = [1, 2]) := by
  rcases i with _ | _ | _ | _ | i
  · left
    simp [TTaskScheduler.slot, diamond, add, addOneArg, addTwoArgs, addTask,
      TTaskScheduler.fresh] at h
    subst h
    exact ⟨rfl, rfl⟩
  · right; left
    simp [TTaskScheduler.slot, diamond, add, addOneArg, addTwoArgs, addTask,
      TTaskScheduler.fresh] at h
    subst h
    exact ⟨rfl, rfl⟩
  · right; right; left
    simp [TTaskScheduler.slot, diamond, add, addOneArg, addTwoArgs, addTask,
      TTaskScheduler.fresh] at h
    subst h
    exact ⟨rfl, rfl⟩
  · right; right; right
    simp [TTaskScheduler.slot, diamond, add, addOneArg, addTwoArgs, addTask,
      TTaskScheduler.fresh] at h
    subst h
    exact ⟨rfl, rfl⟩
  · simp [TTaskScheduler.slot, diamond, add, addOneArg, addTwoArgs, addTask,
      TTaskScheduler.fresh] at h

theorem diamond_acyclic : Acyclic diamond := by
  refine ⟨fun i => i, fun i t j hi hj => ?_⟩
  show j < i
  rcases diamond_slot_cases i t hi with ⟨h1, h2⟩ | ⟨h1, h2⟩ | ⟨h1, h2⟩ | ⟨h1, h2⟩ <;>
    rw [h2] at hj <;> simp at hj <;> omega

theorem diamond_validRefs : ValidRefs diamond := by
  intro i t j hi hj
  rcases diamond_slot_cases i t hi with ⟨h1, h2⟩ | ⟨h1, h2⟩ | ⟨h1, h2⟩ | ⟨h1, h2⟩ <;>
    rw [h2] at hj <;> simp at hj
  · subst hj; rfl
  · subst hj; rfl
  · rcases hj with hj | hj <;> subst hj <;> rfl

theorem diamond_noFail : NoFail diamond := by
  intro i t hi
  rcases i with _ | _ | _ | _ | i <;>
    simp [TTaskScheduler.slot, diamond, add, addOneArg, addTwoArgs, addTask,
      TTaskScheduler.fresh] at hi
  all_goals subst hi
  all_goals simp [TaskKind.neverThrows]

end DiamondFacts

section Witnesses

/-- Witness for C4: the sink of `throwingSink` throws once its two arguments
have been computed; the arguments stay cached and the sink stays pending. -/
theorem callable_failure_not_cached_witness :
    (⟨2, false⟩ : Call) ∈ (getResult .leftToRight 3 throwingSink 2).calls ∧
    (getResult .leftToRight 3 throwingSink 2).outcome = .error .callableThrew ∧
    (∃ t, throwingSink.slot 2 = some (some t) ∧ t.isExecuted = false ∧
      (getResult .leftToRight 3 throwingSink 2).sched.slot 2 = some (some t)) ∧
    (∀ fuel2, 3 ≤ fuel2 →
      getResult .leftToRight fuel2 (getResult .leftToRight 3 throwingSink 2).sched 2
        = ⟨.error .callableThrew, (getResult .leftToRight 3 throwingSink 2).sched,
            [⟨2, false⟩]⟩) :=
  ⟨by decide, callable_failure_not_cached .leftToRight 3 throwingSink 2 (by decide)⟩

end Witnesses

/-! ## `clear`, epochs of identifiers, identifiers out of range -/

section Epochs

variable {α : Type}

theorem issuedSinceClear_append (es : List (Op α × Ret α)) (e : Op α × Ret α) :
    issuedSinceClear (es ++ [e]) = epochStep (issuedSinceClear es) e := by
  unfold issuedSinceClear
  rw [List.foldl_append]
  rfl

theorem epoch_step (ord : ArgOrder) (fuel : Nat) (r : Run α) (op : Op α) (h : Epoch r) :
    Epoch (r.step ord fuel op) := by
  obtain ⟨hi, hn⟩ := h
  by_cases hadd : op.isAdd = true
  · obtain ⟨k, hk⟩ := runOp_add_eq ord fuel r.sched op hadd
    refine ⟨?_, by simp [Run.step, hk, hn]⟩
    simp only [Run.step, hk, issuedSinceClear_append, hi]
    rw [List.range_succ]
    cases op <;> simp [Op.isAdd] at hadd <;> simp [epochStep, Op.isAdd]
  · cases op with
    | add f => simp [Op.isAdd] at hadd
    | addOneArg f a => simp [Op.isAdd] at hadd
    | addTwoArgs f a b => simp [Op.isAdd] at hadd
    | addMethod m o a => simp [Op.isAdd] at hadd
    | addMethodOnFuture m o a => simp [Op.isAdd] at hadd
    | getFutureResult id =>
      refine ⟨?_, hn⟩
      simp only [Run.step, runOp, issuedSinceClear_append, hi]
      rfl
    | getResult id =>
      have hc := ofGetResult_cases (getResult ord fuel r.sched id)
      have he := getResult_ext ord fuel r.sched id
      refine ⟨?_, by simp only [Run.step, runOp, hc.1, he.len, he.next]; exact hn⟩
      simp only [Run.step, runOp, issuedSinceClear_append, hi, hc.1, he.next]
      rcases hc.2.2 with ⟨v, hv⟩ | ⟨e, hv⟩ <;> rw [hv] <;> rfl
    | executeAll =>
      have hc := ofExecuteAll_cases (α := α) (executeAll ord fuel r.sched)
      have he := executeAll_ext ord fuel r.sched
      refine ⟨?_, by simp only [Run.step, runOp, hc.1, he.len, he.next]; exact hn⟩
      simp only [Run.step, runOp, issuedSinceClear_append, hi, hc.1, he.next]
      rcases hc.2.2 with hv | ⟨e, hv⟩ <;> rw [hv] <;> rfl
    | removeTask id =>
      rcases runOp_removeTask ord fuel r.sched id with ⟨_, h'⟩ | ⟨_, h'⟩
      · refine ⟨?_, by simp [Run.step, h', hn]⟩
        simp only [Run.step, h', issuedSinceClear_append, hi]
        rfl
      · refine ⟨?_, by simp [Run.step, h', hn]⟩
        simp only [Run.step, h', issuedSinceClear_append, hi]
        rfl
    | hasTask id =>
      refine ⟨?_, hn⟩
      simp only [Run.step, runOp, issuedSinceClear_append, hi]
      rfl
    | clear =>
      refine ⟨?_, rfl⟩
      simp only [Run.step, runOp, issuedSinceClear_append]
      rfl

theorem epoch_runOps (ord : ArgOrder) (fuel : Nat) (ops : List (Op α)) :
    Epoch (runOps ord fuel ops (Run.start : Run α)) :=
  runOps_invariant ord fuel (fun _ => True) Epoch
    (fun r op _ h => epoch_step ord fuel r op h) ops _ (fun _ _ => trivial) ⟨rfl, rfl⟩

/-- C11: after `clear()` the scheduler is the freshly constructed one:
`hasTask(id)` is false for every `id`, `getResult(id)` throws
`std::out_of_range` for every `id` without any effect, and each `add` overload
returns identifier 0. -/
theorem clear_gives_fresh (ord : ArgOrder) (fuel : Nat) (s : TTaskScheduler α) (id : Nat) :
    clear s = TTaskScheduler.fresh ∧
    hasTask (clear s) id = false ∧
    getResult ord (fuel + 1) (clear s) id = ⟨.error .outOfRange, clear s, []⟩ ∧
    (∀ f, (add (clear s) f).1 = 0) ∧
    (∀ f a, (addOneArg (clear s) f a).1 = 0) ∧
    (∀ f a b, (addTwoArgs (clear s) f a b).1 = 0) ∧
    (∀ m o a, (addMethod (clear s) m o a).1 = 0) ∧
    (∀ m o a, (addMethodOnFuture (clear s) m o a).1 = 0) :=
  ⟨rfl, rfl, getResult_succ_of_range ord fuel (clear s) id (slot_none_iff.mpr (Nat.zero_le id)),
    fun _ => rfl, fun _ _ => rfl, fun _ _ _ => rfl, fun _ _ _ => rfl, fun _ _ _ => rfl⟩

/-- C12 as stated fails: the first `add`, a `clear` and another `add`; both
`add` calls return identifier 0. -/
theorem identifier_reissued_after_clear :
    addReturns (runOps .leftToRight 1
      [.add (fun _ => some (1 : Int)), .clear, .add (fun _ => some 2)] Run.start).events
      = [0, 0] := by
  rfl

/-- C12 (amended): `clear` resets the counter to zero, so along every run the
identifiers returned by `add` since the last `clear` are `0, 1, 2, ...` in
this order: they are pairwise distinct within one epoch and start again at 0
after each `clear`, repeating the identifiers of the epochs before. -/
theorem identifiers_restart_after_clear (ord : ArgOrder) (fuel : Nat) (ops : List (Op α)) :
    issuedSinceClear (runOps ord fuel ops Run.start).events
      = List.range (issuedSinceClear (runOps ord fuel ops Run.start).events).length ∧
    (issuedSinceClear (runOps ord fuel ops Run.start).events).Nodup ∧
    (∀ f, (add (clear (runOps ord fuel ops Run.start).sched) f).1 = 0) := by
  have h := (epoch_runOps ord fuel ops (α := α)).1
  refine ⟨?_, ?_, fun _ => rfl⟩
  · rw [h, List.length_range]
  · rw [h]
    exact List.nodup_range _

/-- C13: in every state reached from a fresh scheduler, for an `id` that is at
least the number of identifiers issued since the last `clear`, `getResult(id)`
throws `std::out_of_range`, invokes no callable and leaves the scheduler
unchanged. -/
theorem getResult_out_of_range (ord : ArgOrder) (fuelR : Nat) (ops : List (Op α)) (id : Nat)
    (h : (issuedSinceClear (runOps ord fuelR ops Run.start).events).length ≤ id) (fuel : Nat) :
    getResult ord (fuel + 1) (runOps ord fuelR ops Run.start).sched id
      = ⟨.error .outOfRange, (runOps ord fuelR ops Run.start).sched, []⟩ := by
  have he := epoch_runOps ord fuelR ops (α := α)
  rw [he.1, List.length_range, he.2] at h
  exact getResult_succ_of_range ord fuel _ id (slot_none_iff.mpr h)

/-- Witness for C13: on the diamond, identifiers 0 to 3 were issued and
identifier 4 is out of range. -/
theorem getResult_out_of_range_witness :
    (issuedSinceClear (runOps .leftToRight 0 diamondOps Run.start).events).length ≤ 4 ∧
    getResult .leftToRight 3 (runOps .leftToRight 0 diamondOps Run.start).sched 4
      = ⟨.error .outOfRange, (runOps .leftToRight 0 diamondOps Run.start).sched, []⟩ :=
  ⟨by decide, getResult_out_of_range .leftToRight 0 diamondOps 4 (by decide) 2⟩

end Epochs

/-! ## Retrieval is not type checked -/

section Late

variable {α : Type}

theorem slot_push_self (l : List (Option (BaseTask α))) (o : Option (BaseTask α)) (n : Nat) :
    (⟨l ++ [o], n⟩ : TTaskScheduler α).slot l.length = some o := by
  unfold TTaskScheduler.slot
  simp

/-- C17 as stated fails: a task returning the `int` 99 is registered and its
result is requested as a `std::string`.  No type-mismatch error is raised and
nothing is checked before the task runs: the callable is invoked, the `int`
is cached, and the call then reads it through a `std::string*`, which is
undefined behaviour. -/
theorem mismatched_getResult_is_unchecked :
    getResultAs Value.typeOf ValueType.text .leftToRight 1
        (add TTaskScheduler.fresh (fun _ => some (Value.int 99))).2 0
      = ⟨.error .typeConfusion,
          ⟨[some ⟨.TaskWithoutArgs (fun _ => some (Value.int 99)), true, some (Value.int 99)⟩], 1⟩,
          [⟨0, true⟩]⟩ := by
  rfl

/-- C17 (amended): `getResult<T>` makes no type check and raises no
type-mismatch error.  Whatever `T` is, it changes the scheduler and invokes
callables exactly as the retrieval of the stored result does, and fails as
that one fails (invalid identifier, exception of a callable); once the result
`v` is stored and cached, it is returned when `T` is the type it was stored
with, and otherwise the stored object is read through a pointer to another
type, which is undefined behaviour. -/
theorem getResultAs_unchecked {τ : Type} [DecidableEq τ] (typeOf : α → τ) (T : τ)
    (ord : ArgOrder) (fuel : Nat) (s : TTaskScheduler α) (id : Nat) :
    (getResultAs typeOf T ord fuel s id).sched = (getResult ord fuel s id).sched ∧
    (getResultAs typeOf T ord fuel s id).calls = (getResult ord fuel s id).calls ∧
    (∀ e, (getResult ord fuel s id).outcome = .error e →
      (getResultAs typeOf T ord fuel s id).outcome = .error e) ∧
    (∀ v, (getResult ord fuel s id).outcome = .ok v →
      (∃ t, (getResultAs typeOf T ord fuel s id).sched.slot id = some (some t) ∧
        t.isExecuted = true ∧ t.result = some v) ∧
      (typeOf v = T → (getResultAs typeOf T ord fuel s id).outcome = .ok v) ∧
      (typeOf v ≠ T →
        (getResultAs typeOf T ord fuel s id).outcome = .error .typeConfusion)) := by
  have hs : (getResultAs typeOf T ord fuel s id).sched = (getResult ord fuel s id).sched := by
    unfold getResultAs
    cases h : (getResult ord fuel s id).outcome with
    | error e => simp [Step.andThen, h]
    | ok v => by_cases ht : typeOf v = T <;> simp [Step.andThen, h, ht]
  refine ⟨hs, ?_, ?_, ?_⟩
  · unfold getResultAs
    cases h : (getResult ord fuel s id).outcome with
    | error e => simp [Step.andThen, h]
    | ok v => by_cases ht : typeOf v = T <;> simp [Step.andThen, h, ht]
  · intro e h
    unfold getResultAs
    simp [Step.andThen, h]
  · intro v h
    refine ⟨?_, ?_, ?_⟩
    · rw [hs]
      exact getResult_ok_cached ord fuel s id v h
    · intro ht
      unfold getResultAs
      simp [Step.andThen, h, ht]
    · intro ht
      unfold getResultAs
      simp [Step.andThen, h, ht]

end Late

/-! ## The dependency closure -/

section Closure

variable {α : Type}

theorem ext_kind_back {s1 s2 : TTaskScheduler α} (h : Ext s1 s2) {i : Nat} {t2 : BaseTask α}
    (ht : s2.slot i = some (some t2)) :
    ∃ t, s1.slot i = some (some t) ∧ t.kind = t2.kind := by
  rcases h.slots i with h1 | ⟨t, r, ht1, _, h2⟩
  · exact ⟨t2, h1.symm.trans ht, rfl⟩
  · rw [h2] at ht
    cases ht
    exact ⟨t, ht1, rfl⟩

theorem reaches_of_ext {s1 s2 : TTaskScheduler α} (h : Ext s1 s2) {x y : Nat}
    (hr : Reaches s1 x y) : Reaches s2 x y := by
  induction hr with
  | refl x => exact Reaches.refl x
  | step t ht hj _ ih =>
    obtain ⟨t2, ht2, hk⟩ := h.kind ht
    exact Reaches.step t2 ht2 (by rw [hk]; exact hj) ih

theorem reaches_of_ext_back {s1 s2 : TTaskScheduler α} (h : Ext s1 s2) {x y : Nat}
    (hr : Reaches s2 x y) : Reaches s1 x y := by
  induction hr with
  | refl x => exact Reaches.refl x
  | step t2 ht2 hj _ ih =>
    obtain ⟨t, ht, hk⟩ := ext_kind_back h ht2
    exact Reaches.step t ht (by rw [hk]; exact hj) ih

theorem resolveAll_closure (ord : ArgOrder) (n : Nat) (i : Nat)
    (ih : ∀ (s : TTaskScheduler α) (x : Nat), ¬ Reaches s x i →
      (getResult ord n s x).sched.slot i = s.slot i ∧
        ∀ e ∈ (getResult ord n s x).calls, e.task ≠ i)
    (s0 : TTaskScheduler α) (as : List (DeferredArgument α)) :
    (∀ f, DeferredArgument.futureValue f ∈ as → ¬ Reaches s0 f.taskId i) →
    ∀ s, Ext s0 s →
      (resolveAll (getResult ord n) s as).sched.slot i = s.slot i ∧
      ∀ e ∈ (resolveAll (getResult ord n) s as).calls, e.task ≠ i := by
  induction as with
  | nil =>
    intro _ s _
    exact ⟨rfl, fun e he => by simp [resolveAll] at he⟩
  | cons a rest iha =>
    intro hrefs s hext
    have h1 : (a.resolve (getResult ord n) s).sched.slot i = s.slot i ∧
        ∀ e ∈ (a.resolve (getResult ord n) s).calls, e.task ≠ i := by
      cases a with
      | value v => exact ⟨rfl, fun e he => by simp [DeferredArgument.resolve] at he⟩
      | futureValue f =>
        exact ih s f.taskId
          (fun hr => hrefs f (List.mem_cons_self _ _) (reaches_of_ext_back hext hr))
    have hext1 : Ext s0 (a.resolve (getResult ord n) s).sched :=
      hext.trans (resolve_ext _ (getResult_ext ord n) s a)
    have h2 := iha (fun f hf => hrefs f (List.mem_cons_of_mem _ hf)) _ hext1
    simp only [resolveAll]
    rcases andThen_sched (a.resolve (getResult ord n) s)
      (fun v s1 => (resolveAll (getResult ord n) s1 rest).andThen
        fun vs s2 => (⟨.ok (v :: vs), s2, []⟩ : Step α (List α))) with ⟨e, _, h⟩ | ⟨v, _, h⟩
    · rw [h]; exact h1
    · rw [h]
      simp only [(andThen_pure _ _).1, (andThen_pure _ _).2]
      refine ⟨h2.1.trans h1.1, fun e he => ?_⟩
      rcases List.mem_append.mp he with he | he
      · exact h1.2 e he
      · exact h2.2 e he

/-- `getResult(x)` neither touches nor invokes a task outside the dependency
closure of `x`. -/
theorem getResult_closure (ord : ArgOrder) (n : Nat) (i : Nat) :
    ∀ (s : TTaskScheduler α) (x : Nat), ¬ Reaches s x i →
      (getResult ord n s x).sched.slot i = s.slot i ∧
        ∀ e ∈ (getResult ord n s x).calls, e.task ≠ i := by
  induction n with
  | zero =>
    intro s x _
    exact ⟨rfl, fun e he => by simp [getResult] at he⟩
  | succ n ih =>
    intro s x hnr
    rcases hs : s.slot x with _ | _ | t
    · rw [getResult_succ_of_range ord n s x hs]
      exact ⟨rfl, fun e he => by simp at he⟩
    · rw [getResult_succ_of_null ord n s x hs]
      exact ⟨rfl, fun e he => by simp at he⟩
    · cases hx : t.isExecuted with
      | true =>
        have h := getResult_of_executed ord (n + 1) s x ⟨t, hs, hx⟩
        exact ⟨by rw [h.1], fun e he => by rw [h.2] at he; simp at he⟩
      | false =>
        have hix : i ≠ x := fun h => hnr (h ▸ Reaches.refl i)
        have hra := resolveAll_closure ord n i ih s (t.kind.args ord)
          (fun f hf hr => hnr (Reaches.step t hs (mem_references_of_mem_args ord t.kind f hf) hr))
          s (Ext.refl s)
        rcases getResult_pending_cases ord n s x t hs hx with
          ⟨e, _, h⟩ | ⟨vs, _, _, h⟩ | ⟨vs, r, _, _, h⟩
        · rw [h]; exact hra
        · rw [h]
          refine ⟨hra.1, fun e he => ?_⟩
          rcases List.mem_append.mp he with he | he
          · exact hra.2 e he
          · rw [List.mem_singleton.mp he]
            exact fun h => hix h.symm
        · rw [h]
          refine ⟨?_, fun e he => ?_⟩
          · simp only
            rw [slot_set_ne _ hix]
            exact hra.1
          · rcases List.mem_append.mp he with he | he
            · exact hra.2 e he
            · rw [List.mem_singleton.mp he]
              exact fun h => hix h.symm

theorem reaches_of_null {s : TTaskScheduler α} {x y : Nat} (hr : Reaches s x y)
    (hx : s.slot x = some none) : y = x := by
  cases hr with
  | refl => rfl
  | step t ht _ _ =>
    rw [hx] at ht
    cases ht

/-- With `RefsDone`, everything reached from a finished task is finished. -/
theorem done_of_reaches {s : TTaskScheduler α} (hrd : RefsDone s) {x y : Nat}
    (hr : Reaches s x y) : Done s x → Done s y := by
  induction hr with
  | refl x => exact fun h => h
  | step t ht hj _ ih =>
    intro hd
    rcases hd with hd | ⟨t1, ht1, hx1⟩
    · rw [hd] at ht
      cases ht
    · rw [ht] at ht1
      cases ht1
      exact ih (hrd _ t ht hx1 _ hj)

end Closure

/-! ## References of executed tasks are executed, in every reachable state -/

section RefsDoneInv

variable {α : Type}

theorem refsDone_fresh : RefsDone (TTaskScheduler.fresh : TTaskScheduler α) := by
  intro i t ht
  simp [TTaskScheduler.fresh, TTaskScheduler.slot] at ht

theorem slot_push_executed (s : TTaskScheduler α) (k : TaskKind α) (n i : Nat)
    (t : BaseTask α)
    (ht : (⟨s.taskList ++ [some ⟨k, false, none⟩], n⟩ : TTaskScheduler α).slot i
      = some (some t))
    (hx : t.isExecuted = true) : s.slot i = some (some t) := by
  have hlt : i < s.taskList.length := by
    by_contra hge
    unfold TTaskScheduler.slot at ht
    rw [List.getElem?_append_right (Nat.le_of_not_lt hge)] at ht
    cases hsub : i - s.taskList.length with
    | zero =>
      rw [hsub] at ht
      simp at ht
      subst ht
      cases hx
    | succ m =>
      rw [hsub] at ht
      simp at ht
  rw [slot_push_lt s.taskList (some ⟨k, false, none⟩) n i hlt] at ht
  exact ht

theorem refsDone_push (s : TTaskScheduler α) (k : TaskKind α) (n : Nat) (h : RefsDone s) :
    RefsDone (⟨s.taskList ++ [some ⟨k, false, none⟩], n⟩ : TTaskScheduler α) := by
  intro i t ht hx j hj
  exact done_push _ _ (h i t (slot_push_executed s k n i t ht hx) hx j hj)

theorem refsDone_reset (s : TTaskScheduler α) (id : Nat) (hh : hasTask s id = true)
    (h : RefsDone s) :
    RefsDone ({ s with taskList := s.taskList.set id none } : TTaskScheduler α) := by
  have hlt : id < s.taskList.length := by
    obtain ⟨t, ht⟩ := hasTask_iff.mp hh
    exact slot_lt ht
  intro i t ht hx j hj
  have hi : i ≠ id := by
    intro h
    subst h
    rw [slot_set_self none hlt] at ht
    cases ht
  rw [slot_set_ne none hi] at ht
  exact done_reset id (h i t ht hx j hj)

theorem refsDone_set (s1 : TTaskScheduler α) (x : Nat) (t : BaseTask α) (r : α)
    (h : RefsDone s1) (ht : s1.slot x = some (some t)) (hp : t.isExecuted = false)
    (hrefs : ∀ j ∈ t.kind.references, Executed s1 j) :
    RefsDone ({ s1 with taskList := s1.taskList.set x (some ⟨t.kind, true, some r⟩) } :
      TTaskScheduler α) := by
  have hlt : x < s1.taskList.length := slot_lt ht
  have hext := finish_ext t s1 s1 x (some r) (Ext.refl s1) ht hp
  simp only [BaseTask.finish] at hext
  intro i ti hti hxi j hj
  by_cases hi : i = x
  · rw [hi, slot_set_self _ hlt] at hti
    cases hti
    exact Or.inr (hext.executed_of (hrefs j hj))
  · rw [slot_set_ne _ hi] at hti
    exact hext.done (h i ti hti hxi j hj)

theorem resolveAll_ok_executed (ord : ArgOrder) (n : Nat) (s : TTaskScheduler α)
    (k : TaskKind α) (vs : List α)
    (ho : (resolveAll (getResult ord n) s (k.args ord)).outcome = .ok vs) :
    ∀ j ∈ k.references, Executed (resolveAll (getResult ord n) s (k.args ord)).sched j := by
  intro j hj
  have hmem := mem_args_of_mem_references ord k j hj
  obtain ⟨v, _, hv⟩ := forall₂_mem_left hmem (resolveAll_cachedValue ord n (k.args ord) s vs ho)
  obtain ⟨tj, htj, hxj, _⟩ := cachedValue_future hv
  exact ⟨tj, htj, hxj⟩

theorem refsDone_resolveAll (getRes : TTaskScheduler α → Nat → Step α α)
    (hg : ∀ s j, RefsDone s → RefsDone (getRes s j).sched) (as : List (DeferredArgument α)) :
    ∀ s, RefsDone s → RefsDone (resolveAll getRes s as).sched := by
  induction as with
  | nil => intro s hc; exact hc
  | cons a rest ih =>
    intro s hc
    have h1 : RefsDone (a.resolve getRes s).sched := by
      cases a with
      | value u => exact hc
      | futureValue f => exact hg s f.taskId hc
    simp only [resolveAll]
    rcases andThen_sched (a.resolve getRes s)
      (fun v s1 => (resolveAll getRes s1 rest).andThen
        fun vs s2 => (⟨.ok (v :: vs), s2, []⟩ : Step α (List α))) with ⟨e, _, h⟩ | ⟨v, _, h⟩
    · rw [h]; exact h1
    · rw [h]
      simp only [(andThen_pure _ _).1]
      exact ih _ h1

theorem refsDone_getResult (ord : ArgOrder) (n : Nat) :
    ∀ (s : TTaskScheduler α) (x : Nat), RefsDone s → RefsDone (getResult ord n s x).sched := by
  induction n with
  | zero => intro s x hc; exact hc
  | succ n ih =>
    intro s x hc
    rcases hs : s.slot x with _ | _ | t
    · rw [getResult_succ_of_range ord n s x hs]; exact hc
    · rw [getResult_succ_of_null ord n s x hs]; exact hc
    · cases hx : t.isExecuted with
      | true =>
        rw [(getResult_of_executed ord (n + 1) s x ⟨t, hs, hx⟩).1]
        exact hc
      | false =>
        have hra := refsDone_resolveAll (getResult ord n) ih (t.kind.args ord) s hc
        have hself := resolveAll_self ord n s x t hs hx
        rcases getResult_pending_cases ord n s x t hs hx with
          ⟨e, _, h⟩ | ⟨vs, _, _, h⟩ | ⟨vs, r, ho, _, h⟩
        · rw [h]; exact hra
        · rw [h]; exact hra
        · rw [h]
          exact refsDone_set _ x t r hra hself.1 hx (resolveAll_ok_executed ord n s t.kind vs ho)

theorem refsDone_executeAllBody (ord : ArgOrder) (fuel : Nat) (s : TTaskScheduler α) (i : Nat)
    (hc : RefsDone s) : RefsDone (executeAllBody ord fuel s i).sched := by
  by_cases h : Pending s i
  · obtain ⟨t, ht, hp⟩ := h
    rw [(executeAllBody_of_pending ord fuel s i t ht hp).1]
    exact refsDone_getResult ord (fuel + 1) s i hc
  · rw [executeAllBody_of_not_pending ord fuel s i h]
    exact hc

theorem refsDone_executeAllLoop (ord : ArgOrder) (fuel : Nat) (is : List Nat) :
    ∀ (s : TTaskScheduler α), RefsDone s → RefsDone (executeAllLoop ord fuel is s).sched := by
  induction is with
  | nil => intro s hc; exact hc
  | cons i rest ih =>
    intro s hc
    simp only [executeAllLoop]
    rcases andThen_sched (executeAllBody ord fuel s i)
      (fun _ s1 => executeAllLoop ord fuel rest s1) with ⟨e, _, h⟩ | ⟨v, _, h⟩
    · rw [h]; exact refsDone_executeAllBody ord fuel s i hc
    · rw [h]; exact ih _ (refsDone_executeAllBody ord fuel s i hc)

theorem refsDone_runOp (ord : ArgOrder) (fuel : Nat) (s : TTaskScheduler α) (op : Op α)
    (hc : RefsDone s) : RefsDone (runOp ord fuel s op).2.1 := by
  by_cases hadd : op.isAdd = true
  · obtain ⟨k, hk⟩ := runOp_add_eq ord fuel s op hadd
    rw [hk]
    exact refsDone_push s k _ hc
  · cases op with
    | add f => simp [Op.isAdd] at hadd
    | addOneArg f a => simp [Op.isAdd] at hadd
    | addTwoArgs f a b => simp [Op.isAdd] at hadd
    | addMethod m o a => simp [Op.isAdd] at hadd
    | addMethodOnFuture m o a => simp [Op.isAdd] at hadd
    | getFutureResult id => exact hc
    | getResult id =>
      simp only [runOp, (ofGetResult_cases (getResult ord fuel s id)).1]
      exact refsDone_getResult ord fuel s id hc
    | executeAll =>
      simp only [runOp, (ofExecuteAll_cases (α := α) (executeAll ord fuel s)).1]
      exact refsDone_executeAllLoop ord fuel _ s hc
    | removeTask id =>
      rcases runOp_removeTask ord fuel s id with ⟨hh, h⟩ | ⟨_, h⟩
      · rw [h]
        exact refsDone_reset s id hh hc
      · rw [h]
        exact hc
    | hasTask id => exact hc
    | clear => exact refsDone_fresh

/-- In every state a client can reach, the tasks referenced by an executed
task are executed or removed. -/
theorem refsDone_runOps (ord : ArgOrder) (fuel : Nat) (ops : List (Op α)) :
    RefsDone (runOps ord fuel ops (Run.start : Run α)).sched :=
  runOps_invariant ord fuel (fun _ => True) (fun r => RefsDone r.sched)
    (fun r op _ h => refsDone_runOp ord fuel r.sched op h) ops _ (fun _ _ => trivial)
    refsDone_fresh

end RefsDoneInv

/-! ## The invocation log of one call, continued: completeness and failures -/

section LogMoreFacts

variable {α : Type}

theorem logMore_nil (s : TTaskScheduler α) (threw : Prop) (h : ¬ threw) :
    LogMore s s threw [] :=
  ⟨fun _ hp hx => absurd hp (fun hp => not_pending_of_executed hx hp),
    fun _ e he => by simp at he, fun ht => absurd ht h⟩

theorem logMore_congr {s s2 : TTaskScheduler α} {p q : Prop} {c : List Call} (hpq : p ↔ q)
    (h : LogMore s s2 p c) : LogMore s s2 q c :=
  ⟨h.complete, fun hq => h.clean (fun hp => hq (hpq.mp hp)), fun hq => h.failed (hpq.mpr hq)⟩

theorem logMore_append {s s1 s2 : TTaskScheduler α} {p q : Prop} {c1 c2 : List Call}
    (h01 : Ext s s1) (h1 : LogMore s s1 p c1) (hp : ¬ p) (h2 : LogMore s1 s2 q c2) :
    LogMore s s2 q (c1 ++ c2) := by
  refine ⟨fun i hpi hxi => ?_, fun hq e he => ?_, fun hq => ?_⟩
  · by_cases hx1 : Executed s1 i
    · exact List.mem_append_left _ (h1.complete i hpi hx1)
    · have hp1 : Pending s1 i := by
        obtain ⟨t, ht, hpt⟩ := hpi
        rcases h01.slots i with hs | ⟨t1, r, ht1, _, h2s⟩
        · exact ⟨t, hs.trans ht, hpt⟩
        · exact absurd ⟨_, h2s, rfl⟩ hx1
      exact List.mem_append_right _ (h2.complete i hp1 hxi)
  · rcases List.mem_append.mp he with he | he
    · exact h1.clean hp e he
    · exact h2.clean hq e he
  · obtain ⟨l, D, hc, hl, hD⟩ := h2.failed hq
    refine ⟨c1 ++ l, D, by rw [hc, List.append_assoc], fun e he => ?_, hD⟩
    rcases List.mem_append.mp he with he | he
    · exact h1.clean hp e he
    · exact hl e he

theorem getResult_of_executed_outcome (ord : ArgOrder) (n : Nat) (s : TTaskScheduler α)
    (j : Nat) (h : Executed s j) :
    (getResult ord n s j).outcome ≠ .error .callableThrew := by
  obtain ⟨t, ht, hx⟩ := h
  cases n with
  | zero => simp [getResult]
  | succ m =>
    rw [getResult_succ_of_task ord m s j t ht]
    simp only [hx, Bool.not_true, Bool.false_eq_true, if_false, Step.andThen, readResult, ht]
    cases t.result <;> simp

theorem resolveAll_logMore (getRes : TTaskScheduler α → Nat → Step α α)
    (hg : ∀ s j, Ext s (getRes s j).sched)
    (hl : ∀ s j, LogMore s (getRes s j).sched ((getRes s j).outcome = .error .callableThrew)
      (getRes s j).calls)
    (as : List (DeferredArgument α)) :
    ∀ s, LogMore s (resolveAll getRes s as).sched
      ((resolveAll getRes s as).outcome = .error .callableThrew)
      (resolveAll getRes s as).calls := by
  induction as with
  | nil =>
    intro s
    exact logMore_nil s _ (by simp [resolveAll])
  | cons a rest ih =>
    intro s
    have h1 : LogMore s (a.resolve getRes s).sched
        ((a.resolve getRes s).outcome = .error .callableThrew) (a.resolve getRes s).calls := by
      cases a with
      | value v => exact logMore_nil s _ (by simp [DeferredArgument.resolve])
      | futureValue f => exact hl s f.taskId
    have hext1 := resolve_ext getRes hg s a
    simp only [resolveAll]
    cases ho : (a.resolve getRes s).outcome with
    | error e =>
      simp only [Step.andThen, ho]
      exact logMore_congr (by rw [ho]; try simp) h1
    | ok v =>
      have h2 := ih (a.resolve getRes s).sched
      cases ho2 : (resolveAll getRes (a.resolve getRes s).sched rest).outcome with
      | error e =>
        simp only [Step.andThen, ho, ho2]
        exact logMore_append hext1 h1 (by rw [ho]; try simp) (logMore_congr (by rw [ho2]; try simp) h2)
      | ok vs =>
        simp only [Step.andThen, ho, ho2, List.append_nil]
        exact logMore_append hext1 h1 (by rw [ho]; try simp) (logMore_congr (by rw [ho2]; try simp) h2)

theorem getResult_logMore (ord : ArgOrder) (n : Nat) :
    ∀ (s : TTaskScheduler α) (x : Nat),
      LogMore s (getResult ord n s x).sched
        ((getResult ord n s x).outcome = .error .callableThrew) (getResult ord n s x).calls := by
  induction n with
  | zero => intro s x; exact logMore_nil s _ (by simp [getResult])
  | succ n ih =>
    intro s x
    rcases hs : s.slot x with _ | _ | t
    · rw [getResult_succ_of_range ord n s x hs]; exact logMore_nil s _ (by simp)
    · rw [getResult_succ_of_null ord n s x hs]; exact logMore_nil s _ (by simp)
    · cases hx : t.isExecuted with
      | true =>
        have h := getResult_of_executed ord (n + 1) s x ⟨t, hs, hx⟩
        rw [h.1, h.2]
        exact logMore_nil s _ (getResult_of_executed_outcome ord (n + 1) s x ⟨t, hs, hx⟩)
      | false =>
        have hra := resolveAll_logMore (getResult ord n) (getResult_ext ord n) ih
          (t.kind.args ord) s
        have hext := resolveAll_ext (getResult ord n) (getResult_ext ord n) (t.kind.args ord) s
        have hself := resolveAll_self ord n s x t hs hx
        rcases getResult_pending_cases ord n s x t hs hx with
          ⟨e, ho, h⟩ | ⟨vs, ho, _, h⟩ | ⟨vs, r, ho, _, h⟩
        · rw [h]
          exact logMore_congr (by rw [ho]; try simp) hra
        · rw [h]
          have hclean := hra.clean (by rw [ho]; try simp)
          refine ⟨fun i hpi hxi => List.mem_append_left _ (hra.complete i hpi hxi),
            fun hq => absurd rfl hq, fun _ => ⟨_, x, rfl, hclean, ⟨t, hself.1, hx⟩⟩⟩
        · rw [h]
          have hclean := hra.clean (by rw [ho]; try simp)
          refine ⟨fun i hpi hxi => ?_, fun _ e he => ?_, fun hq => by simp at hq⟩
          · by_cases hi : i = x
            · rw [hi]; simp
            · obtain ⟨ti, hti, hxti⟩ := hxi
              simp only at hti
              rw [slot_set_ne _ hi] at hti
              exact List.mem_append_left _ (hra.complete i hpi ⟨ti, hti, hxti⟩)
          · rcases List.mem_append.mp he with he | he
            · exact hclean e he
            · rw [List.mem_singleton.mp he]

theorem executeAllBody_logMore (ord : ArgOrder) (fuel : Nat) (s : TTaskScheduler α) (i : Nat) :
    LogMore s (executeAllBody ord fuel s i).sched
      ((executeAllBody ord fuel s i).outcome = .error .callableThrew)
      (executeAllBody ord fuel s i).calls := by
  by_cases h : Pending s i
  · obtain ⟨t, ht, hp⟩ := h
    have hb := executeAllBody_of_pending ord fuel s i t ht hp
    rw [hb.1, hb.2.1]
    exact logMore_congr (hb.2.2.2 _).symm (getResult_logMore ord (fuel + 1) s i)
  · rw [executeAllBody_of_not_pending ord fuel s i h]
    exact logMore_nil s _ (by simp)

theorem executeAllLoop_logMore (ord : ArgOrder) (fuel : Nat) (is : List Nat) :
    ∀ (s : TTaskScheduler α),
      LogMore s (executeAllLoop ord fuel is s).sched
        ((executeAllLoop ord fuel is s).outcome = .error .callableThrew)
        (executeAllLoop ord fuel is s).calls := by
  induction is with
  | nil => intro s; exact logMore_nil s _ (by simp [executeAllLoop])
  | cons i rest ih =>
    intro s
    have h1 := executeAllBody_logMore ord fuel s i
    simp only [executeAllLoop]
    cases ho : (executeAllBody ord fuel s i).outcome with
    | error e =>
      simp only [Step.andThen, ho]
      exact logMore_congr (by rw [ho]) h1
    | ok v =>
      simp only [Step.andThen, ho]
      exact logMore_append (executeAllBody_ext ord fuel s i) h1 (by rw [ho]; try simp) (ih _)

theorem executeAll_logMore (ord : ArgOrder) (fuel : Nat) (s : TTaskScheduler α) :
    LogMore s (executeAll ord fuel s).sched
      ((executeAll ord fuel s).outcome = .error .callableThrew) (executeAll ord fuel s).calls :=
  executeAllLoop_logMore ord fuel _ s

end LogMoreFacts

/-! ## Laziness: only the closure is executed; a failing dependency -/

section Lazy

variable {α : Type}

theorem reaches_hasTask {s : TTaskScheduler α} (hval : ValidRefs s) {x y : Nat}
    (hr : Reaches s x y) : y = x ∨ hasTask s y = true := by
  induction hr with
  | refl x => exact Or.inl rfl
  | step t ht hj _ ih =>
    rcases ih with h | h
    · rw [h]
      exact Or.inr (hval _ t _ ht hj)
    · exact Or.inr h

theorem executed_of_done_hasTask {s : TTaskScheduler α} {y : Nat} (hd : Done s y)
    (hh : hasTask s y = true) : Executed s y := by
  rcases hd with hd | hd
  · obtain ⟨t, ht⟩ := hasTask_iff.mp hh
    rw [hd] at ht
    cases ht
  · exact hd

/-- After a `getResult(x)` that returned a value in a state with valid
references, every task of the closure of `x` is executed. -/
theorem closure_executed_of_ok (ord : ArgOrder) (fuel : Nat) (s : TTaskScheduler α) (x : Nat)
    (hrd : RefsDone s) (hval : ValidRefs s) (v : α)
    (ho : (getResult ord fuel s x).outcome = .ok v) (y : Nat) (hr : Reaches s x y) :
    Executed (getResult ord fuel s x).sched y := by
  have hext := getResult_ext ord fuel s x
  obtain ⟨t, ht, hx, _⟩ := getResult_ok_cached ord fuel s x v ho
  have hd := done_of_reaches (refsDone_getResult ord fuel s x hrd) (reaches_of_ext hext hr)
    (Or.inr ⟨t, ht, hx⟩)
  rcases reaches_hasTask hval hr with h | h
  · rw [h]
    exact ⟨t, ht, hx⟩
  · exact executed_of_done_hasTask hd (by rw [hext.hasTask]; exact h)

/-- C18 as stated fails: the single task of `throwingTask` (acyclic graph, no
reference at all) is in its own closure, and is not executed after
`getResult(0)`, because its callable throws. -/
theorem closure_not_executed_when_callable_throws :
    Acyclic throwingTask ∧ ValidRefs throwingTask ∧ Reaches throwingTask 0 0 ∧
    ∀ (ord : ArgOrder) (fuel : Nat), ¬ Executed (getResult ord fuel throwingTask 0).sched 0 := by
  have hslot : ∀ i t, throwingTask.slot i = some (some t) → t.kind.references = [] := by
    intro i t hi
    rcases i with _ | i <;>
      simp [TTaskScheduler.slot, throwingTask, add, addTask, TTaskScheduler.fresh] at hi
    subst hi
    rfl
  refine ⟨⟨fun i => i, fun i t j hi hj => ?_⟩, fun i t j hi hj => ?_, Reaches.refl 0, ?_⟩
  · rw [hslot i t hi] at hj
    simp at hj
  · rw [hslot i t hi] at hj
    simp at hj
  · intro ord fuel
    have hs : (getResult ord fuel throwingTask 0).sched = throwingTask := by
      cases fuel <;> rfl
    rw [hs]
    rintro ⟨t, ht, hx⟩
    simp [TTaskScheduler.slot, throwingTask, add, addTask, TTaskScheduler.fresh] at ht
    subst ht
    cases hx

/-- C18 (amended): in every state reached from a fresh scheduler with an
acyclic graph and valid references, `getResult(id)` leaves every task outside
the dependency closure of `id` untouched and does not invoke it; when the
call returns a value, every task of the closure is executed afterwards; and
the call does return a value, for every sufficient recursion bound, when no
callable fails. -/
theorem getResult_executes_only_closure (ord : ArgOrder) (fuelR : Nat) (ops : List (Op α))
    (id : Nat)
    (hacy : Acyclic (runOps ord fuelR ops Run.start).sched)
    (hval : ValidRefs (runOps ord fuelR ops Run.start).sched) :
    (∀ fuel i, ¬ Reaches (runOps ord fuelR ops Run.start).sched id i →
      (getResult ord fuel (runOps ord fuelR ops Run.start).sched id).sched.slot i
        = (runOps ord fuelR ops Run.start).sched.slot i ∧
      ∀ e ∈ (getResult ord fuel (runOps ord fuelR ops Run.start).sched id).calls,
        e.task ≠ i) ∧
    (∀ fuel v, (getResult ord fuel (runOps ord fuelR ops Run.start).sched id).outcome = .ok v →
      ∀ y, Reaches (runOps ord fuelR ops Run.start).sched id y →
        Executed (getResult ord fuel (runOps ord fuelR ops Run.start).sched id).sched y) ∧
    (NoFail (runOps ord fuelR ops Run.start).sched →
      hasTask (runOps ord fuelR ops Run.start).sched id = true →
      ∃ fuel0, ∀ fuel, fuel0 ≤ fuel →
        ∃ v, (getResult ord fuel (runOps ord fuelR ops Run.start).sched id).outcome = .ok v) := by
  refine ⟨fun fuel i hnr => getResult_closure ord fuel i _ id hnr,
    fun fuel v ho y hr =>
      closure_executed_of_ok ord fuel _ id (refsDone_runOps ord fuelR ops) hval v ho y hr,
    fun hnf hh => ?_⟩
  obtain ⟨t, ht⟩ := hasTask_iff.mp hh
  obtain ⟨fuel0, h0⟩ := getResult_value_of_coherent ord _ id t hacy hval hnf
    (coherent_runOps ord fuelR ops) ht
  exact ⟨fuel0, fun fuel hf => (h0 fuel hf).imp fun _ h => h.1⟩

/-- Witness for C18: on the diamond, demanding the left task (identifier 1)
executes the base and the left task and leaves the right task and the sink
alone. -/
theorem getResult_executes_only_closure_witness :
    (∀ fuel i, ¬ Reaches (runOps .leftToRight 0 diamondOps Run.start).sched 1 i →
      (getResult .leftToRight fuel (runOps .leftToRight 0 diamondOps Run.start).sched 1).sched.slot
          i
        = (runOps .leftToRight 0 diamondOps Run.start).sched.slot i ∧
      ∀ e ∈ (getResult .leftToRight fuel
          (runOps .leftToRight 0 diamondOps Run.start).sched 1).calls,
        e.task ≠ i) ∧
    (∀ fuel v, (getResult .leftToRight fuel
        (runOps .leftToRight 0 diamondOps Run.start).sched 1).outcome = .ok v →
      ∀ y, Reaches (runOps .leftToRight 0 diamondOps Run.start).sched 1 y →
        Executed (getResult .leftToRight fuel
          (runOps .leftToRight 0 diamondOps Run.start).sched 1).sched y) ∧
    (NoFail (runOps .leftToRight 0 diamondOps Run.start).sched →
      hasTask (runOps .leftToRight 0 diamondOps Run.start).sched 1 = true →
      ∃ fuel0, ∀ fuel, fuel0 ≤ fuel →
        ∃ v, (getResult .leftToRight fuel
          (runOps .leftToRight 0 diamondOps Run.start).sched 1).outcome = .ok v) :=
  getResult_executes_only_closure .leftToRight 0 diamondOps 1 diamond_acyclic diamond_validRefs

/-- What a callable failure inside a call implies, from the facts about its
log. -/
theorem failure_facts {s s2 : TTaskScheduler α} {threw : Prop} {c : List Call} (hext : Ext s s2)
    (hlog : LogOK s s2 c) (hmore : LogMore s s2 threw c) (hrd : RefsDone s2) (D : Nat)
    (hD : (⟨D, false⟩ : Call) ∈ c) :
    threw ∧
    (∃ t, s.slot D = some (some t) ∧ t.isExecuted = false ∧ s2.slot D = some (some t)) ∧
    (∀ X, Reaches s X D → X ≠ D →
      (∃ t, s.slot X = some (some t) ∧ t.isExecuted = false ∧ s2.slot X = some (some t)) ∧
      ∀ e ∈ c, e.task ≠ X) ∧
    (∀ e ∈ c, e.returned = true →
      ∃ t v, s2.slot e.task = some (some t) ∧ t.isExecuted = true ∧ t.result = some v) ∧
    (∀ i t, s.slot i = some (some t) → t.isExecuted = true → s2.slot i = some (some t)) := by
  have hthrew : threw := by
    by_contra hn
    have := hmore.clean hn _ hD
    cases this
  obtain ⟨l, D2, hc, hl, hpD⟩ := hmore.failed hthrew
  have hfalse : ∀ e ∈ c, e.returned = false → e = ⟨D2, false⟩ := by
    intro e he hr
    rw [hc] at he
    rcases List.mem_append.mp he with he | he
    · rw [hl e he] at hr
      cases hr
    · exact List.mem_singleton.mp he
  have hDD : D2 = D := by
    have := hfalse _ hD rfl
    cases this
    rfl
  subst hDD
  have hkeep : ∀ X, Pending s2 X →
      ∃ t, s.slot X = some (some t) ∧ t.isExecuted = false ∧ s2.slot X = some (some t) := by
    intro X hp
    obtain ⟨t, ht, hpt⟩ := hp
    rcases hext.slots X with h1 | ⟨t1, r, _, _, h2⟩
    · exact ⟨t, h1.symm.trans ht, hpt, ht⟩
    · rw [h2] at ht
      cases ht
      cases hpt
  refine ⟨hthrew, hkeep D2 hpD, fun X hr hne => ?_, fun e he hr => ?_,
    fun i t ht hx => hext.executed ht hx⟩
  · have hstored : ∃ t, s.slot X = some (some t) := by
      cases hr with
      | refl => exact absurd rfl hne
      | step t ht _ _ => exact ⟨t, ht⟩
    obtain ⟨t2, ht2, _⟩ := hext.kind hstored.choose_spec
    have hnx : ¬ Executed s2 X := by
      intro hx
      exact not_pending_of_done (done_of_reaches hrd (reaches_of_ext hext hr) (Or.inr hx)) hpD
    have hp2 : Pending s2 X := by
      refine ⟨t2, ht2, ?_⟩
      cases hx2 : t2.isExecuted with
      | false => rfl
      | true => exact absurd ⟨t2, ht2, hx2⟩ hnx
    refine ⟨hkeep X hp2, fun e he heq => ?_⟩
    cases hr2 : e.returned with
    | true =>
      have := hlog.executed e he hr2
      rw [heq] at this
      exact hnx this
    | false =>
      have := hfalse e he hr2
      rw [this] at heq
      exact hne heq.symm
  · have hx := hlog.executed e he hr
    have hp := hlog.pending e he
    obtain ⟨t, ht, hpt⟩ := hp
    rcases hext.slots e.task with h1 | ⟨t1, r, ht1, _, h2⟩
    · obtain ⟨t3, ht3, hx3⟩ := hx
      rw [h1, ht] at ht3
      cases ht3
      rw [hpt] at hx3
      cases hx3
    · exact ⟨_, r, h2, rfl, rfl⟩

/-- C19: in every state reached from a fresh scheduler, if the callable of a
task `D` throws during a `getResult(id)` or an `executeAll()`, the call ends
with that exception; `D` was pending and is left exactly as it was; every
task that references `D`, directly or transitively, was pending, is left
exactly as it was and is not invoked (for `getResult(id)` with `id` other
than `D`, `id` is such a task); the tasks whose callables returned during the
call are executed and hold their results, and the tasks executed before the
call are unchanged. -/
theorem dependency_failure_propagates (ord : ArgOrder) (fuelR : Nat) (ops : List (Op α))
    (fuel : Nat) (op : Op α) (D : Nat)
    (hop : (∃ id, op = .getResult id) ∨ op = .executeAll)
    (hD : (⟨D, false⟩ : Call) ∈ (runOp ord fuel (runOps ord fuelR ops Run.start).sched op).2.2) :
    (runOp ord fuel (runOps ord fuelR ops Run.start).sched op).1 = .failed .callableThrew ∧
    (∃ t, (runOps ord fuelR ops Run.start).sched.slot D = some (some t) ∧
      t.isExecuted = false ∧
      (runOp ord fuel (runOps ord fuelR ops Run.start).sched op).2.1.slot D = some (some t)) ∧
    (∀ X, Reaches (runOps ord fuelR ops Run.start).sched X D → X ≠ D →
      (∃ t, (runOps ord fuelR ops Run.start).sched.slot X = some (some t) ∧
        t.isExecuted = false ∧
        (runOp ord fuel (runOps ord fuelR ops Run.start).sched op).2.1.slot X
          = some (some t)) ∧
      ∀ e ∈ (runOp ord fuel (runOps ord fuelR ops Run.start).sched op).2.2, e.task ≠ X) ∧
    (∀ id, op = .getResult id → Reaches (runOps ord fuelR ops Run.start).sched id D) ∧
    (∀ e ∈ (runOp ord fuel (runOps ord fuelR ops Run.start).sched op).2.2, e.returned = true →
      ∃ t v, (runOp ord fuel (runOps ord fuelR ops Run.start).sched op).2.1.slot e.task
          = some (some t) ∧ t.isExecuted = true ∧ t.result = some v) ∧
    (∀ i t, (runOps ord fuelR ops Run.start).sched.slot i = some (some t) →
      t.isExecuted = true →
      (runOp ord fuel (runOps ord fuelR ops Run.start).sched op).2.1.slot i = some (some t)) := by
  have hrd := refsDone_runOps ord fuelR ops (α := α)
  generalize (runOps ord fuelR ops Run.start).sched = s at hD hrd ⊢
  rcases hop with ⟨id, rfl⟩ | rfl
  · have hc := ofGetResult_cases (getResult ord fuel s id)
    simp only [runOp, hc.1, hc.2.1] at hD ⊢
    obtain ⟨h1, h2, h3, h4, h5⟩ := failure_facts (getResult_ext ord fuel s id)
      (getResult_log ord fuel s id) (getResult_logMore ord fuel s id)
      (refsDone_getResult ord fuel s id hrd) D hD
    refine ⟨by simp [ofGetResult, h1], h2, h3, fun id2 hid => ?_, h4, h5⟩
    cases hid
    by_contra hnr
    exact (getResult_closure ord fuel D s id hnr).2 _ hD rfl
  · have hc := ofExecuteAll_cases (α := α) (executeAll ord fuel s)
    simp only [runOp, hc.1, hc.2.1] at hD ⊢
    obtain ⟨h1, h2, h3, h4, h5⟩ := failure_facts (executeAll_ext ord fuel s)
      (executeAll_log ord fuel s) (executeAll_logMore ord fuel s)
      (refsDone_executeAllLoop ord fuel _ s hrd) D hD
    refine ⟨by simp [ofExecuteAll, h1], h2, h3, fun id2 hid => ?_, h4, h5⟩
    cases hid

end Lazy

section LazyWitness

/-- Witness for C19: a constant, a task whose callable throws and their sum
are registered; demanding the sum computes the constant, then the second
dependency throws. -/
theorem dependency_failure_propagates_witness :
    (⟨1, false⟩ : Call) ∈ (runOp .leftToRight 2
      (runOps .leftToRight 0 failingDependencyOps Run.start).sched (.getResult 2)).2.2 ∧
    (runOp .leftToRight 2 (runOps .leftToRight 0 failingDependencyOps Run.start).sched
      (.getResult 2)).1 = .failed .callableThrew ∧
    (∀ e ∈ (runOp .leftToRight 2 (runOps .leftToRight 0 failingDependencyOps Run.start).sched
      (.getResult 2)).2.2, e.task ≠ 2) :=
  ⟨by decide,
    (dependency_failure_propagates .leftToRight 0 failingDependencyOps 2 (.getResult 2) 1
      (Or.inl ⟨2, rfl⟩) (by decide)).1,
    ((dependency_failure_propagates .leftToRight 0 failingDependencyOps 2 (.getResult 2) 1
      (Or.inl ⟨2, rfl⟩) (by decide)).2.2.1 2
      (Reaches.step ⟨.TaskWithTwoArgs (fun x y => some (x + y)) (.futureValue ⟨0⟩)
        (.futureValue ⟨1⟩), false, none⟩ rfl (by simp [TaskKind.references,
          DeferredArgument.reference]) (Reaches.refl 1)) (by decide)).2⟩

end LazyWitness

/-! ## Termination: cycles never return, acyclic graphs always do -/

section Termination

variable {α : Type}

theorem hasResults_of_ext {s1 s2 : TTaskScheduler α} (h : Ext s1 s2) (hr : HasResults s1) :
    HasResults s2 := by
  intro i t ht hx
  rcases h.slots i with h1 | ⟨t1, r, _, _, h2⟩
  · exact hr i t (h1.symm.trans ht) hx
  · rw [h2] at ht
    cases ht
    exact ⟨r, rfl⟩

theorem hasResults_of_coherent {s : TTaskScheduler α} (h : Coherent s) : HasResults s := by
  intro i t ht hx
  obtain ⟨_, r, hr, _⟩ := h i t ht hx
  exact ⟨r, hr⟩

theorem resolveAll_terminates (ord : ArgOrder) (s0 : TTaskScheduler α) (rank : Nat → Nat)
    (n : Nat)
    (ih : ∀ s id, Ext s0 s → HasResults s → hasTask s0 id = true → rank id < n →
      (∃ v, (getResult ord n s id).outcome = .ok v) ∨
        (getResult ord n s id).outcome = .error .callableThrew)
    (as : List (DeferredArgument α)) :
    (∀ f, DeferredArgument.futureValue f ∈ as → hasTask s0 f.taskId = true ∧ rank f.taskId < n) →
    ∀ s, Ext s0 s → HasResults s →
      (∃ vs, (resolveAll (getResult ord n) s as).outcome = .ok vs) ∨
        (resolveAll (getResult ord n) s as).outcome = .error .callableThrew := by
  induction as with
  | nil => intro _ s _ _; exact Or.inl ⟨[], rfl⟩
  | cons a rest iha =>
    intro hrefs s hext hres
    have h1 : (∃ v, (a.resolve (getResult ord n) s).outcome = .ok v) ∨
        (a.resolve (getResult ord n) s).outcome = .error .callableThrew := by
      cases a with
      | value v => exact Or.inl ⟨v, rfl⟩
      | futureValue f =>
        obtain ⟨hh, hr⟩ := hrefs f (List.mem_cons_self _ _)
        exact ih s f.taskId hext hres hh hr
    have hext1 := resolve_ext _ (getResult_ext ord n) s a
    have h2 := iha (fun f hf => hrefs f (List.mem_cons_of_mem _ hf)) _ (hext.trans hext1)
      (hasResults_of_ext hext1 hres)
    simp only [resolveAll]
    rcases h1 with ⟨v, hv⟩ | hv
    · rcases h2 with ⟨vs, hvs⟩ | hvs
      · exact Or.inl ⟨v :: vs, by simp [Step.andThen, hv, hvs]⟩
      · exact Or.inr (by simp [Step.andThen, hv, hvs])
    · exact Or.inr (by simp [Step.andThen, hv])

/-- On an acyclic graph with valid references `getResult` on a stored task,
with fuel above the rank of the task, returns a value or ends with the
exception of a callable. -/
theorem getResult_terminates (ord : ArgOrder) (s0 : TTaskScheduler α) (rank : Nat → Nat)
    (hacy : ∀ i t j, s0.slot i = some (some t) → j ∈ t.kind.references → rank j < rank i)
    (hval : ValidRefs s0) (n : Nat) :
    ∀ s id, Ext s0 s → HasResults s → hasTask s0 id = true → rank id < n →
      (∃ v, (getResult ord n s id).outcome = .ok v) ∨
        (getResult ord n s id).outcome = .error .callableThrew := by
  induction n with
  | zero => intro s id _ _ _ h; omega
  | succ n ih =>
    intro s id hext hres hh hr
    obtain ⟨t, ht⟩ := hasTask_iff.mp hh
    obtain ⟨t2, ht2, hk⟩ := hext.kind ht
    cases hx : t2.isExecuted with
    | true =>
      obtain ⟨v, hv⟩ := hres id t2 ht2 hx
      exact Or.inl ⟨v, by rw [getResult_of_cached ord n s id t2 v ht2 hx hv]⟩
    | false =>
      have hrefs : ∀ f, DeferredArgument.futureValue f ∈ t2.kind.args ord →
          hasTask s0 f.taskId = true ∧ rank f.taskId < n := by
        intro f hf
        rw [hk] at hf
        have hmem := mem_references_of_mem_args ord t.kind f hf
        exact ⟨hval id t f.taskId ht hmem, by have := hacy id t f.taskId ht hmem; omega⟩
      have hra := resolveAll_terminates ord s0 rank n ih (t2.kind.args ord) hrefs s hext hres
      rcases getResult_pending_cases ord n s id t2 ht2 hx with
        ⟨e, ho, hg⟩ | ⟨vs, _, _, hg⟩ | ⟨vs, r, _, _, hg⟩
      · rcases hra with ⟨vs, hvs⟩ | hvs
        · rw [hvs] at ho
          cases ho
        · rw [hvs] at ho
          cases ho
          exact Or.inr (by rw [hg])
      · exact Or.inr (by rw [hg])
      · exact Or.inl ⟨r, by rw [hg]⟩

end Termination

/-! ## `executeAll` -/

section ExecuteAll

variable {α : Type}

theorem rank_bound (rank : Nat → Nat) (n : Nat) : ∃ N, ∀ i, i < n → rank i < N := by
  induction n with
  | zero => exact ⟨0, fun i h => by omega⟩
  | succ n ih =>
    obtain ⟨N, hN⟩ := ih
    refine ⟨max N (rank n + 1), fun i hi => ?_⟩
    by_cases h : i < n
    · have := hN i h
      omega
    · have : i = n := by omega
      subst this
      omega

/-- On an acyclic graph with valid references and callables that do not fail,
the loop of `executeAll`, with enough fuel, succeeds and leaves every stored
task of its list executed. -/
theorem executeAllLoop_ok (ord : ArgOrder) (s0 : TTaskScheduler α) (rank : Nat → Nat)
    (hacy : ∀ i t j, s0.slot i = some (some t) → j ∈ t.kind.references → rank j < rank i)
    (hval : ValidRefs s0) (hnf : NoFail s0) (fuel : Nat)
    (hfuel : ∀ i, hasTask s0 i = true → rank i < fuel + 1) (is : List Nat) :
    ∀ s, Ext s0 s → CacheSound s0 s rank →
      (executeAllLoop ord fuel is s).outcome = .ok () ∧
      CacheSound s0 (executeAllLoop ord fuel is s).sched rank ∧
      ∀ i ∈ is, hasTask s0 i = true → Executed (executeAllLoop ord fuel is s).sched i := by
  induction is with
  | nil =>
    intro s _ hc
    exact ⟨rfl, hc, fun i hi => by simp at hi⟩
  | cons i rest ih =>
    intro s hext hc
    have hbody : (executeAllBody ord fuel s i).outcome = .ok () ∧
        CacheSound s0 (executeAllBody ord fuel s i).sched rank ∧
        (hasTask s0 i = true → Executed (executeAllBody ord fuel s i).sched i) := by
      by_cases hp : Pending s i
      · obtain ⟨t, ht, hpt⟩ := hp
        have hh : hasTask s0 i = true := by
          rw [← hext.hasTask i]
          exact hasTask_iff.mpr ⟨t, ht⟩
        have hb := executeAllBody_of_pending ord fuel s i t ht hpt
        obtain ⟨v, _, ho, hc2⟩ := getResult_denote ord s0 rank hacy hval hnf (fuel + 1) s i
          hext hc hh (hfuel i hh)
        refine ⟨hb.2.2.1.mpr ⟨v, ho⟩, by rw [hb.1]; exact hc2, fun _ => ?_⟩
        rw [hb.1]
        obtain ⟨t1, ht1, hx1, _⟩ := getResult_ok_cached ord (fuel + 1) s i v ho
        exact ⟨t1, ht1, hx1⟩
      · rw [executeAllBody_of_not_pending ord fuel s i hp]
        refine ⟨rfl, hc, fun hh => ?_⟩
        obtain ⟨t, ht⟩ := hasTask_iff.mp (by rw [hext.hasTask i]; exact hh : hasTask s i = true)
        cases hx : t.isExecuted with
        | true => exact ⟨t, ht, hx⟩
        | false => exact absurd ⟨t, ht, hx⟩ hp
    have hext1 := executeAllBody_ext ord fuel s i
    obtain ⟨ho, hcs, hex⟩ := ih (executeAllBody ord fuel s i).sched (hext.trans hext1) hbody.2.1
    have heq : executeAllLoop ord fuel (i :: rest) s =
        ⟨(executeAllLoop ord fuel rest (executeAllBody ord fuel s i).sched).outcome,
          (executeAllLoop ord fuel rest (executeAllBody ord fuel s i).sched).sched,
          (executeAllBody ord fuel s i).calls ++
            (executeAllLoop ord fuel rest (executeAllBody ord fuel s i).sched).calls⟩ := by
      simp only [executeAllLoop]
      exact andThen_ok _ _ () hbody.1
    rw [heq]
    refine ⟨ho, hcs, fun j hj hh => ?_⟩
    rcases List.mem_cons.mp hj with hj | hj
    · rw [hj]
      exact (executeAllLoop_ext ord fuel rest _).executed_of (hbody.2.2 (hj ▸ hh))
    · exact hex j hj hh

/-- The loop body of `executeAll` against `getResult` with the value dropped,
in a state where executed tasks hold results. -/
theorem executeAllBody_eq_getResult (ord : ArgOrder) (fuel : Nat) (s : TTaskScheduler α)
    (i : Nat) (hres : HasResults s) :
    executeAllBody ord fuel s i =
      (if hasTask s i then
        (getResult ord (fuel + 1) s i).andThen fun _ s1 => (⟨.ok (), s1, []⟩ : Step α Unit)
      else ⟨.ok (), s, []⟩) := by
  rcases hs : s.slot i with _ | _ | t
  · have hh : hasTask s i = false := by
      cases h : hasTask s i with
      | false => rfl
      | true =>
        obtain ⟨t, ht⟩ := hasTask_iff.mp h
        rw [hs] at ht
        cases ht
    rw [hh]
    simp [executeAllBody, hs]
  · have hh : hasTask s i = false := by
      cases h : hasTask s i with
      | false => rfl
      | true =>
        obtain ⟨t, ht⟩ := hasTask_iff.mp h
        rw [hs] at ht
        cases ht
    rw [hh]
    simp [executeAllBody, hs]
  · rw [hasTask_iff.mpr ⟨t, hs⟩]
    simp only [if_true]
    cases hx : t.isExecuted with
    | true =>
      obtain ⟨v, hv⟩ := hres i t hs hx
      rw [getResult_of_cached ord fuel s i t v hs hx hv]
      simp [executeAllBody, hs, hx, Step.andThen]
    | false =>
      have hb := executeAllBody_of_pending ord fuel s i t hs hx
      cases ho : (getResult ord (fuel + 1) s i).outcome with
      | error e =>
        have h1 := (hb.2.2.2 e).mpr ho
        rw [andThen_error _ _ e ho, ← hb.1, ← hb.2.1, ← h1]
      | ok v =>
        have h1 := hb.2.2.1.mpr ⟨v, ho⟩
        rw [andThen_ok _ _ v ho]
        simp only [List.append_nil]
        rw [← hb.1, ← hb.2.1, ← h1]

theorem executeAllLoop_eq_getResultEach (ord : ArgOrder) (fuel : Nat) (is : List Nat) :
    ∀ (s : TTaskScheduler α), HasResults s →
      executeAllLoop ord fuel is s = getResultEach ord (fuel + 1) is s := by
  induction is with
  | nil => intro s _; rfl
  | cons i rest ih =>
    intro s hres
    simp only [executeAllLoop, getResultEach]
    rw [← executeAllBody_eq_getResult ord fuel s i hres]
    cases ho : (executeAllBody ord fuel s i).outcome with
    | error e => simp [Step.andThen, ho]
    | ok v =>
      simp only [Step.andThen, ho]
      rw [ih _ (hasResults_of_ext (executeAllBody_ext ord fuel s i) hres)]

end ExecuteAll

section ExecuteAllClaims

variable {α : Type}

/-- On a coherent scheduler with an acyclic graph, valid references and
callables that do not fail, `executeAll` with enough fuel succeeds and leaves
every stored task executed with its result. -/
theorem executeAll_succeeds (ord : ArgOrder) (s : TTaskScheduler α) (hacy : Acyclic s)
    (hval : ValidRefs s) (hnf : NoFail s) (hcoh : Coherent s) :
    ∃ fuel0, ∀ fuel, fuel0 ≤ fuel →
      (executeAll ord fuel s).outcome = .ok () ∧
      ∀ i, hasTask s i = true →
        ∃ t v, (executeAll ord fuel s).sched.slot i = some (some t) ∧ t.isExecuted = true ∧
          t.result = some v := by
  obtain ⟨rank, hrank⟩ := hacy
  have hcs := cacheSound_of_coherent s rank hrank hval hcoh
  obtain ⟨N, hN⟩ := rank_bound rank s.taskList.length
  refine ⟨N, fun fuel hf => ?_⟩
  have hlt : ∀ i, hasTask s i = true → i < s.taskList.length := by
    intro i hh
    obtain ⟨t, ht⟩ := hasTask_iff.mp hh
    exact slot_lt ht
  obtain ⟨ho, hc2, hex⟩ := executeAllLoop_ok ord s rank hrank hval hnf fuel
    (fun i hh => by have := hN i (hlt i hh); omega) (List.range s.taskList.length) s
    (Ext.refl s) hcs
  refine ⟨ho, fun i hh => ?_⟩
  obtain ⟨t, ht, hx⟩ := hex i (List.mem_range.mpr (hlt i hh)) hh
  obtain ⟨v, hv, _⟩ := hc2 i t ht hx
  exact ⟨t, v, ht, hx, hv⟩

/-- C15: in every state reached from a fresh scheduler, `executeAll()` ends
like, leaves the scheduler as, and invokes the same callables in the same
order as calling `getResult` on each identifier for which `hasTask` holds, in
ascending order (the loop calls `execute` directly, so its recursion is one
level shallower than that of the `getResult` calls); and when the graph is
acyclic, the references are valid and no callable fails, both return normally
for every sufficient recursion bound. -/
theorem executeAll_eq_getResult_on_each (ord : ArgOrder) (fuelR : Nat) (ops : List (Op α))
    (hacy : Acyclic (runOps ord fuelR ops Run.start).sched)
    (hval : ValidRefs (runOps ord fuelR ops Run.start).sched)
    (hnf : NoFail (runOps ord fuelR ops Run.start).sched) :
    (∀ fuel, executeAll ord fuel (runOps ord fuelR ops Run.start).sched
      = getResultEach ord (fuel + 1)
          (List.range (runOps ord fuelR ops Run.start).sched.taskList.length)
          (runOps ord fuelR ops Run.start).sched) ∧
    ∃ fuel0, ∀ fuel, fuel0 ≤ fuel →
      (executeAll ord fuel (runOps ord fuelR ops Run.start).sched).outcome = .ok () ∧
      (getResultEach ord (fuel + 1)
          (List.range (runOps ord fuelR ops Run.start).sched.taskList.length)
          (runOps ord fuelR ops Run.start).sched).outcome = .ok () := by
  have hcoh := coherent_runOps ord fuelR ops (α := α)
  generalize (runOps ord fuelR ops Run.start).sched = s at hacy hval hnf hcoh ⊢
  have heq : ∀ fuel, executeAll ord fuel s
      = getResultEach ord (fuel + 1) (List.range s.taskList.length) s :=
    fun fuel => executeAllLoop_eq_getResultEach ord fuel _ s (hasResults_of_coherent hcoh)
  refine ⟨heq, ?_⟩
  obtain ⟨fuel0, h0⟩ := executeAll_succeeds ord s hacy hval hnf hcoh
  exact ⟨fuel0, fun fuel hf => ⟨(h0 fuel hf).1, by rw [← heq fuel]; exact (h0 fuel hf).1⟩⟩

/-- Witness for C15: `executeAll` on the diamond against `getResult` on the
identifiers 0, 1, 2, 3. -/
theorem executeAll_eq_getResult_on_each_witness :
    (∀ fuel, executeAll .leftToRight fuel (runOps .leftToRight 0 diamondOps Run.start).sched
      = getResultEach .leftToRight (fuel + 1)
          (List.range (runOps .leftToRight 0 diamondOps Run.start).sched.taskList.length)
          (runOps .leftToRight 0 diamondOps Run.start).sched) ∧
    ∃ fuel0, ∀ fuel, fuel0 ≤ fuel →
      (executeAll .leftToRight fuel (runOps .leftToRight 0 diamondOps Run.start).sched).outcome
        = .ok () ∧
      (getResultEach .leftToRight (fuel + 1)
          (List.range (runOps .leftToRight 0 diamondOps Run.start).sched.taskList.length)
          (runOps .leftToRight 0 diamondOps Run.start).sched).outcome = .ok () :=
  executeAll_eq_getResult_on_each .leftToRight 0 diamondOps diamond_acyclic diamond_validRefs
    diamond_noFail

end ExecuteAllClaims

/-! ## `getResult` against the reference value, callables that may throw -/

section Refines

variable {α : Type}

theorem denote_rank (s : TTaskScheduler α) (rank : Nat → Nat)
    (hacy : ∀ i t j, s.slot i = some (some t) → j ∈ t.kind.references → rank j < rank i) :
    ∀ n id, rank id < n → denote s n id = denote s (rank id + 1) id := by
  intro n
  induction n using Nat.strong_induction_on with
  | _ n ih =>
    intro id hr
    obtain ⟨k, rfl⟩ : ∃ k, n = k + 1 := ⟨n - 1, by omega⟩
    rcases hs : s.slot id with _ | _ | t
    · simp [denote, hs]
    · simp [denote, hs]
    · rw [denote_succ s k id t hs, denote_succ s (rank id) id t hs]
      apply eval_congr .leftToRight
      intro a ha
      cases a with
      | value u => rfl
      | futureValue f =>
        have hlt := hacy id t f.taskId hs (mem_references_of_mem_args .leftToRight t.kind f ha)
        simp only [denoteArg]
        by_cases hk : rank id = k
        · rw [hk]
        · exact (ih k (by omega) f.taskId (by omega)).trans
            (ih (rank id) (by omega) f.taskId hlt).symm

theorem eval_none_of_arg (ord : ArgOrder) (k : TaskKind α) (val : DeferredArgument α → Option α)
    (a : DeferredArgument α) (ha : a ∈ k.args ord) (hv : val a = none) : k.eval val = none := by
  cases h : k.eval val with
  | none => rfl
  | some r =>
    obtain ⟨v, hv2⟩ := eval_some_args ord k val r h a ha
    rw [hv] at hv2
    cases hv2

theorem eval_denoteArg_refValue (s : TTaskScheduler α) (rank : Nat → Nat)
    (hacy : ∀ i t j, s.slot i = some (some t) → j ∈ t.kind.references → rank j < rank i)
    (id : Nat) (t : BaseTask α) (ht : s.slot id = some (some t)) :
    t.kind.eval (denoteArg s (rank id)) = t.kind.eval (refValue s rank) := by
  apply eval_congr .leftToRight
  intro a ha
  cases a with
  | value u => rfl
  | futureValue f =>
    have hlt := hacy id t f.taskId ht (mem_references_of_mem_args .leftToRight t.kind f ha)
    simp only [denoteArg, refValue]
    exact denote_rank s rank hacy (rank id) f.taskId hlt

/-- Resolving arguments on an acyclic graph with valid references: either
every argument resolves to its reference value, or the resolution ends with
the exception of a callable and some argument has no reference value. -/
theorem resolveAll_refines (ord : ArgOrder) (s : TTaskScheduler α) (rank : Nat → Nat) (n : Nat)
    (ih : ∀ s2 id, Ext s s2 → CacheSound s s2 rank → hasTask s id = true → rank id < n →
      CacheSound s (getResult ord n s2 id).sched rank ∧
      (∀ v, denote s (rank id + 1) id = some v → (getResult ord n s2 id).outcome = .ok v) ∧
      (denote s (rank id + 1) id = none →
        (getResult ord n s2 id).outcome = .error .callableThrew))
    (as : List (DeferredArgument α)) :
    (∀ f, DeferredArgument.futureValue f ∈ as → hasTask s f.taskId = true ∧ rank f.taskId < n) →
    ∀ s2, Ext s s2 → CacheSound s s2 rank →
      CacheSound s (resolveAll (getResult ord n) s2 as).sched rank ∧
      ((∃ vs, (resolveAll (getResult ord n) s2 as).outcome = .ok vs ∧
          List.Forall₂ (fun a v => refValue s rank a = some v) as vs) ∨
        ((resolveAll (getResult ord n) s2 as).outcome = .error .callableThrew ∧
          ∃ a ∈ as, refValue s rank a = none)) := by
  induction as with
  | nil =>
    intro _ s2 _ hc
    exact ⟨hc, Or.inl ⟨[], rfl, List.Forall₂.nil⟩⟩
  | cons a rest iha =>
    intro hrefs s2 hext hc
    have h1 : CacheSound s (a.resolve (getResult ord n) s2).sched rank ∧
        ((∃ v, (a.resolve (getResult ord n) s2).outcome = .ok v ∧ refValue s rank a = some v) ∨
          ((a.resolve (getResult ord n) s2).outcome = .error .callableThrew ∧
            refValue s rank a = none)) := by
      cases a with
      | value u => exact ⟨hc, Or.inl ⟨u, rfl, rfl⟩⟩
      | futureValue f =>
        obtain ⟨hh, hr⟩ := hrefs f (List.mem_cons_self _ _)
        obtain ⟨hc2, hsome, hnone⟩ := ih s2 f.taskId hext hc hh hr
        refine ⟨hc2, ?_⟩
        cases hd : denote s (rank f.taskId + 1) f.taskId with
        | none => exact Or.inr ⟨hnone hd, hd⟩
        | some v => exact Or.inl ⟨v, hsome v hd, hd⟩
    obtain ⟨hc1, h1⟩ := h1
    rcases h1 with ⟨v, ho, hv⟩ | ⟨ho, hv⟩
    · have hext1 : Ext s (a.resolve (getResult ord n) s2).sched :=
        hext.trans (resolve_ext _ (getResult_ext ord n) s2 a)
      obtain ⟨hc2, h2⟩ := iha (fun f hf => hrefs f (List.mem_cons_of_mem _ hf)) _ hext1 hc1
      have hsched : (resolveAll (getResult ord n) s2 (a :: rest)).sched
          = (resolveAll (getResult ord n) (a.resolve (getResult ord n) s2).sched rest).sched := by
        cases hos : (resolveAll (getResult ord n) (a.resolve (getResult ord n) s2).sched
          rest).outcome <;> simp [resolveAll, Step.andThen, ho, hos]
      refine ⟨by rw [hsched]; exact hc2, ?_⟩
      rcases h2 with ⟨vs, hos, hvs⟩ | ⟨hos, b, hb, hbv⟩
      · exact Or.inl ⟨v :: vs, by simp [resolveAll, Step.andThen, ho, hos],
          List.Forall₂.cons hv hvs⟩
      · exact Or.inr ⟨by simp [resolveAll, Step.andThen, ho, hos], b,
          List.mem_cons_of_mem _ hb, hbv⟩
    · have hsched : (resolveAll (getResult ord n) s2 (a :: rest)).sched
          = (a.resolve (getResult ord n) s2).sched := by
        simp [resolveAll, Step.andThen, ho]
      refine ⟨by rw [hsched]; exact hc1, Or.inr ⟨by simp [resolveAll, Step.andThen, ho], a,
        List.mem_cons_self _ _, hv⟩⟩

/-- On an acyclic graph with valid references, `getResult` with fuel above the
rank of the task returns the reference value of the task when it has one and
ends with the exception of a callable when it has none; the caches stay
sound. -/
theorem getResult_refines (ord : ArgOrder) (s : TTaskScheduler α) (rank : Nat → Nat)
    (hacy : ∀ i t j, s.slot i = some (some t) → j ∈ t.kind.references → rank j < rank i)
    (hval : ValidRefs s) (n : Nat) :
    ∀ s2 id, Ext s s2 → CacheSound s s2 rank → hasTask s id = true → rank id < n →
      CacheSound s (getResult ord n s2 id).sched rank ∧
      (∀ v, denote s (rank id + 1) id = some v → (getResult ord n s2 id).outcome = .ok v) ∧
      (denote s (rank id + 1) id = none →
        (getResult ord n s2 id).outcome = .error .callableThrew) := by
  induction n with
  | zero => intro s2 id _ _ _ h; omega
  | succ n ih =>
    intro s2 id hext hc hh hr
    obtain ⟨t, ht⟩ := hasTask_iff.mp hh
    obtain ⟨t2, ht2, hk⟩ := hext.kind ht
    cases hx : t2.isExecuted with
    | true =>
      obtain ⟨v, hv, hd⟩ := hc id t2 ht2 hx
      rw [getResult_of_cached ord n s2 id t2 v ht2 hx hv]
      refine ⟨hc, fun w hw => ?_, fun hn => ?_⟩
      · rw [hd] at hw
        cases hw
        rfl
      · rw [hd] at hn
        cases hn
    | false =>
      have hrefs : ∀ f, DeferredArgument.futureValue f ∈ t2.kind.args ord →
          hasTask s f.taskId = true ∧ rank f.taskId < n := by
        intro f hf
        rw [hk] at hf
        have hmem := mem_references_of_mem_args ord t.kind f hf
        exact ⟨hval id t f.taskId ht hmem, by have := hacy id t f.taskId ht hmem; omega⟩
      obtain ⟨hcs, hra⟩ := resolveAll_refines ord s rank n ih (t2.kind.args ord) hrefs
        s2 hext hc
      have hden : denote s (rank id + 1) id = t2.kind.eval (refValue s rank) := by
        rw [denote_succ s (rank id) id t ht, eval_denoteArg_refValue s rank hacy id t ht, hk]
      rcases hra with ⟨vs, hos, hvs⟩ | ⟨hos, a, ha, hav⟩
      · rw [eval_eq_call ord t2.kind _ vs hvs] at hden
        rcases getResult_pending_cases ord n s2 id t2 ht2 hx with
          ⟨e, ho, _⟩ | ⟨vs2, ho, hc2, hg⟩ | ⟨vs2, r2, ho, hc2, hg⟩
        · rw [hos] at ho
          cases ho
        · rw [hos] at ho
          cases ho
          rw [hc2] at hden
          rw [hg]
          refine ⟨hcs, fun w hw => ?_, fun _ => rfl⟩
          rw [hden] at hw
          cases hw
        · rw [hos] at ho
          cases ho
          rw [hc2] at hden
          rw [hg]
          refine ⟨?_, fun w hw => ?_, fun hn => ?_⟩
          · intro i ti hi hxi
            simp only at hi
            by_cases hid : i = id
            · subst hid
              have hlt : i < (resolveAll (getResult ord n) s2
                  (t2.kind.args ord)).sched.taskList.length := by
                rw [(resolveAll_ext _ (getResult_ext ord n) _ s2).len]
                exact slot_lt ht2
              rw [slot_set_self _ hlt] at hi
              cases hi
              exact ⟨r2, rfl, hden⟩
            · rw [slot_set_ne _ hid] at hi
              exact hcs i ti hi hxi
          · rw [hden] at hw
            cases hw
            rfl
          · rw [hden] at hn
            cases hn
      · rw [eval_none_of_arg ord t2.kind _ a ha hav] at hden
        rcases getResult_pending_cases ord n s2 id t2 ht2 hx with
          ⟨e, ho, hg⟩ | ⟨vs2, ho, _, _⟩ | ⟨vs2, r2, ho, _, _⟩
        · rw [hos] at ho
          cases ho
          rw [hg]
          refine ⟨hcs, fun w hw => ?_, fun _ => rfl⟩
          rw [hden] at hw
          cases hw
        · rw [hos] at ho
          cases ho
        · rw [hos] at ho
          cases ho

end Refines

/-! ## Values when no invocation fails -/

section Returns

variable {α : Type}

theorem not_threw_of_returned {s s2 : TTaskScheduler α} {threw : Prop} {c : List Call}
    (h : LogMore s s2 threw c) (hret : ∀ e ∈ c, e.returned = true) : ¬ threw := by
  intro ht
  obtain ⟨l, D, hc, _, _⟩ := h.failed ht
  have := hret ⟨D, false⟩ (by rw [hc]; simp)
  simp at this

/-- On a coherent scheduler whose graph is acyclic with valid references, a
`getResult` on a stored task with fuel above its rank, none of whose
invocations throws, returns the task's callable applied to what its arguments
resolve to. -/
theorem getResult_value_of_returns (ord : ArgOrder) (s : TTaskScheduler α) (rank : Nat → Nat)
    (hacy : ∀ i t j, s.slot i = some (some t) → j ∈ t.kind.references → rank j < rank i)
    (hval : ValidRefs s) (hcoh : Coherent s) (id : Nat) (t : BaseTask α)
    (ht : s.slot id = some (some t)) (fuel : Nat) (hf : rank id < fuel)
    (hret : ∀ e ∈ (getResult ord fuel s id).calls, e.returned = true) :
    ∃ r, (getResult ord fuel s id).outcome = .ok r ∧
      t.kind.eval (demandValue ord fuel s) = some r := by
  have hcs := cacheSound_of_coherent s rank hacy hval hcoh
  obtain ⟨_, hsome, hnone⟩ := getResult_refines ord s rank hacy hval fuel s id (Ext.refl s) hcs
    (hasTask_iff.mpr ⟨t, ht⟩) hf
  cases hd : denote s (rank id + 1) id with
  | none => exact absurd (hnone hd) (not_threw_of_returned (getResult_logMore ord fuel s id) hret)
  | some r =>
    refine ⟨r, hsome r hd, ?_⟩
    rw [denote_succ s (rank id) id t ht] at hd
    rw [← hd]
    apply eval_congr .leftToRight
    intro a ha
    cases a with
    | value u => rfl
    | futureValue f =>
      have hmem := mem_references_of_mem_args .leftToRight t.kind f ha
      have hlt := hacy id t f.taskId ht hmem
      obtain ⟨w, hw⟩ := eval_some_args .leftToRight t.kind _ r hd _ ha
      simp only [denoteArg] at hw
      have hw2 : denote s (rank f.taskId + 1) f.taskId = some w := by
        rw [← denote_rank s rank hacy (rank id) f.taskId hlt]
        exact hw
      obtain ⟨_, hsf, _⟩ := getResult_refines ord s rank hacy hval fuel s f.taskId (Ext.refl s)
        hcs (hval id t f.taskId ht hmem) (by omega)
      simp only [demandValue, denoteArg, hsf w hw2, hw]

theorem guardedDouble_slot_cases (i : Nat) (t : BaseTask Int)
    (h : (runOps .leftToRight 0 guardedDoubleOps Run.start).sched.slot i = some (some t)) :
    (i = 0 ∧ t.kind.references = []) ∨ (i = 1 ∧ t.kind.references = [0]) := by
  have hs : (runOps .leftToRight 0 guardedDoubleOps Run.start).sched
      = ⟨[some ⟨.TaskWithoutArgs (fun _ => some 7), false, none⟩,
          some ⟨.TaskWithOneArg (fun v => if v < 0 then none else some (2 * v))
            (.futureValue ⟨0⟩), false, none⟩], 2⟩ := rfl
  rw [hs] at h
  rcases i with _ | _ | i
  · simp [TTaskScheduler.slot] at h
    subst h
    exact Or.inl ⟨rfl, rfl⟩
  · simp [TTaskScheduler.slot] at h
    subst h
    exact Or.inr ⟨rfl, rfl⟩
  · simp [TTaskScheduler.slot] at h

theorem guardedDouble_acyclic :
    Acyclic (runOps .leftToRight 0 guardedDoubleOps Run.start).sched := by
  refine ⟨fun i => i, fun i t j hi hj => ?_⟩
  show j < i
  rcases guardedDouble_slot_cases i t hi with ⟨h1, h2⟩ | ⟨h1, h2⟩
  · rw [h2] at hj
    simp at hj
  · rw [h2] at hj
    simp at hj
    omega

theorem guardedDouble_validRefs :
    ValidRefs (runOps .leftToRight 0 guardedDoubleOps Run.start).sched := by
  intro i t j hi hj
  rcases guardedDouble_slot_cases i t hi with ⟨h1, h2⟩ | ⟨h1, h2⟩
  · rw [h2] at hj
    simp at hj
  · rw [h2] at hj
    simp at hj
    subst hj
    rfl

/-- C1: in every state reached from a fresh scheduler whose dependency graph
is acyclic and in which every future reference names a non-removed task, a
`getResult(id)` on a stored task during which no invocation of a callable
fails returns, for every sufficient recursion bound, the task's callable
applied to its resolved arguments, an immediate argument resolving to its
stored value and a future reference to the value `getResult` returns for the
referenced task; when the callables cannot fail at all, no invocation does.
For the diamond B = 3, L = B + 1, R = B - 1, S = L + R, `getResult(S)` is 6. -/
theorem getResult_value (ord : ArgOrder) (fuelR : Nat) (ops : List (Op α)) (id : Nat)
    (t : BaseTask α)
    (hacy : Acyclic (runOps ord fuelR ops Run.start).sched)
    (hval : ValidRefs (runOps ord fuelR ops Run.start).sched)
    (ht : (runOps ord fuelR ops Run.start).sched.slot id = some (some t)) :
    (∃ fuel0, ∀ fuel, fuel0 ≤ fuel →
      (∀ e ∈ (getResult ord fuel (runOps ord fuelR ops Run.start).sched id).calls,
        e.returned = true) →
      ∃ r, (getResult ord fuel (runOps ord fuelR ops Run.start).sched id).outcome = .ok r ∧
        t.kind.eval (demandValue ord fuel (runOps ord fuelR ops Run.start).sched) = some r) ∧
    (NoFail (runOps ord fuelR ops Run.start).sched →
      ∃ fuel0, ∀ fuel, fuel0 ≤ fuel →
        ∃ r, (getResult ord fuel (runOps ord fuelR ops Run.start).sched id).outcome = .ok r ∧
          t.kind.eval (demandValue ord fuel (runOps ord fuelR ops Run.start).sched)
            = some r) ∧
    (getResult ord 3 diamond 3).outcome = .ok 6 := by
  refine ⟨?_, fun hnf => getResult_value_of_coherent ord _ id t hacy hval hnf
    (coherent_runOps ord fuelR ops) ht, by cases ord <;> rfl⟩
  obtain ⟨rank, hrank⟩ := hacy
  exact ⟨rank id + 1, fun fuel hf hret => getResult_value_of_returns ord _ rank hrank hval
    (coherent_runOps ord fuelR ops) id t ht fuel (by omega) hret⟩

/-- Witness for C1: a constant 7 feeding a callable that throws on negative
arguments only; no invocation fails and `getResult` returns 14. -/
theorem getResult_value_witness :
    (∀ e ∈ (getResult .leftToRight 2
        (runOps .leftToRight 0 guardedDoubleOps Run.start).sched 1).calls, e.returned = true) ∧
    (getResult .leftToRight 2 (runOps .leftToRight 0 guardedDoubleOps Run.start).sched 1).outcome
      = .ok 14 ∧
    ((∃ fuel0, ∀ fuel, fuel0 ≤ fuel →
      (∀ e ∈ (getResult .leftToRight fuel
          (runOps .leftToRight 0 guardedDoubleOps Run.start).sched 1).calls,
        e.returned = true) →
      ∃ r, (getResult .leftToRight fuel
          (runOps .leftToRight 0 guardedDoubleOps Run.start).sched 1).outcome = .ok r ∧
        (TaskKind.TaskWithOneArg (fun v => if v < 0 then none else some (2 * v))
          (.futureValue ⟨0⟩)).eval
          (demandValue .leftToRight fuel (runOps .leftToRight 0 guardedDoubleOps Run.start).sched)
          = some r) ∧
    (NoFail (runOps .leftToRight 0 guardedDoubleOps Run.start).sched →
      ∃ fuel0, ∀ fuel, fuel0 ≤ fuel →
        ∃ r, (getResult .leftToRight fuel
            (runOps .leftToRight 0 guardedDoubleOps Run.start).sched 1).outcome = .ok r ∧
          (TaskKind.TaskWithOneArg (fun v => if v < 0 then none else some (2 * v))
            (.futureValue ⟨0⟩)).eval
            (demandValue .leftToRight fuel
              (runOps .leftToRight 0 guardedDoubleOps Run.start).sched)
            = some r) ∧
    (getResult .leftToRight 3 diamond 3).outcome = .ok 6) :=
  ⟨by decide, rfl,
    getResult_value .leftToRight 0 guardedDoubleOps 1
      ⟨.TaskWithOneArg (fun v => if v < 0 then none else some (2 * v)) (.futureValue ⟨0⟩),
        false, none⟩
      guardedDouble_acyclic guardedDouble_validRefs rfl⟩

end Returns

/-! ## `executeAll` when no invocation fails -/

section ExecuteAllReturns

variable {α : Type}

theorem executeAllLoop_terminates (ord : ArgOrder) (s0 : TTaskScheduler α) (rank : Nat → Nat)
    (hacy : ∀ i t j, s0.slot i = some (some t) → j ∈ t.kind.references → rank j < rank i)
    (hval : ValidRefs s0) (fuel : Nat)
    (hfuel : ∀ i, hasTask s0 i = true → rank i < fuel + 1) (is : List Nat) :
    ∀ s, Ext s0 s → HasResults s →
      (executeAllLoop ord fuel is s).outcome = .ok () ∨
        (executeAllLoop ord fuel is s).outcome = .error .callableThrew := by
  induction is with
  | nil => intro s _ _; exact Or.inl rfl
  | cons i rest ih =>
    intro s hext hres
    have hb : (executeAllBody ord fuel s i).outcome = .ok () ∨
        (executeAllBody ord fuel s i).outcome = .error .callableThrew := by
      rw [executeAllBody_eq_getResult ord fuel s i hres]
      cases hh : hasTask s i with
      | false => exact Or.inl rfl
      | true =>
        have hh0 : hasTask s0 i = true := by rw [← hext.hasTask]; exact hh
        rcases getResult_terminates ord s0 rank hacy hval (fuel + 1) s i hext hres hh0
          (hfuel i hh0) with ⟨v, hv⟩ | hv
        · left
          simp [Step.andThen, hv]
        · right
          simp [Step.andThen, hv]
    have hext1 := executeAllBody_ext ord fuel s i
    simp only [executeAllLoop]
    rcases hb with hb | hb
    · rcases ih _ (hext.trans hext1) (hasResults_of_ext hext1 hres) with h | h
      · left
        simp [Step.andThen, hb, h]
      · right
        simp [Step.andThen, hb, h]
    · right
      simp [Step.andThen, hb]

theorem executeAllLoop_executed_of_ok (ord : ArgOrder) (fuel : Nat) (is : List Nat) :
    ∀ s : TTaskScheduler α, HasResults s → (executeAllLoop ord fuel is s).outcome = .ok () →
      ∀ i ∈ is, hasTask s i = true → Executed (executeAllLoop ord fuel is s).sched i := by
  induction is with
  | nil => intro s _ _ i hi; cases hi
  | cons j rest ih =>
    intro s hres ho i hi hh
    have hext1 := executeAllBody_ext ord fuel s j
    simp only [executeAllLoop] at ho ⊢
    rcases andThen_sched (executeAllBody ord fuel s j)
      (fun _ s1 => executeAllLoop ord fuel rest s1) with ⟨e, he, h⟩ | ⟨u, hu, h⟩
    · rw [h] at ho
      cases ho
    · rw [h] at ho ⊢
      simp only at ho ⊢
      have hextr := executeAllLoop_ext ord fuel rest (executeAllBody ord fuel s j).sched
      rcases List.mem_cons.mp hi with hij | hi
      · subst hij
        apply hextr.executed_of
        have hbe := executeAllBody_eq_getResult ord fuel s i hres
        rw [hh] at hbe
        simp only [if_true] at hbe
        cases hg : (getResult ord (fuel + 1) s i).outcome with
        | error e =>
          rw [hbe] at hu
          simp [Step.andThen, hg] at hu
        | ok v =>
          obtain ⟨t, ht, hx, _⟩ := getResult_ok_cached ord (fuel + 1) s i v hg
          refine ⟨t, ?_, hx⟩
          rw [hbe, (andThen_pure (getResult ord (fuel + 1) s i) (fun _ => ())).1]
          exact ht
      · exact ih _ (hasResults_of_ext hext1 hres) ho i hi (by rw [hext1.hasTask]; exact hh)

end ExecuteAllReturns

section ExecuteAllClaim

variable {α : Type}

/-- C14: in every state reached from a fresh scheduler whose dependency graph
is acyclic and in which every future reference names a non-removed task, an
`executeAll()` during which no invocation of a callable fails returns
normally, for every sufficient recursion bound; afterwards every non-removed
task is executed; the callable of each task that was pending has been invoked
exactly once, and that of any other task (already executed, or removed) not
at all; reset slots stay reset; and a `getResult` on a non-removed identifier
then returns the cached value without invoking a callable or changing the
scheduler.  When the callables cannot fail at all, no invocation fails. -/
theorem executeAll_executes_everything (ord : ArgOrder) (fuelR : Nat) (ops : List (Op α))
    (hacy : Acyclic (runOps ord fuelR ops Run.start).sched)
    (hval : ValidRefs (runOps ord fuelR ops Run.start).sched) :
    ∃ fuel0, ∀ fuel, fuel0 ≤ fuel →
      (NoFail (runOps ord fuelR ops Run.start).sched →
        ∀ e ∈ (executeAll ord fuel (runOps ord fuelR ops Run.start).sched).calls,
          e.returned = true) ∧
      ((∀ e ∈ (executeAll ord fuel (runOps ord fuelR ops Run.start).sched).calls,
          e.returned = true) →
        (executeAll ord fuel (runOps ord fuelR ops Run.start).sched).outcome = .ok () ∧
        (∀ i, hasTask (runOps ord fuelR ops Run.start).sched i = true →
          Executed (executeAll ord fuel (runOps ord fuelR ops Run.start).sched).sched i) ∧
        (∀ i, Pending (runOps ord fuelR ops Run.start).sched i →
          ((executeAll ord fuel (runOps ord fuelR ops Run.start).sched).calls.map
            Call.task).count i = 1 ∧
          (⟨i, true⟩ : Call) ∈
            (executeAll ord fuel (runOps ord fuelR ops Run.start).sched).calls) ∧
        (∀ i, ¬ Pending (runOps ord fuelR ops Run.start).sched i →
          ((executeAll ord fuel (runOps ord fuelR ops Run.start).sched).calls.map
            Call.task).count i = 0) ∧
        (∀ i, (runOps ord fuelR ops Run.start).sched.slot i = some none →
          (executeAll ord fuel (runOps ord fuelR ops Run.start).sched).sched.slot i
            = some none) ∧
        (∀ i fuel2, hasTask (runOps ord fuelR ops Run.start).sched i = true →
          ∃ v, getResult ord (fuel2 + 1)
              (executeAll ord fuel (runOps ord fuelR ops Run.start).sched).sched i
            = ⟨.ok v, (executeAll ord fuel (runOps ord fuelR ops Run.start).sched).sched,
                []⟩)) := by
  have hcoh := coherent_runOps ord fuelR ops (α := α)
  generalize (runOps ord fuelR ops Run.start).sched = s at hacy hval hcoh ⊢
  obtain ⟨rank, hrank⟩ := hacy
  have hres := hasResults_of_coherent hcoh
  have hcs := cacheSound_of_coherent s rank hrank hval hcoh
  obtain ⟨N, hN⟩ := rank_bound rank s.taskList.length
  have hlt : ∀ i, hasTask s i = true → i < s.taskList.length := by
    intro i hh
    obtain ⟨t, ht⟩ := hasTask_iff.mp hh
    exact slot_lt ht
  refine ⟨N, fun fuel hf => ?_⟩
  have hfuel : ∀ i, hasTask s i = true → rank i < fuel + 1 := by
    intro i hh
    have := hN i (hlt i hh)
    omega
  have hlog := executeAll_log ord fuel s
  have hmore := executeAll_logMore ord fuel s
  have hext := executeAll_ext ord fuel s
  constructor
  · intro hnf
    have ho : (executeAll ord fuel s).outcome = .ok () :=
      (executeAllLoop_ok ord s rank hrank hval hnf fuel hfuel (List.range s.taskList.length) s
        (Ext.refl s) hcs).1
    exact hmore.clean (by rw [ho]; simp)
  · intro hall
    have ho : (executeAll ord fuel s).outcome = .ok () := by
      rcases executeAllLoop_terminates ord s rank hrank hval fuel hfuel
        (List.range s.taskList.length) s (Ext.refl s) hres with h | h
      · exact h
      · exact absurd h (not_threw_of_returned hmore hall)
    have hex : ∀ i, hasTask s i = true → Executed (executeAll ord fuel s).sched i :=
      fun i hh => executeAllLoop_executed_of_ok ord fuel (List.range s.taskList.length) s hres
        ho i (List.mem_range.mpr (hlt i hh)) hh
    have hnodup : ((executeAll ord fuel s).calls.map Call.task).Nodup := by
      rw [List.Nodup, List.pairwise_map]
      exact hlog.norerun.imp_of_mem (fun {e e2} he _ hr heq => hr (hall e he) heq.symm)
    refine ⟨ho, hex, fun i hp => ?_, fun i hnp => ?_, fun i hn => hext.null hn,
      fun i fuel2 hh => ?_⟩
    · have hh : hasTask s i = true := by
        obtain ⟨t, ht, _⟩ := hp
        exact hasTask_iff.mpr ⟨t, ht⟩
      have hmem := hmore.complete i hp (hex i hh)
      exact ⟨List.count_eq_one_of_mem hnodup (List.mem_map.mpr ⟨_, hmem, rfl⟩), hmem⟩
    · apply List.count_eq_zero_of_not_mem
      intro hmem
      obtain ⟨e, he, hei⟩ := List.mem_map.mp hmem
      have := hlog.pending e he
      rw [hei] at this
      exact hnp this
    · obtain ⟨t, ht, hx⟩ := hex i hh
      obtain ⟨v, hv⟩ := hasResults_of_ext hext hres i t ht hx
      exact ⟨v, getResult_of_cached ord fuel2 _ i t v ht hx hv⟩

end ExecuteAllClaim

section ExecuteAllClaimWitness

/-- Witness for C14: `executeAll` on a constant 7 feeding a callable that
throws on negative arguments only; both invocations return. -/
theorem executeAll_executes_everything_witness :
    (executeAll .leftToRight 1 (runOps .leftToRight 0 guardedDoubleOps Run.start).sched).calls
      = [⟨0, true⟩, ⟨1, true⟩] ∧
    ∃ fuel0, ∀ fuel, fuel0 ≤ fuel →
      (NoFail (runOps .leftToRight 0 guardedDoubleOps Run.start).sched →
        ∀ e ∈ (executeAll .leftToRight fuel
            (runOps .leftToRight 0 guardedDoubleOps Run.start).sched).calls,
          e.returned = true) ∧
      ((∀ e ∈ (executeAll .leftToRight fuel
            (runOps .leftToRight 0 guardedDoubleOps Run.start).sched).calls,
          e.returned = true) →
        (executeAll .leftToRight fuel
          (runOps .leftToRight 0 guardedDoubleOps Run.start).sched).outcome = .ok () ∧
        (∀ i, hasTask (runOps .leftToRight 0 guardedDoubleOps Run.start).sched i = true →
          Executed (executeAll .leftToRight fuel
            (runOps .leftToRight 0 guardedDoubleOps Run.start).sched).sched i) ∧
        (∀ i, Pending (runOps .leftToRight 0 guardedDoubleOps Run.start).sched i →
          ((executeAll .leftToRight fuel
            (runOps .leftToRight 0 guardedDoubleOps Run.start).sched).calls.map
            Call.task).count i = 1 ∧
          (⟨i, true⟩ : Call) ∈ (executeAll .leftToRight fuel
            (runOps .leftToRight 0 guardedDoubleOps Run.start).sched).calls) ∧
        (∀ i, ¬ Pending (runOps .leftToRight 0 guardedDoubleOps Run.start).sched i →
          ((executeAll .leftToRight fuel
            (runOps .leftToRight 0 guardedDoubleOps Run.start).sched).calls.map
            Call.task).count i = 0) ∧
        (∀ i, (runOps .leftToRight 0 guardedDoubleOps Run.start).sched.slot i = some none →
          (executeAll .leftToRight fuel
            (runOps .leftToRight 0 guardedDoubleOps Run.start).sched).sched.slot i
            = some none) ∧
        (∀ i fuel2, hasTask (runOps .leftToRight 0 guardedDoubleOps Run.start).sched i = true →
          ∃ v, getResult .leftToRight (fuel2 + 1)
              (executeAll .leftToRight fuel
                (runOps .leftToRight 0 guardedDoubleOps Run.start).sched).sched i
            = ⟨.ok v, (executeAll .leftToRight fuel
                (runOps .leftToRight 0 guardedDoubleOps Run.start).sched).sched, []⟩)) :=
  ⟨by decide,
    executeAll_executes_everything .leftToRight 0 guardedDoubleOps guardedDouble_acyclic
      guardedDouble_validRefs⟩

end ExecuteAllClaimWitness

/-! ## Future references are bound when they are resolved -/

section LateBinding

variable {α : Type}

end LateBinding

section LateBindingWitness

end LateBindingWitness

/-! ## Cycles among pending tasks -/

section Cycles

variable {α : Type}

end Cycles

section CycleClaim

variable {α : Type}

end CycleClaim

section CycleClaimWitness

end CycleClaimWitness

end TaskScheduler
